import Mathlib

/-!
A verification development for the `nix-parser` repository (`src/lib.rs`):
a recursive-descent parser for a restricted Nix dialect together with its
pretty-printer.  The Rust code is shallowly embedded below:

* the cursor `NixParser` (input as a character list, position, 1-based
  line/column) with `advance`, `current`, `peek_string`;
* the lexical scanners (`skip_whitespace`, `parse_identifier`, `parse_path`,
  `parse_string`, `parse_number`, `parse_attribute_path`,
  `parse_function_params`);
* the mutually recursive value parser (`parse_value`, `parse_list`,
  `parse_attrset`, `parse_let`) — the Rust recursion carries no explicit
  budget, so the embedding threads a `fuel : Nat` argument through the
  mutually recursive functions and answers a distinguished error when it
  runs out; every theorem either supplies ample concrete fuel or assumes
  `fuelFor v ≤ fuel`;
* the serializer `write_with_indent` (here `render`).

Modelling conventions, each noted again at the definition it concerns:
Rust's `HashMap<String, NixValue>` is modelled as an insertion-ordered
association list whose insert replaces the value of an existing key in
place; `char::is_alphanumeric`/`is_whitespace`/`is_numeric` are modelled at
ASCII precision (no claim involves non-ASCII input); `i64`/`f64` parsing and
printing are modelled exactly (`Int` with an explicit range check, `Rat`
without IEEE rounding).  Text is `List Char`, matching the Rust `Vec<char>`
buffer.
-/

namespace NixParse

/-- The double-quote character. -/
def dq : Char := Char.ofNat 34

/-- The single-quote character. -/
def sq : Char := Char.ofNat 39

/-- The backslash character. -/
def bs : Char := Char.ofNat 92

/-- The opening-brace character. -/
def obr : Char := Char.ofNat 123

/-- The closing-brace character. -/
def cbr : Char := Char.ofNat 125

/-- Model of Rust `c.is_whitespace()`, at ASCII precision. -/
def isWs (c : Char) : Bool := c.isWhitespace

/-- Model of the identifier-character test in `parse_identifier`
(`c.is_alphanumeric() || c == '_' || c == '-' || c == '\''`), ASCII. -/
def identChar (c : Char) : Bool :=
  c.isAlphanum || c = '_' || c = '-' || c = sq

/-- Model of the path-character set in `parse_path`
(`'a'..='z' | 'A'..='Z' | '0'..='9' | '_' | '-' | '/' | '.'`). -/
def pathChar (c : Char) : Bool :=
  c.isAlpha || c.isDigit || c = '_' || c = '-' || c = '/' || c = '.'

/-- The characters consumed by the number scanner `parse_number`
(`c.is_numeric() || c == '.' || c == '-'`), ASCII digits. -/
def numChar (c : Char) : Bool := c.isDigit || c = '.' || c = '-'

/-- Model of `ParseError`: message, 1-based line and column, context snippet.
`message` is kept as a Lean `String` label; `context` is the character
window produced by `get_context`. -/
structure ParseError where
  message : String
  line : Nat
  col : Nat
  context : List Char
  deriving DecidableEq, Repr

/-- Model of the `NixParser` struct: the full input as characters plus the
cursor position and 1-based line/column counters. -/
structure NixParser where
  input : List Char
  pos : Nat
  line : Nat
  col : Nat
  deriving DecidableEq, Repr

/-- `NixParser::new`. -/
def NixParser.new (input : List Char) : NixParser :=
  ⟨input, 0, 1, 1⟩

/-- `NixParser::current`: the character at the cursor, if any. -/
def current (p : NixParser) : Option Char := p.input[p.pos]?

/-- `NixParser::advance`: consume one character, bumping the line counter and
resetting the column on a newline; past the end only `pos` moves. -/
def advance (p : NixParser) : NixParser :=
  match current p with
  | some c =>
    if c = '\n' then { p with pos := p.pos + 1, line := p.line + 1, col := 1 }
    else { p with pos := p.pos + 1, col := p.col + 1 }
  | none => { p with pos := p.pos + 1 }

/-- `NixParser::peek_string` specialised to a character list: does `s` occur
literally at position `i` of the input? -/
def peekAt (p : NixParser) : List Char → Nat → Bool
  | [], _ => true
  | c :: cs, i => p.input[p.pos + i]? = some c && peekAt p cs (i + 1)

/-- `NixParser::peek_string`. -/
def peekS (p : NixParser) (s : String) : Bool := peekAt p s.toList 0

/-- `NixParser::get_context`: the ±`range` window with newlines rendered as
the two characters `\n` and a caret under the failure offset. -/
def getContext (p : NixParser) (range : Nat) : List Char :=
  let start := p.pos - range
  let stop := min (p.pos + range) p.input.length
  let ctx := (p.input.drop start).take (stop - start)
  let pointer := min (p.pos - start) ctx.length
  (ctx.flatMap fun c => if c = '\n' then [bs, 'n'] else [c]) ++
    '\n' :: List.replicate pointer ' ' ++ ['^']

/-- `NixParser::error`: a `ParseError` at the current cursor with a
30-character context window. -/
def mkError (p : NixParser) (msg : String) : ParseError :=
  ⟨msg, p.line, p.col, getContext p 30⟩

/-- The error produced only when the embedding's fuel runs out; no Rust
counterpart (the Rust recursion is unbounded). -/
def fuelError (p : NixParser) : ParseError :=
  ⟨"out of fuel", p.line, p.col, []⟩

end NixParse

namespace NixParse

/-- Internal fuel for the self-contained scanner loops: each iteration of
such a loop consumes at least one character, so `remaining + 1` steps always
suffice (the Rust loops carry no budget; this one is provably never
exhausted on the runs the lemmas describe). -/
def remFuel (p : NixParser) : Nat := p.input.length - p.pos + 1

/-- `advance` iterated `n` times, modelling the Rust `for _ in 0..n { self.advance(); }`. -/
def advanceN : Nat → NixParser → NixParser
  | 0, p => p
  | n + 1, p => advanceN n (advance p)

/-- The line-comment loop of `skip_whitespace`: consume up to and including
the next newline (or to end of input). -/
def skipLineF : Nat → NixParser → NixParser
  | 0, p => p
  | fuel + 1, p =>
    match current p with
    | some ch => if ch = '\n' then advance p else skipLineF fuel (advance p)
    | none => p

/-- The block-comment scan of `skip_whitespace`: advance until `*/` is next
or the input ends (the terminator itself is consumed by the caller). -/
def skipBlockF : Nat → NixParser → NixParser
  | 0, p => p
  | fuel + 1, p =>
    if peekS p "*/" then p
    else
      match current p with
      | some _ => skipBlockF fuel (advance p)
      | none => p

/-- `NixParser::skip_whitespace`: skip whitespace, `#`-to-newline comments
and `/* … */` block comments; an unterminated block comment silently stops
at end of input. -/
def skipWsF : Nat → NixParser → NixParser
  | 0, p => p
  | fuel + 1, p =>
    match current p with
    | some c =>
      if isWs c then skipWsF fuel (advance p)
      else if c = '#' then skipWsF fuel (skipLineF (remFuel p) p)
      else if peekS p "/*" then
        let q := skipBlockF (remFuel p) (advance (advance p))
        skipWsF fuel (if peekS q "*/" then advance (advance q) else q)
      else p
    | none => p

/-- `NixParser::skip_whitespace` with its internal fuel supplied. -/
def skip_whitespace (p : NixParser) : NixParser := skipWsF (remFuel p) p

/-- The greedy character-run scanner shared by `parse_identifier`,
`parse_path` and `parse_number`. -/
def scanWhileF (f : Char → Bool) : Nat → NixParser → List Char × NixParser
  | 0, p => ([], p)
  | fuel + 1, p =>
    match current p with
    | some c =>
      if f c then
        let r := scanWhileF f fuel (advance p)
        (c :: r.1, r.2)
      else ([], p)
    | none => ([], p)

/-- The greedy run scanner with its internal fuel supplied. -/
def scanWhile (f : Char → Bool) (p : NixParser) : List Char × NixParser :=
  scanWhileF f (remFuel p) p

/-- `NixParser::parse_identifier`: greedy run of identifier characters,
error if empty. -/
def parse_identifier (p : NixParser) : Except ParseError (List Char × NixParser) :=
  let r := scanWhile identChar p
  if r.1.isEmpty then .error (mkError r.2 "Expected identifier")
  else .ok r

/-- `NixParser::parse_path`: greedy run of path characters, error if empty. -/
def parse_path (p : NixParser) : Except ParseError (List Char × NixParser) :=
  let r := scanWhile pathChar p
  if r.1.isEmpty then .error (mkError r.2 "Expected path")
  else .ok r

/-- The `''…''` multi-line-string loop of `parse_string`: scanned verbatim
until the closing `''`, fatal on end of input. -/
def mlStringF : Nat → NixParser → Except ParseError (List Char × NixParser)
  | 0, p => .error (fuelError p)
  | fuel + 1, p =>
    match current p with
    | some c =>
      if c = sq ∧ p.input[p.pos + 1]? = some sq then .ok ([], advance (advance p))
      else (mlStringF fuel (advance p)).map fun r => (c :: r.1, r.2)
    | none => .error (mkError p "Unterminated multi-line string")

/-- The quoted-string loop of `parse_string`: backslash escapes for
`n`,`t`,`r`,`\`,`"`,`'` (any other escaped character passes through),
fatal on end of input. -/
def strLoopF (quote : Char) : Nat → Bool → NixParser → Except ParseError (List Char × NixParser)
  | 0, _, p => .error (fuelError p)
  | fuel + 1, escaped, p =>
    match current p with
    | some c =>
      if escaped then
        let d :=
          if c = 'n' then '\n'
          else if c = 't' then '\t'
          else if c = 'r' then '\r'
          else if c = bs then bs
          else if c = dq then dq
          else if c = sq then sq
          else c
        (strLoopF quote fuel false (advance p)).map fun r => (d :: r.1, r.2)
      else if c = bs then strLoopF quote fuel true (advance p)
      else if c = quote then .ok ([], advance p)
      else (strLoopF quote fuel false (advance p)).map fun r => (c :: r.1, r.2)
    | none => .error (mkError p "Unterminated string")

/-- `NixParser::parse_string`: dispatches between the `''…''` multi-line
form and the single/double-quoted form with escapes. -/
def parse_string (p : NixParser) : Except ParseError (List Char × NixParser) :=
  match current p with
  | none => .error (mkError p "Expected quote")
  | some quote =>
    if quote = sq ∧ p.input[p.pos + 1]? = some sq then
      mlStringF (remFuel p) (advance (advance p))
    else
      strLoopF quote (remFuel p) false (advance p)

/-- The numeric value of an ASCII digit. -/
def digitVal (c : Char) : Nat := c.toNat - 48

/-- The value of a string of ASCII digits, most significant first. -/
def foldDigits (cs : List Char) : Nat :=
  cs.foldl (fun a c => a * 10 + digitVal c) 0

/-- Model of Rust `str::parse::<i64>`: optional sign, a nonempty run of
digits, and the `i64` range check.  The value is an unbounded `Int`; the
range check makes the model agree with `i64` exactly. -/
def rustParseI64 (cs : List Char) : Option Int :=
  let core : List Char → Option Int := fun ds =>
    if !ds.isEmpty && ds.all Char.isDigit then some (foldDigits ds) else none
  let v : Option Int :=
    match cs with
    | [] => core cs
    | c :: rest =>
      if c = '-' then (core rest).map (fun n => -n)
      else if c = '+' then core rest
      else core cs
  match v with
  | some n => if -(2 ^ 63) ≤ n ∧ n ≤ 2 ^ 63 - 1 then some n else none
  | none => none

/-- Model of Rust `str::parse::<f64>` restricted to the character set the
number scanner can produce (digits, `.`, `-`; exponents/`inf`/`NaN` are
unreachable).  The accepted grammar is exactly Rust's
`[sign] (digits [. digits] | . digits)`; the value is modelled as the exact
rational (IEEE rounding is not modelled — every claim exercises only
exactly representable decimals). -/
def rustParseF64 (cs : List Char) : Option ℚ :=
  let core : List Char → Option ℚ := fun ds =>
    let ip := ds.takeWhile Char.isDigit
    let rest := ds.drop ip.length
    match rest with
    | [] => if ip.isEmpty then none else some (foldDigits ip)
    | d :: fr =>
      if d = '.' ∧ (fr.all Char.isDigit && (!ip.isEmpty || !fr.isEmpty)) = true then
        some ((foldDigits ip : ℚ) + (foldDigits fr : ℚ) / (10 ^ fr.length : ℚ))
      else none
  match cs with
  | [] => core cs
  | c :: rest =>
    if c = '-' then (core rest).map Neg.neg
    else if c = '+' then core rest
    else core cs

end NixParse

namespace NixParse

/-- Model of the `NixValue` AST.  Payload text is `List Char`; the
`HashMap<String, NixValue>` payloads of `AttrSet` and `Let` are modelled as
insertion-ordered association lists whose insert (`insertAttr`) replaces the
value of an existing key in place, matching `HashMap::insert` up to the
(unspecified) iteration order; `Float`'s `f64` is modelled as an exact
rational. -/
inductive NixValue where
  | null
  | bool (b : Bool)
  | int (n : Int)
  | float (q : ℚ)
  | str (s : List Char)
  | path (s : List Char)
  | list (items : List NixValue)
  | attrSet (attrs : List (List Char × NixValue))
  | fn (params : List (List Char)) (body : NixValue)
  | letE (bindings : List (List Char × NixValue)) (body : NixValue)
  | withE (expr : NixValue) (body : NixValue)
  | inherit (names : List (List Char))
  | imprt (s : List Char)
  | var (s : List Char)

/-- Model of `HashMap::insert` on the association-list representation:
overwrite the entry of an existing key in place, otherwise append. -/
def insertAttr (k : List Char) (v : NixValue) :
    List (List Char × NixValue) → List (List Char × NixValue)
  | [] => [(k, v)]
  | (k0, v0) :: rest =>
    if k0 = k then (k, v) :: rest else (k0, v0) :: insertAttr k v rest

/-- Is the character after the cursor an ASCII digit?  (The lookahead of the
negative-number dispatch in `parse_value`.) -/
def nextIsDigit (p : NixParser) : Bool :=
  match p.input[p.pos + 1]? with
  | some c => c.isDigit
  | none => false

/-- `NixParser::parse_number`: scan a maximal run of digits, `.` and `-`,
classify as float exactly when the run contains a `.`, and convert; a failed
conversion is a fatal error at the post-scan cursor. -/
def parse_number (p : NixParser) : Except ParseError (NixValue × NixParser) :=
  let r := scanWhile numChar p
  if r.1.contains '.' then
    match rustParseF64 r.1 with
    | some q => .ok (.float q, r.2)
    | none => .error (mkError r.2 "Invalid float")
  else
    match rustParseI64 r.1 with
    | some n => .ok (.int n, r.2)
    | none => .error (mkError r.2 "Invalid integer")

/-- The segment loop of `NixParser::parse_attribute_path`: a leading `./` is
rejected; each segment is a quoted string (kept with its quotes) or an
identifier; a `.` continues the path unless followed by `/`. -/
def attrPathLoopF : Nat → List Char → NixParser → Except ParseError (List Char × NixParser)
  | 0, _, p => .error (fuelError p)
  | fuel + 1, acc, p =>
    if current p = some '.' ∧ p.input[p.pos + 1]? = some '/' then
      .error (mkError p "Path found where identifier expected")
    else do
      let (part, p1) ←
        if current p = some dq then
          (parse_string p).map fun r => (dq :: r.1 ++ [dq], r.2)
        else parse_identifier p
      let acc := acc ++ part
      let p2 := skip_whitespace p1
      if current p2 = some '.' then
        if p2.input[p2.pos + 1]? = some '/' then .ok (acc, p2)
        else attrPathLoopF fuel (acc ++ ['.']) (skip_whitespace (advance p2))
      else .ok (acc, p2)

/-- `NixParser::parse_attribute_path` with its internal fuel supplied. -/
def parse_attribute_path (p : NixParser) : Except ParseError (List Char × NixParser) :=
  attrPathLoopF (remFuel p) [] p

/-- The parameter loop of `NixParser::parse_function_params`: identifiers
optionally separated by `,`, a literal `...` (optionally followed by `,`)
allowed anywhere; stops at `}` (consumed if present). -/
def fnParamsLoopF : Nat → List (List Char) → NixParser →
    Except ParseError (List (List Char) × NixParser)
  | 0, _, p => .error (fuelError p)
  | fuel + 1, params, p =>
    if current p = some cbr ∨ current p = none then
      .ok (params, if current p = some cbr then advance p else p)
    else if peekS p "..." then
      let p1 := skip_whitespace (advanceN 3 p)
      let p2 := if current p1 = some ',' then skip_whitespace (advance p1) else p1
      if current p2 = some cbr then .ok (params, advance p2)
      else fnParamsLoopF fuel params p2
    else do
      let (param, p1) ← parse_identifier p
      let p2 := skip_whitespace p1
      let p3 := if current p2 = some ',' then skip_whitespace (advance p2) else p2
      fnParamsLoopF fuel (params ++ [param]) p3

/-- `NixParser::parse_function_params`: consume `{`, then the parameter
loop. -/
def parse_function_params (p : NixParser) :
    Except ParseError (List (List Char) × NixParser) :=
  fnParamsLoopF (remFuel p) [] (skip_whitespace (advance p))

/-- The `inherit` name loop of `parse_attrset`: identifiers until `;` or end
of input; the names are read and discarded (no `Inherit` node is built). -/
def inheritLoopF : Nat → NixParser → Except ParseError NixParser
  | 0, p => .error (fuelError p)
  | fuel + 1, p =>
    if current p = some ';' ∨ current p = none then .ok p
    else do
      let (_, p1) ← parse_identifier p
      inheritLoopF fuel (skip_whitespace p1)

end NixParse

namespace NixParse

mutual

/-- `NixParser::parse_value`: skip whitespace, then dispatch on the current
character or keyword.  On `{` the function/attrset disambiguation runs: the
cursor triple is snapshotted, a parameter list is attempted, and unless the
attempt succeeds with `:` next the cursor is restored to the snapshot
(the input buffer is never mutated, so the restored state is the snapshot)
and the span reparsed as an attribute set. -/
def parseValue : Nat → NixParser → Except ParseError (NixValue × NixParser)
  | 0, p => .error (fuelError p)
  | fuel + 1, p0 =>
    let p := skip_whitespace p0
    if current p = some obr then
      let savedPos := p.pos
      let savedLine := p.line
      let savedCol := p.col
      match parse_function_params p with
      | .ok (params, p1) =>
        let p2 := skip_whitespace p1
        if current p2 = some ':' then do
          let (body, p3) ← parseValue fuel (skip_whitespace (advance p2))
          .ok (.fn params body, p3)
        else
          parseAttrset fuel ⟨p2.input, savedPos, savedLine, savedCol⟩
      | .error _ =>
        parseAttrset fuel ⟨p.input, savedPos, savedLine, savedCol⟩
    else
      match current p with
      | some '[' => parseList fuel (skip_whitespace (advance p)) []
      | some c =>
        if c = dq then (parse_string p).map fun r => (.str r.1, r.2)
        else if c = sq then
          -- the two Rust arms of this branch are identical; parse_string
          -- itself distinguishes the multi-line form
          (parse_string p).map fun r => (.str r.1, r.2)
        else if c.isDigit ∨ (c = '-' ∧ nextIsDigit p) then
          parse_number p
        else if c = '.' then
          match p.input[p.pos + 1]? with
          | some nxt =>
            if nxt = '/' ∨ nxt = '.' then
              (parse_path p).map fun r => (.path r.1, r.2)
            else .error (mkError p "Unexpected dot - expected path or attribute access")
          | none => .error (mkError p "Unexpected dot - expected path or attribute access")
        else if c = '/' then (parse_path p).map fun r => (.path r.1, r.2)
        else if peekS p "null" then .ok (.null, advanceN 4 p)
        else if peekS p "true" then .ok (.bool true, advanceN 4 p)
        else if peekS p "false" then .ok (.bool false, advanceN 5 p)
        else if peekS p "let" then parseLet fuel p
        else if peekS p "import" then do
          let (v, p2) ← parseValue fuel (skip_whitespace (advanceN 6 p))
          match v with
          | .str s => .ok (.imprt s, p2)
          | .path s => .ok (.imprt s, p2)
          | _ => .error (mkError p2 "Expected string or path after import")
        else do
          let (id, p1) ← parse_attribute_path p
          let p2 := skip_whitespace p1
          if current p2 = some ':' then do
            let (body, p3) ← parseValue fuel (skip_whitespace (advance p2))
            .ok (.fn [id] body, p3)
          else .ok (.var id, p2)
      | none => .error (mkError p "Unexpected end of input")

/-- The element loop of `NixParser::parse_list`: values until `]` or end of
input (no separator; the missing `]` is tolerated). -/
def parseList : Nat → NixParser → List NixValue → Except ParseError (NixValue × NixParser)
  | 0, p, _ => .error (fuelError p)
  | fuel + 1, p, items =>
    if current p = some ']' ∨ current p = none then
      .ok (.list items, if current p = some ']' then advance p else p)
    else do
      let (v, p1) ← parseValue fuel p
      parseList fuel (skip_whitespace p1) (items ++ [v])

/-- `NixParser::parse_attrset`: consume `{`, then the entry loop. -/
def parseAttrset : Nat → NixParser → Except ParseError (NixValue × NixParser)
  | 0, p => .error (fuelError p)
  | fuel + 1, p => parseAttrsetLoop fuel [] (skip_whitespace (advance p))

/-- The entry loop of `parse_attrset`: `inherit` runs are consumed and
discarded; otherwise a key (quoted string or attribute path), `=`, a value,
and an optional `;`; insertion overwrites an existing key (last write
wins). -/
def parseAttrsetLoop : Nat → List (List Char × NixValue) → NixParser →
    Except ParseError (NixValue × NixParser)
  | 0, _, p => .error (fuelError p)
  | fuel + 1, attrs, p =>
    if current p = some cbr ∨ current p = none then
      .ok (.attrSet attrs, if current p = some cbr then advance p else p)
    else if peekS p "inherit" then do
      let p1 := skip_whitespace (advanceN 7 p)
      let p2 ← inheritLoopF (remFuel p1) p1
      let p3 := if current p2 = some ';' then advance p2 else p2
      parseAttrsetLoop fuel attrs (skip_whitespace p3)
    else do
      let (key, p1) ←
        if current p = some dq then parse_string p else parse_attribute_path p
      let p2 := skip_whitespace p1
      if current p2 = some '=' then do
        let (v, p3) ← parseValue fuel (skip_whitespace (advance p2))
        let p4 := skip_whitespace p3
        let p5 := if current p4 = some ';' then skip_whitespace (advance p4) else p4
        parseAttrsetLoop fuel (insertAttr key v attrs) p5
      else .error (mkError p2 ("Expected '=' after key '" ++ String.mk key ++ "'"))

/-- `NixParser::parse_let`: consume `let`, then the binding loop. -/
def parseLet : Nat → NixParser → Except ParseError (NixValue × NixParser)
  | 0, p => .error (fuelError p)
  | fuel + 1, p => parseLetLoop fuel [] (skip_whitespace (advanceN 3 p))

/-- The binding loop of `parse_let`: `identifier = value ;` bindings until
the literal prefix `in` matches at the loop head (no word-boundary check),
then two characters are consumed for `in` and the body is parsed. -/
def parseLetLoop : Nat → List (List Char × NixValue) → NixParser →
    Except ParseError (NixValue × NixParser)
  | 0, _, p => .error (fuelError p)
  | fuel + 1, bindings, p =>
    if peekS p "in" ∨ current p = none then do
      let (body, p1) ← parseValue fuel (skip_whitespace (advanceN 2 p))
      .ok (.letE bindings body, p1)
    else do
      let (key, p1) ← parse_identifier p
      let p2 := skip_whitespace p1
      if current p2 = some '=' then do
        let (v, p3) ← parseValue fuel (skip_whitespace (advance p2))
        let p4 := skip_whitespace p3
        let p5 := if current p4 = some ';' then skip_whitespace (advance p4) else p4
        parseLetLoop fuel (insertAttr key v bindings) p5
      else .error (mkError p2 "Expected '=' in let binding")

end

/-- `NixParser::parse`: the public entry point is exactly one `parse_value`
call — nothing checks that the remaining input is empty. -/
def parse (fuel : Nat) (p : NixParser) : Except ParseError (NixValue × NixParser) :=
  parseValue fuel p

/-- `parse_nix_string`: build a parser over the input and run `parse`,
returning only the value (the final cursor, and with it any unconsumed
trailing input, is dropped). -/
def parse_nix_string (fuel : Nat) (input : List Char) : Except ParseError NixValue :=
  (parse fuel (NixParser.new input)).map Prod.fst

end NixParse

namespace NixParse

/-- Decimal digits of a natural number, most significant first, with a
structural fuel (`n < 10 ^ fuel` always holds for the supplied fuel). -/
def natCharsF : Nat → Nat → List Char
  | 0, _ => []
  | fuel + 1, n =>
    if n < 10 then [Char.ofNat (48 + n)]
    else natCharsF fuel (n / 10) ++ [Char.ofNat (48 + n % 10)]

/-- Decimal digits of a natural number, most significant first. -/
def natChars (n : Nat) : List Char := natCharsF (n + 1) n

/-- Model of Rust `i64` `Display`: decimal digits with a leading `-` for
negative numbers. -/
def intChars : Int → List Char
  | .ofNat n => natChars n
  | .negSucc m => '-' :: natChars (m + 1)

/-- Decimal digits of the fraction `r / d` (with `r < d`), stopping when the
remainder vanishes or the fuel runs out. -/
def fracChars : Nat → Nat → Nat → List Char
  | 0, _, _ => []
  | fuel + 1, r, d =>
    if r = 0 then []
    else Char.ofNat (48 + r * 10 / d) :: fracChars fuel (r * 10 % d) d

/-- Model of Rust `f64` `Display` on the exact-rational model: an integral
value prints with no decimal point (Rust prints `1.0_f64` as `"1"`), a
non-integral value prints sign, integer part, `.`, and fraction digits.
This matches Rust exactly on terminating decimals that `f64` represents
exactly — the only floats any theorem below evaluates. -/
def floatChars (q : ℚ) : List Char :=
  if q.den = 1 then intChars q.num
  else
    (if q.num < 0 then ['-'] else []) ++
      natChars (q.num.natAbs / q.den) ++
      '.' :: fracChars 64 (q.num.natAbs % q.den) q.den

/-- The `"  ".repeat(indent)` prefix of `write_with_indent`. -/
def renderIndent (n : Nat) : List Char := List.replicate (2 * n) ' '

/-- The output-escaping of `NixValue::String`: only `"` is escaped
(`s.replace('\"', "\\\"")`). -/
def escQ (s : List Char) : List Char :=
  s.flatMap fun c => if c = dq then [bs, dq] else [c]

/-- The `", "`-joined parameter list of the multi-parameter function
printer. -/
def joinParams : List (List Char) → List Char
  | [] => []
  | [p] => p
  | p :: rest => p ++ ',' :: ' ' :: joinParams rest

mutual

/-- Model of `NixValue::write_with_indent` (and through indent `0` of the
`Display` instance): the serializer producing indented Nix-like text.
`With` and `Inherit` have no printable form and fall to the placeholder
comment. -/
def render : NixValue → Nat → List Char
  | .null, _ => "null".toList
  | .bool b, _ => if b then "true".toList else "false".toList
  | .int n, _ => intChars n
  | .float q, _ => floatChars q
  | .str s, _ => dq :: escQ s ++ [dq]
  | .path s, _ => s
  | .var s, _ => s
  | .imprt s, _ => "import ".toList ++ s
  | .list items, ind =>
    '[' :: '\n' :: renderItems items ind ++ renderIndent ind ++ [']']
  | .attrSet attrs, ind =>
    obr :: '\n' :: renderEntries attrs ind ++ renderIndent ind ++ [cbr]
  | .letE binds body, ind =>
    "let\n".toList ++ renderEntries binds ind ++ renderIndent ind ++
      "in ".toList ++ render body ind
  | .fn [p] body, ind => p ++ ':' :: ' ' :: render body ind
  | .fn params body, ind =>
    obr :: ' ' :: joinParams params ++ ", ... ".toList ++ cbr :: ':' :: ' ' ::
      render body ind
  | .withE _ _, _ => "/* non implémenté */".toList
  | .inherit _, _ => "/* non implémenté */".toList

/-- The element lines of the list printer: two extra spaces of indent, the
element at `indent + 1`, a newline each. -/
def renderItems : List NixValue → Nat → List Char
  | [], _ => []
  | x :: xs, ind =>
    renderIndent ind ++ ' ' :: ' ' :: render x (ind + 1) ++ '\n' ::
      renderItems xs ind

/-- The `key = value;` lines shared by the attrset and let printers: the key
is printed verbatim. -/
def renderEntries : List (List Char × NixValue) → Nat → List Char
  | [], _ => []
  | (k, v) :: rest, ind =>
    renderIndent ind ++ ' ' :: ' ' :: k ++ ' ' :: '=' :: ' ' ::
      render v (ind + 1) ++ ';' :: '\n' :: renderEntries rest ind

end

end NixParse

namespace NixParse

mutual

/-- Node count of a value tree; the measure for the round-trip induction. -/
def nsize : NixValue → Nat
  | .list xs => 1 + nsizeL xs
  | .attrSet l => 1 + nsizeA l
  | .letE l b => 1 + nsizeA l + nsize b
  | .fn _ b => 1 + nsize b
  | _ => 1

/-- Node count of a list of values. -/
def nsizeL : List NixValue → Nat
  | [] => 0
  | x :: xs => 1 + nsize x + nsizeL xs

/-- Node count of an association list of values. -/
def nsizeA : List (List Char × NixValue) → Nat
  | [] => 0
  | (_, v) :: rest => 1 + nsize v + nsizeA rest

end

mutual

/-- A fuel budget sufficient for the mutually recursive parser to consume
the rendering of a value: every call inside the `parseValue` block
decrements the fuel by exactly one, so a bound counting those calls (with
slack) suffices; the scanner loops carry their own internal fuel and do not
draw on this budget. -/
def fuelFor : NixValue → Nat
  | .list xs => 2 + fuelForL xs
  | .attrSet l => 3 + fuelForA l
  | .letE l b => 3 + fuelForA l + fuelFor b
  | .fn _ b => 2 + fuelFor b
  | .imprt _ => 3
  | _ => 2

/-- Fuel budget for the list-element loop. -/
def fuelForL : List NixValue → Nat
  | [] => 1
  | x :: xs => 1 + fuelFor x + fuelForL xs

/-- Fuel budget for the attrset-entry / let-binding loops. -/
def fuelForA : List (List Char × NixValue) → Nat
  | [] => 1
  | (_, v) :: rest => 1 + fuelFor v + fuelForA rest

end

/-- Nonempty text made of identifier characters. -/
def identText (s : List Char) : Bool := !s.isEmpty && s.all identChar

/-- Is the first list a literal prefix of the second (the relation
`peek_string` tests at a position)? -/
def litPre : List Char → List Char → Bool
  | [], _ => true
  | _ :: _, [] => false
  | c :: cs, d :: ds => c = d && litPre cs ds

/-- Does the text extend one of the keywords `parse_value` matches by
literal prefix? -/
def kwPre (s : List Char) : Bool :=
  litPre "null".toList s || litPre "true".toList s || litPre "false".toList s ||
    litPre "let".toList s || litPre "import".toList s

/-- A name the identifier/variable dispatch of `parse_value` reads back as
itself: nonempty identifier text not starting with a digit, a single quote,
or a minus directly followed by a digit, and not extending a literal
keyword. -/
def varOk (s : List Char) : Bool :=
  match s with
  | [] => false
  | c :: rest =>
    identText s && !c.isDigit && c != sq &&
      !(c == '-' && (match rest.head? with | some d => d.isDigit | none => false)) &&
      !kwPre s

/-- A path payload the path dispatch of `parse_value` reads back as itself:
nonempty path characters starting with `/` or with `./`. -/
def pathOk (s : List Char) : Bool :=
  match s with
  | [] => false
  | c :: rest =>
    s.all pathChar && (c == '/' || (c == '.' && rest.head? == some '/'))

mutual

/-- One attribute-path segment at the front of the text, then `keyTailF`:
either a quoted segment (no inner quote or backslash) or a nonempty
identifier run.  The structural fuel always exceeds the text length at the
call sites below. -/
def keySegF : Nat → List Char → Bool
  | 0, _ => false
  | _ + 1, [] => false
  | fuel + 1, c :: r =>
    if c = dq then
      if (r.dropWhile (fun x => x != dq)).isEmpty then false
      else
        (r.takeWhile (fun x => x != dq)).all (fun x => x != bs) &&
          keyTailF fuel (r.dropWhile (fun x => x != dq)).tail
    else if identChar c then keyTailF fuel (r.dropWhile identChar)
    else false

/-- After a segment: either the key ends or a `.` starts another segment. -/
def keyTailF : Nat → List Char → Bool
  | 0, _ => false
  | _ + 1, [] => true
  | fuel + 1, c :: r => c = '.' && keySegF fuel r

end

/-- One attribute-path segment then `keyTailF`, with ample fuel. -/
def segStart (s : List Char) : Bool := keySegF (s.length + 1) s

/-- An attrset key the key parser reads back verbatim: dotted segments, the
first one an identifier run (a leading quoted segment would be consumed by
the quoted-key branch, which strips the quotes), not extending the literal
`inherit`. -/
def keyOk (k : List Char) : Bool :=
  (match k.head? with | some c => identChar c | none => false) &&
    segStart k && !litPre "inherit".toList k

/-- A let-binding name: identifier text not extending the literal `in` the
binding loop stops on. -/
def letNameOk (s : List Char) : Bool := identText s && !litPre "in".toList s

/-- Pairwise-distinct keys of an association list. -/
def nodupKeys : List (List Char × NixValue) → Bool
  | [] => true
  | (k, _) :: rest => !(rest.any fun e => e.1 == k) && nodupKeys rest

mutual

/-- The well-formedness class of the restricted round-trip statement: the
printable variants whose rendering the parser reads back unchanged.
Floats are excluded (integral floats print without a decimal point and
reparse as integers); strings must not contain a backslash (output escapes
only `"`); paths are absolute or `./`-relative path text; variables and
single parameters must survive the identifier dispatch; attrset keys and
let-binding names must survive their loops; functions need at least one
parameter (the zero-parameter pattern `{ , ... }:` does not reparse);
`With`/`Inherit` have no printable form. -/
def wfV : NixValue → Bool
  | .null => true
  | .bool _ => true
  | .int n => decide (-(2 ^ 63) ≤ n) && decide (n ≤ 2 ^ 63 - 1)
  | .float _ => false
  | .str s => !(s.contains bs)
  | .path s => pathOk s
  | .var s => varOk s
  | .imprt s => pathOk s
  | .list xs => wfL xs
  | .attrSet l => nodupKeys l && wfA l
  | .fn params body =>
    (match params with
     | [p] => varOk p
     | ps => !ps.isEmpty && ps.all identText) && wfV body
  | .letE binds body => nodupKeys binds && wfBinds binds && wfV body
  | .withE _ _ => false
  | .inherit _ => false

/-- Well-formedness of list elements. -/
def wfL : List NixValue → Bool
  | [] => true
  | x :: xs => wfV x && wfL xs

/-- Well-formedness of attrset entries. -/
def wfA : List (List Char × NixValue) → Bool
  | [] => true
  | (k, v) :: rest => keyOk k && wfV v && wfA rest

/-- Well-formedness of let bindings. -/
def wfBinds : List (List Char × NixValue) → Bool
  | [] => true
  | (k, v) :: rest => letNameOk k && wfV v && wfBinds rest

end

/-- The kind of the final token of a rendering; it decides which stop
condition the following text must satisfy. -/
inductive TailK where
  | free
  | num
  | pathT
  | varT
  | brace
  deriving DecidableEq, Repr

/-- Final-token kind of a value's rendering (`let` and functions end with
their body). -/
def tailKind : NixValue → TailK
  | .int _ => .num
  | .float _ => .num
  | .path _ => .pathT
  | .imprt _ => .pathT
  | .var _ => .varT
  | .attrSet _ => .brace
  | .letE _ b => tailKind b
  | .fn _ b => tailKind b
  | _ => .free

/-- The text after its leading whitespace. -/
def afterWs (rest : List Char) : List Char := rest.dropWhile fun c => isWs c

/-- The head of the text is not something `skip_whitespace` would consume:
not whitespace, not a line comment, not an opening block comment. -/
def wsBoundary (rest : List Char) : Bool :=
  match rest.head? with
  | none => true
  | some c => !isWs c && c != '#' && !(c == '/' && rest[1]? == some '*')

/-- After its leading whitespace the text stops a `skip_whitespace` run. -/
def wsStable (rest : List Char) : Bool := wsBoundary (afterWs rest)

/-- The stop condition the round-trip theorem imposes on the text following
a printed value, according to the value's final token: a number, path or
identifier must not be extended; after an identifier the (whitespace-
skipping) attribute-path and function lookaheads must not see `:` or a
path-continuing `.`; after a closing brace the function lookahead must not
see `:` (the empty attrset parses as an empty parameter list first). -/
def restStop (v : NixValue) (rest : List Char) : Bool :=
  match tailKind v with
  | .free => true
  | .num => match rest.head? with | some c => !numChar c | none => true
  | .pathT =>
    match rest.head? with | some c => !pathChar c && !(c == '*') | none => true
  | .varT =>
    (match rest.head? with | some c => !identChar c | none => true) &&
      wsStable rest && ((afterWs rest).head? != some ':') &&
      (match (afterWs rest).head? with
       | some c => !(c == '.') || (afterWs rest)[1]? == some '/'
       | none => true)
  | .brace => wsStable rest && ((afterWs rest).head? != some ':')

/-- How far beyond its rendering the parser's cursor ends up: an
identifier-final rendering also consumes the whitespace prefix of the
following text (the attribute-path loop looks ahead for a dot); everything
else stops exactly at the rendering's end. -/
def delta (v : NixValue) (rest : List Char) : Nat :=
  match tailKind v with
  | .varT => (rest.takeWhile fun c => isWs c).length
  | _ => 0

end NixParse

namespace NixParse

theorem advance_input (p : NixParser) : (advance p).input = p.input := by
  unfold advance
  rcases current p with _ | ch
  · rfl
  · dsimp only
    split <;> rfl

theorem advance_pos (p : NixParser) : (advance p).pos = p.pos + 1 := by
  unfold advance
  rcases current p with _ | ch
  · rfl
  · dsimp only
    split <;> rfl

theorem advanceN_input (n : Nat) (p : NixParser) : (advanceN n p).input = p.input := by
  induction n generalizing p with
  | zero => rfl
  | succ m ih => rw [advanceN, ih, advance_input]

theorem advanceN_pos (n : Nat) (p : NixParser) : (advanceN n p).pos = p.pos + n := by
  induction n generalizing p with
  | zero => rfl
  | succ m ih => rw [advanceN, ih, advance_pos]; omega

theorem get_append_right (pre rest : List Char) (k : Nat) :
    (pre ++ rest)[pre.length + k]? = rest[k]? := by
  rw [List.getElem?_append_right (by omega)]
  congr 1
  omega

theorem current_at (pre rest : List Char) (l c : Nat) :
    current ⟨pre ++ rest, pre.length, l, c⟩ = rest.head? := by
  show (pre ++ rest)[pre.length]? = rest.head?
  have h := get_append_right pre rest 0
  rw [Nat.add_zero] at h
  rw [h, List.head?_eq_getElem?]

theorem advance_at (pre : List Char) (ch : Char) (rest : List Char) (l c : Nat) :
    ∃ l2 c2, advance ⟨pre ++ ch :: rest, pre.length, l, c⟩ =
      ⟨pre ++ ch :: rest, pre.length + 1, l2, c2⟩ := by
  unfold advance
  rw [current_at]
  dsimp only [List.head?]
  by_cases hch : ch = '\n' <;> simp [hch]

theorem peekAt_spec (pre rest : List Char) (l c : Nat) :
    ∀ cs i, peekAt ⟨pre ++ rest, pre.length, l, c⟩ cs i = litPre cs (rest.drop i) := by
  intro cs
  induction cs with
  | nil => intro i; rfl
  | cons d ds ih =>
    intro i
    show (decide ((pre ++ rest)[pre.length + i]? = some d) && _) = _
    rw [get_append_right pre rest i, ih (i + 1)]
    rcases h : rest.drop i with _ | ⟨e, es⟩
    · have h0 : rest[i]? = none := by
        have : rest.length ≤ i := by
          have := List.drop_eq_nil_iff.mp h
          omega
        exact List.getElem?_eq_none this
      have h1 : rest.drop (i + 1) = [] := by
        apply List.drop_eq_nil_iff.mpr
        have := List.drop_eq_nil_iff.mp h
        omega
      rw [h0, h1]
      simp [litPre]
    · have h0 : rest[i]? = some e := by
        rw [← List.head?_drop, h]
        rfl
      have h1 : rest.drop (i + 1) = es := by
        have : rest.drop (i + 1) = (rest.drop i).drop 1 := by
          rw [List.drop_drop]
        rw [this, h]
        rfl
      rw [h0, h1]
      simp only [Option.some.injEq, litPre]
      congr 1
      exact decide_eq_decide.mpr ⟨Eq.symm, Eq.symm⟩

end NixParse

namespace NixParse

theorem peekS_at (pre rest : List Char) (l c : Nat) (s : String) :
    peekS ⟨pre ++ rest, pre.length, l, c⟩ s = litPre s.toList rest := by
  show peekAt _ s.toList 0 = _
  rw [peekAt_spec, List.drop_zero]

theorem wsBoundary_imp (pre rest : List Char) (l c : Nat)
    (hb : wsBoundary rest = true) :
    ∀ ch, current ⟨pre ++ rest, pre.length, l, c⟩ = some ch →
      isWs ch = false ∧ ch ≠ '#' ∧ peekS ⟨pre ++ rest, pre.length, l, c⟩ "/*" = false := by
  intro ch hch
  rw [current_at] at hch
  rcases rest with _ | ⟨d, ds⟩
  · simp at hch
  · have hd : d = ch := by simpa using hch
    subst hd
    unfold wsBoundary at hb
    simp only [List.head?_cons, Bool.and_eq_true, Bool.not_eq_true'] at hb
    obtain ⟨⟨h1, h2⟩, h3⟩ := hb
    refine ⟨h1, by simpa using h2, ?_⟩
    rw [peekS_at]
    have hL : "/*".toList = ['/', '*'] := rfl
    rw [hL]
    show (decide ('/' = d) && litPre ['*'] ds) = false
    rcases ds with _ | ⟨e, es⟩
    · simp [litPre]
    · by_cases hsl : ('/' : Char) = d
      · rw [← hsl] at h3 ⊢
        have hge : (('/' :: e :: es : List Char))[1]? = some e := by simp
        rw [hge] at h3
        have he : ¬('*' = e) := by
          intro hh
          rw [← hh] at h3
          simp at h3
        simp [litPre, he]
      · simp [hsl]

end NixParse

namespace NixParse

theorem skipWsF_eq_self (fuel : Nat) (p : NixParser)
    (h : ∀ ch, current p = some ch →
      isWs ch = false ∧ ch ≠ '#' ∧ peekS p "/*" = false) :
    skipWsF fuel p = p := by
  cases fuel with
  | zero => rfl
  | succ f =>
    show (match current p with
      | some c =>
        if isWs c then skipWsF f (advance p)
        else if c = '#' then skipWsF f (skipLineF (remFuel p) p)
        else if peekS p "/*" then
          let q := skipBlockF (remFuel p) (advance (advance p))
          skipWsF f (if peekS q "*/" then advance (advance q) else q)
        else p
      | none => p) = p
    rcases hc : current p with _ | ch
    · rfl
    · obtain ⟨h1, h2, h3⟩ := h ch hc
      simp [h1, h2, h3]

theorem skipWs_noop (pre rest : List Char) (l c : Nat)
    (hb : wsBoundary rest = true) :
    skip_whitespace ⟨pre ++ rest, pre.length, l, c⟩ = ⟨pre ++ rest, pre.length, l, c⟩ :=
  skipWsF_eq_self _ _ (wsBoundary_imp pre rest l c hb)

theorem skipWsF_run (ws : List Char) :
    ∀ fuel pre rest l c, ws.all isWs = true → wsBoundary rest = true →
      ws.length < fuel →
      ∃ l2 c2, skipWsF fuel ⟨pre ++ ws ++ rest, pre.length, l, c⟩ =
        ⟨pre ++ ws ++ rest, pre.length + ws.length, l2, c2⟩ := by
  induction ws with
  | nil =>
    intro fuel pre rest l c _ hb _
    refine ⟨l, c, ?_⟩
    simpa using skipWsF_eq_self fuel _ (wsBoundary_imp pre rest l c hb)
  | cons w ws ih =>
    intro fuel pre rest l c hall hb hf
    simp only [List.all_cons, Bool.and_eq_true] at hall
    obtain ⟨hw, hall⟩ := hall
    cases fuel with
    | zero => omega
    | succ f =>
      have hshape : pre ++ (w :: ws) ++ rest = pre ++ w :: (ws ++ rest) := by simp
      rw [hshape]
      have hcur : current ⟨pre ++ w :: (ws ++ rest), pre.length, l, c⟩ = some w := by
        rw [current_at]; rfl
      have hstep : skipWsF (f + 1) ⟨pre ++ w :: (ws ++ rest), pre.length, l, c⟩ =
          skipWsF f (advance ⟨pre ++ w :: (ws ++ rest), pre.length, l, c⟩) := by
        simp only [skipWsF, hcur]
        rw [if_pos hw]
      rw [hstep]
      obtain ⟨l1, c1, hadv⟩ := advance_at pre w (ws ++ rest) l c
      rw [hadv]
      have hshift : (⟨pre ++ w :: (ws ++ rest), pre.length + 1, l1, c1⟩ : NixParser) =
          ⟨(pre ++ [w]) ++ ws ++ rest, (pre ++ [w]).length, l1, c1⟩ := by
        simp
      rw [hshift]
      obtain ⟨l2, c2, hrun⟩ := ih f (pre ++ [w]) rest l1 c1 hall hb
        (by simp only [List.length_cons] at hf; omega)
      rw [hrun]
      refine ⟨l2, c2, ?_⟩
      simp
      omega

theorem skipWs_run (ws : List Char) (pre rest : List Char) (l c : Nat)
    (hall : ws.all isWs = true) (hb : wsBoundary rest = true) :
    ∃ l2 c2, skip_whitespace ⟨pre ++ ws ++ rest, pre.length, l, c⟩ =
      ⟨pre ++ ws ++ rest, pre.length + ws.length, l2, c2⟩ := by
  apply skipWsF_run ws _ pre rest l c hall hb
  show ws.length < (pre ++ ws ++ rest).length - pre.length + 1
  simp
  omega

end NixParse

namespace NixParse

/-- Head-stop condition: the next character (if any) fails the scan
predicate. -/
def headStop (f : Char → Bool) (rest : List Char) : Prop :=
  match rest.head? with
  | some c0 => f c0 = false
  | none => True

theorem scanWhileF_run (f : Char → Bool) (run : List Char) :
    ∀ fuel pre rest l c, run.all f = true → headStop f rest →
      run.length < fuel →
      ∃ l2 c2, scanWhileF f fuel ⟨pre ++ run ++ rest, pre.length, l, c⟩ =
        (run, ⟨pre ++ run ++ rest, pre.length + run.length, l2, c2⟩) := by
  induction run with
  | nil =>
    intro fuel pre rest l c _ hstop hf
    cases fuel with
    | zero => omega
    | succ g =>
      refine ⟨l, c, ?_⟩
      simp only [List.append_nil, List.length_nil, Nat.add_zero]
      simp only [scanWhileF, current_at]
      unfold headStop at hstop
      rcases h : rest.head? with _ | c0
      · rfl
      · rw [h] at hstop
        simp [hstop]
  | cons w ws ih =>
    intro fuel pre rest l c hall hstop hf
    simp only [List.all_cons, Bool.and_eq_true] at hall
    obtain ⟨hw, hall⟩ := hall
    cases fuel with
    | zero => omega
    | succ g =>
      have hshape : pre ++ (w :: ws) ++ rest = pre ++ w :: (ws ++ rest) := by simp
      rw [hshape]
      have hcur : current ⟨pre ++ w :: (ws ++ rest), pre.length, l, c⟩ = some w := by
        rw [current_at]; rfl
      obtain ⟨l1, c1, hadv⟩ := advance_at pre w (ws ++ rest) l c
      have hshift : (⟨pre ++ w :: (ws ++ rest), pre.length + 1, l1, c1⟩ : NixParser) =
          ⟨(pre ++ [w]) ++ ws ++ rest, (pre ++ [w]).length, l1, c1⟩ := by
        simp
      obtain ⟨l2, c2, hrun⟩ := ih g (pre ++ [w]) rest l1 c1 hall hstop
        (by simp only [List.length_cons] at hf; omega)
      refine ⟨l2, c2, ?_⟩
      simp only [scanWhileF, hcur]
      rw [if_pos hw, hadv, hshift, hrun]
      simp
      omega

theorem scanWhile_run (f : Char → Bool) (run pre rest : List Char) (l c : Nat)
    (hall : run.all f = true) (hstop : headStop f rest) :
    ∃ l2 c2, scanWhile f ⟨pre ++ run ++ rest, pre.length, l, c⟩ =
      (run, ⟨pre ++ run ++ rest, pre.length + run.length, l2, c2⟩) := by
  apply scanWhileF_run f run _ pre rest l c hall hstop
  show run.length < (pre ++ run ++ rest).length - pre.length + 1
  simp
  omega

theorem parse_identifier_run (run pre rest : List Char) (l c : Nat)
    (hne : run ≠ []) (hall : run.all identChar = true) (hstop : headStop identChar rest) :
    ∃ l2 c2, parse_identifier ⟨pre ++ run ++ rest, pre.length, l, c⟩ =
      .ok (run, ⟨pre ++ run ++ rest, pre.length + run.length, l2, c2⟩) := by
  obtain ⟨l2, c2, hs⟩ := scanWhile_run identChar run pre rest l c hall hstop
  refine ⟨l2, c2, ?_⟩
  unfold parse_identifier
  rw [hs]
  simp [hne]

theorem parse_path_run (run pre rest : List Char) (l c : Nat)
    (hne : run ≠ []) (hall : run.all pathChar = true) (hstop : headStop pathChar rest) :
    ∃ l2 c2, parse_path ⟨pre ++ run ++ rest, pre.length, l, c⟩ =
      .ok (run, ⟨pre ++ run ++ rest, pre.length + run.length, l2, c2⟩) := by
  obtain ⟨l2, c2, hs⟩ := scanWhile_run pathChar run pre rest l c hall hstop
  refine ⟨l2, c2, ?_⟩
  unfold parse_path
  rw [hs]
  simp [hne]

end NixParse

namespace NixParse

theorem strLoopF_run (s : List Char) :
    ∀ fuel pre rest l c, s.contains bs = false →
      (escQ s).length + 2 ≤ fuel →
      ∃ l2 c2, strLoopF dq fuel false ⟨pre ++ (escQ s ++ [dq]) ++ rest, pre.length, l, c⟩ =
        .ok (s, ⟨pre ++ (escQ s ++ [dq]) ++ rest,
          pre.length + (escQ s).length + 1, l2, c2⟩) := by
  induction s with
  | nil =>
    intro fuel pre rest l c _ hf
    match fuel, hf with
    | g + 1, _ =>
      have hshape : pre ++ (escQ [] ++ [dq]) ++ rest = pre ++ dq :: rest := by
        simp [escQ]
      rw [hshape]
      have hcur : current ⟨pre ++ dq :: rest, pre.length, l, c⟩ = some dq := by
        rw [current_at]; rfl
      obtain ⟨l1, c1, hadv⟩ := advance_at pre dq rest l c
      refine ⟨l1, c1, ?_⟩
      simp only [strLoopF, hcur]
      simp only [show ((false : Bool) = true) = False from by simp, if_false,
        show (dq = bs) = False from by simp [dq, bs, Char.ofNat], if_true]
      rw [hadv]
      simp [escQ]
  | cons x xs ih =>
    intro fuel pre rest l c hbs hf
    rw [List.contains_cons] at hbs
    obtain ⟨hx, hbs⟩ := Bool.or_eq_false_iff.mp hbs
    have hxbs : ¬(x = bs) := fun h => by
      subst h
      simp at hx
    by_cases hxd : x = dq
    · subst hxd
      have hesc : escQ (dq :: xs) = bs :: dq :: escQ xs := by
        simp [escQ]
      rw [hesc] at hf ⊢
      match fuel, hf with
      | g + 2, hf =>
        have hshape : pre ++ ((bs :: dq :: escQ xs) ++ [dq]) ++ rest =
            pre ++ (bs :: (dq :: ((escQ xs ++ [dq]) ++ rest))) := by
          simp
        rw [hshape]
        have hcur1 : current ⟨pre ++ (bs :: (dq :: ((escQ xs ++ [dq]) ++ rest))),
            pre.length, l, c⟩ = some bs := by
          rw [current_at]; rfl
        obtain ⟨l1, c1, hadv1⟩ := advance_at pre bs (dq :: ((escQ xs ++ [dq]) ++ rest)) l c
        have hsh1 : (⟨pre ++ (bs :: (dq :: ((escQ xs ++ [dq]) ++ rest))),
            pre.length + 1, l1, c1⟩ : NixParser) =
            ⟨(pre ++ [bs]) ++ (dq :: ((escQ xs ++ [dq]) ++ rest)),
              (pre ++ [bs]).length, l1, c1⟩ := by
          simp
        have hcur2 : current ⟨(pre ++ [bs]) ++ (dq :: ((escQ xs ++ [dq]) ++ rest)),
            (pre ++ [bs]).length, l1, c1⟩ = some dq := by
          rw [current_at]; rfl
        obtain ⟨l2, c2, hadv2⟩ := advance_at (pre ++ [bs]) dq ((escQ xs ++ [dq]) ++ rest) l1 c1
        have hsh2 : (⟨(pre ++ [bs]) ++ (dq :: ((escQ xs ++ [dq]) ++ rest)),
            (pre ++ [bs]).length + 1, l2, c2⟩ : NixParser) =
            ⟨(pre ++ [bs, dq]) ++ (escQ xs ++ [dq]) ++ rest,
              (pre ++ [bs, dq]).length, l2, c2⟩ := by
          simp
        obtain ⟨l3, c3, hrun⟩ := ih g (pre ++ [bs, dq]) rest l2 c2 hbs
          (by simp only [List.length_cons] at hf; omega)
        refine ⟨l3, c3, ?_⟩
        simp only [strLoopF, hcur1]
        simp only [show ((false : Bool) = true) = False from by simp, if_false,
          show (bs = bs) = True from by simp, if_true]
        rw [hadv1, hsh1]
        simp only [strLoopF, hcur2]
        simp only [show ((true : Bool) = true) = True from by simp, if_true]
        have hd : (if dq = 'n' then '\n'
          else if dq = 't' then '\t'
          else if dq = 'r' then '\r'
          else if dq = bs then bs
          else dq) = dq := by decide
        rw [hd, hadv2, hsh2, hrun]
        simp only [Except.map]
        simp
        omega
    · have hesc : escQ (x :: xs) = x :: escQ xs := by
        simp [escQ, hxd]
      rw [hesc] at hf ⊢
      match fuel, hf with
      | g + 1, hf =>
        have hshape : pre ++ ((x :: escQ xs) ++ [dq]) ++ rest =
            pre ++ (x :: ((escQ xs ++ [dq]) ++ rest)) := by
          simp
        rw [hshape]
        have hcur1 : current ⟨pre ++ (x :: ((escQ xs ++ [dq]) ++ rest)),
            pre.length, l, c⟩ = some x := by
          rw [current_at]; rfl
        obtain ⟨l1, c1, hadv1⟩ := advance_at pre x ((escQ xs ++ [dq]) ++ rest) l c
        have hsh1 : (⟨pre ++ (x :: ((escQ xs ++ [dq]) ++ rest)), pre.length + 1, l1, c1⟩ :
            NixParser) = ⟨(pre ++ [x]) ++ (escQ xs ++ [dq]) ++ rest,
              (pre ++ [x]).length, l1, c1⟩ := by
          simp
        obtain ⟨l3, c3, hrun⟩ := ih g (pre ++ [x]) rest l1 c1 hbs
          (by simp only [List.length_cons] at hf; omega)
        refine ⟨l3, c3, ?_⟩
        simp only [strLoopF, hcur1]
        simp only [show ((false : Bool) = true) = False from by simp, if_false]
        rw [if_neg hxbs, if_neg hxd, hadv1, hsh1, hrun]
        simp only [Except.map]
        simp
        omega

end NixParse

namespace NixParse

theorem parse_string_run (s pre rest : List Char) (l c : Nat)
    (hbs : s.contains bs = false) :
    ∃ l2 c2, parse_string ⟨pre ++ (dq :: ((escQ s ++ [dq]) ++ rest)), pre.length, l, c⟩ =
      .ok (s, ⟨pre ++ (dq :: ((escQ s ++ [dq]) ++ rest)),
        pre.length + ((escQ s).length + 2), l2, c2⟩) := by
  have hcur : current ⟨pre ++ (dq :: ((escQ s ++ [dq]) ++ rest)), pre.length, l, c⟩ =
      some dq := by
    rw [current_at]; rfl
  obtain ⟨l1, c1, hadv⟩ := advance_at pre dq ((escQ s ++ [dq]) ++ rest) l c
  have hsh : (⟨pre ++ (dq :: ((escQ s ++ [dq]) ++ rest)), pre.length + 1, l1, c1⟩ :
      NixParser) = ⟨(pre ++ [dq]) ++ (escQ s ++ [dq]) ++ rest,
        (pre ++ [dq]).length, l1, c1⟩ := by
    simp
  have hfuel : (escQ s).length + 2 ≤
      remFuel ⟨pre ++ (dq :: ((escQ s ++ [dq]) ++ rest)), pre.length, l, c⟩ := by
    unfold remFuel
    simp
  obtain ⟨l2, c2, hrun⟩ := strLoopF_run s
    (remFuel ⟨pre ++ (dq :: ((escQ s ++ [dq]) ++ rest)), pre.length, l, c⟩)
    (pre ++ [dq]) rest l1 c1 hbs hfuel
  refine ⟨l2, c2, ?_⟩
  unfold parse_string
  rw [hcur]
  dsimp only
  rw [if_neg (fun h => absurd h.1 (by decide)), hadv, hsh, hrun]
  simp
  omega

end NixParse

namespace NixParse

theorem digit_char_facts : ∀ m : Nat, m < 10 →
    (Char.ofNat (48 + m)).isDigit = true ∧ (Char.ofNat (48 + m)).toNat = 48 + m := by
  decide

theorem isDigit_numChar (c : Char) (h : c.isDigit = true) : numChar c = true := by
  unfold numChar
  rw [h]
  rfl

theorem isDigit_not_dot (c : Char) (h : c.isDigit = true) : ¬(c = '.') := by
  intro h2
  subst h2
  simp at h

theorem isDigit_not_dash (c : Char) (h : c.isDigit = true) : ¬(c = '-') := by
  intro h2
  subst h2
  simp at h

theorem foldDigits_append_one (a : List Char) (d : Char) :
    foldDigits (a ++ [d]) = foldDigits a * 10 + digitVal d := by
  unfold foldDigits
  rw [List.foldl_append]
  rfl

theorem natCharsF_spec (fuel : Nat) : ∀ n, n < 10 ^ (fuel + 1) →
    (natCharsF (fuel + 1) n).all Char.isDigit = true ∧ natCharsF (fuel + 1) n ≠ [] ∧
      foldDigits (natCharsF (fuel + 1) n) = n := by
  induction fuel with
  | zero =>
    intro n hn
    have hn10 : n < 10 := by simpa using hn
    obtain ⟨hd, ht⟩ := digit_char_facts n hn10
    refine ⟨?_, ?_, ?_⟩
    · simp [natCharsF, hn10, hd]
    · simp [natCharsF, hn10]
    · simp only [natCharsF, if_pos hn10]
      unfold foldDigits digitVal
      simp [ht]
  | succ f ih =>
    intro n hn
    by_cases h10 : n < 10
    · obtain ⟨hd, ht⟩ := digit_char_facts n h10
      refine ⟨?_, ?_, ?_⟩
      · simp [natCharsF, h10, hd]
      · simp [natCharsF, h10]
      · simp only [natCharsF, if_pos h10]
        unfold foldDigits digitVal
        simp [ht]
    · have hdiv : n / 10 < 10 ^ (f + 1) := by
        have : 10 ^ (f + 1 + 1) = 10 ^ (f + 1) * 10 := by ring
        rw [this] at hn
        omega
      obtain ⟨iha, ihn, ihf⟩ := ih (n / 10) hdiv
      have hmod : n % 10 < 10 := Nat.mod_lt _ (by omega)
      obtain ⟨hd, ht⟩ := digit_char_facts (n % 10) hmod
      have hstep : natCharsF (f + 1 + 1) n =
          natCharsF (f + 1) (n / 10) ++ [Char.ofNat (48 + n % 10)] := by
        simp [natCharsF, h10]
      refine ⟨?_, ?_, ?_⟩
      · rw [hstep]
        simp only [List.all_append, Bool.and_eq_true]
        exact ⟨iha, by simp [hd]⟩
      · rw [hstep]
        simp
      · rw [hstep, foldDigits_append_one, ihf]
        unfold digitVal
        rw [ht]
        omega

theorem natChars_spec (n : Nat) :
    (natChars n).all Char.isDigit = true ∧ natChars n ≠ [] ∧
      foldDigits (natChars n) = n := by
  apply natCharsF_spec n n
  calc n < 10 ^ n := Nat.lt_pow_self (by omega) n
    _ ≤ 10 ^ (n + 1) := Nat.pow_le_pow_right (by omega) (by omega)

end NixParse

namespace NixParse

theorem isDigit_not_plus (c : Char) (h : c.isDigit = true) : ¬(c = '+') := by
  intro h2
  subst h2
  simp at h

theorem all_digit_no_dot (l : List Char) (h : l.all Char.isDigit = true) :
    l.contains '.' = false := by
  induction l with
  | nil => rfl
  | cons d ds ih =>
    simp only [List.all_cons, Bool.and_eq_true] at h
    rw [List.contains_cons, ih h.2, Bool.or_false]
    have hd := isDigit_not_dot d h.1
    simp
    exact fun h2 => hd h2.symm

theorem all_digit_all_numChar (l : List Char) (h : l.all Char.isDigit = true) :
    l.all numChar = true := by
  induction l with
  | nil => rfl
  | cons d ds ih =>
    simp only [List.all_cons, Bool.and_eq_true] at h ⊢
    exact ⟨isDigit_numChar d h.1, ih h.2⟩

theorem rustParseI64_intChars (n : Int) (hlo : -(2 ^ 63) ≤ n) (hhi : n ≤ 2 ^ 63 - 1) :
    rustParseI64 (intChars n) = some n := by
  cases n with
  | ofNat m =>
    obtain ⟨ha, hne, hf⟩ := natChars_spec m
    simp only [Int.ofNat_eq_natCast] at hlo hhi
    show rustParseI64 (natChars m) = some (Int.ofNat m)
    obtain ⟨c0, cs, hc⟩ := List.exists_cons_of_ne_nil hne
    have hd : c0.isDigit = true := by
      rw [hc] at ha
      simp only [List.all_cons, Bool.and_eq_true] at ha
      exact ha.1
    unfold rustParseI64
    rw [hc]
    dsimp only
    rw [if_neg (isDigit_not_dash c0 hd), if_neg (isDigit_not_plus c0 hd)]
    rw [← hc]
    have hcond : (!(natChars m).isEmpty && (natChars m).all Char.isDigit) = true := by
      rw [ha]
      simpa using hne
    rw [if_pos hcond, hf]
    show (if -(2 ^ 63) ≤ (m : Int) ∧ (m : Int) ≤ 2 ^ 63 - 1 then some (m : Int) else none) =
      some (Int.ofNat m)
    rw [if_pos ⟨by omega, by omega⟩]
    rfl
  | negSucc m =>
    obtain ⟨ha, hne, hf⟩ := natChars_spec (m + 1)
    show rustParseI64 ('-' :: natChars (m + 1)) = some (Int.negSucc m)
    unfold rustParseI64
    dsimp only
    have hcond : (!(natChars (m + 1)).isEmpty && (natChars (m + 1)).all Char.isDigit) = true := by
      rw [ha]
      simpa using hne
    rw [if_pos rfl, if_pos hcond, hf]
    have hv : -((m + 1 : Nat) : Int) = Int.negSucc m := by
      rw [Int.negSucc_eq]
      push_cast
      ring
    show (match (some ((m + 1 : Nat) : Int)).map Neg.neg with
      | some n => if -(2 ^ 63) ≤ n ∧ n ≤ 2 ^ 63 - 1 then some n else none
      | none => none) = some (Int.negSucc m)
    rw [show (some ((m + 1 : Nat) : Int)).map Neg.neg = some (Int.negSucc m) from by
      rw [Option.map_some', hv]]
    show (if -(2 ^ 63) ≤ Int.negSucc m ∧ Int.negSucc m ≤ 2 ^ 63 - 1 then some (Int.negSucc m)
      else none) = some (Int.negSucc m)
    rw [if_pos ⟨hlo, hhi⟩]

theorem intChars_numChars (n : Int) :
    (intChars n).all numChar = true ∧ intChars n ≠ [] ∧
      (intChars n).contains '.' = false := by
  cases n with
  | ofNat m =>
    obtain ⟨ha, hne, _⟩ := natChars_spec m
    exact ⟨all_digit_all_numChar _ ha, hne, all_digit_no_dot _ ha⟩
  | negSucc m =>
    obtain ⟨ha, hne, _⟩ := natChars_spec (m + 1)
    refine ⟨?_, by simp [intChars], ?_⟩
    · show (('-' :: natChars (m + 1)).all numChar) = true
      simp only [List.all_cons, Bool.and_eq_true]
      exact ⟨by rfl, all_digit_all_numChar _ ha⟩
    · show (('-' :: natChars (m + 1)).contains '.') = false
      rw [List.contains_cons, all_digit_no_dot _ ha]
      rfl

theorem parse_number_int (n : Int) (pre rest : List Char) (l c : Nat)
    (hlo : -(2 ^ 63) ≤ n) (hhi : n ≤ 2 ^ 63 - 1) (hstop : headStop numChar rest) :
    ∃ l2 c2, parse_number ⟨pre ++ intChars n ++ rest, pre.length, l, c⟩ =
      .ok (.int n, ⟨pre ++ intChars n ++ rest,
        pre.length + (intChars n).length, l2, c2⟩) := by
  obtain ⟨hall, hne, hdot⟩ := intChars_numChars n
  obtain ⟨l2, c2, hs⟩ := scanWhile_run numChar (intChars n) pre rest l c hall hstop
  refine ⟨l2, c2, ?_⟩
  unfold parse_number
  rw [hs]
  dsimp only
  rw [hdot]
  simp only [Bool.false_eq_true, if_false]
  rw [rustParseI64_intChars n hlo hhi]

theorem escQ_id (s : List Char) (h : s.contains dq = false) : escQ s = s := by
  induction s with
  | nil => rfl
  | cons x xs ih =>
    rw [List.contains_cons] at h
    obtain ⟨h1, h2⟩ := Bool.or_eq_false_iff.mp h
    have hx : ¬(x = dq) := by
      intro hh
      subst hh
      simp at h1
    unfold escQ at ih ⊢
    simp only [List.flatMap_cons, if_neg hx]
    rw [ih h2]
    rfl

theorem head_dropWhile_not (p : Char → Bool) (r : List Char) :
    ∀ x, (r.dropWhile p).head? = some x → p x = false := by
  induction r with
  | nil => intro x hx; simp at hx
  | cons a as ih =>
    intro x hx
    rw [List.dropWhile_cons] at hx
    by_cases ha : p a = true
    · rw [if_pos ha] at hx
      exact ih x hx
    · rw [if_neg ha] at hx
      simp only [List.head?_cons, Option.some.injEq] at hx
      subst hx
      simpa using ha

theorem takeWhile_append_dropWhile (p : Char → Bool) (r : List Char) :
    r.takeWhile p ++ r.dropWhile p = r := List.takeWhile_append_dropWhile p r

theorem keyChk_mono (n : Nat) : ∀ k : List Char, k.length ≤ n →
    ∀ f1 f2, k.length < f1 → k.length < f2 →
      keySegF f1 k = keySegF f2 k ∧ keyTailF f1 k = keyTailF f2 k := by
  induction n with
  | zero =>
    intro k hk f1 f2 h1 h2
    have hknil : k = [] := List.length_eq_zero.mp (Nat.le_zero.mp hk)
    subst hknil
    match f1, h1, f2, h2 with
    | g1 + 1, _, g2 + 1, _ => exact ⟨rfl, rfl⟩
  | succ m ih =>
    intro k hk f1 f2 h1 h2
    match f1, h1, f2, h2 with
    | g1 + 1, h1, g2 + 1, h2 =>
      constructor
      · cases k with
        | nil => rfl
        | cons c r =>
          simp only [keySegF]
          by_cases hdq : c = dq
          · rw [if_pos hdq, if_pos hdq]
            by_cases hemp : (r.dropWhile (fun x => x != dq)).isEmpty = true
            · rw [if_pos hemp, if_pos hemp]
            · rw [if_neg hemp, if_neg hemp]
              have hdl := (List.dropWhile_sublist (l := r) (fun x => x != dq)).length_le
              have htl : (r.dropWhile (fun x => x != dq)).tail.length ≤ r.length - 1 := by
                have := List.length_tail (r.dropWhile (fun x => x != dq))
                omega
              simp only [List.length_cons] at hk h1 h2
              have := (ih (r.dropWhile (fun x => x != dq)).tail (by omega) g1 g2
                (by omega) (by omega)).2
              rw [this]
          · rw [if_neg hdq, if_neg hdq]
            by_cases hic : identChar c = true
            · rw [if_pos hic, if_pos hic]
              have hdl := (List.dropWhile_sublist (l := r) identChar).length_le
              simp only [List.length_cons] at hk h1 h2
              have := (ih (r.dropWhile identChar) (by omega) g1 g2 (by omega) (by omega)).2
              rw [this]
            · rw [if_neg hic, if_neg hic]
      · cases k with
        | nil => rfl
        | cons c r =>
          simp only [keyTailF]
          simp only [List.length_cons] at hk h1 h2
          have := (ih r (by omega) g1 g2 (by omega) (by omega)).1
          rw [this]

theorem ws_char_cases (c : Char) (h : isWs c = true) :
    c = ' ' ∨ c = '\t' ∨ c = '\r' ∨ c = '\n' := by
  unfold isWs Char.isWhitespace at h
  simp only [Bool.or_eq_true, decide_eq_true_eq] at h
  tauto

theorem identChar_not_ws (c : Char) (h : identChar c = true) : isWs c = false := by
  by_contra hws
  rw [Bool.not_eq_false] at hws
  rcases ws_char_cases c hws with rfl | rfl | rfl | rfl <;> simp [identChar, sq] at h

theorem identChar_ne (c : Char) (h : identChar c = true) :
    ¬(c = '#') ∧ ¬(c = '/') ∧ ¬(c = '.') ∧ ¬(c = dq) ∧ ¬(c = ':') ∧ ¬(c = ';') ∧
      ¬(c = ']') ∧ ¬(c = '=') ∧ ¬(c = ',') ∧ ¬(c = obr) ∧ ¬(c = cbr) ∧ ¬(c = '[') := by
  refine ⟨?_, ?_, ?_, ?_, ?_, ?_, ?_, ?_, ?_, ?_, ?_, ?_⟩ <;>
    (intro hh; subst hh; simp [identChar, sq, dq, obr, cbr] at h)

theorem pathChar_not_ws (c : Char) (h : pathChar c = true) : isWs c = false := by
  by_contra hws
  rw [Bool.not_eq_false] at hws
  rcases ws_char_cases c hws with rfl | rfl | rfl | rfl <;> simp [pathChar] at h

theorem pathChar_ne (c : Char) (h : pathChar c = true) :
    ¬(c = '#') ∧ ¬(c = '*') ∧ ¬(c = ':') ∧ ¬(c = ';') ∧ ¬(c = ']') ∧ ¬(c = ',') ∧
      ¬(c = obr) ∧ ¬(c = cbr) ∧ ¬(c = '[') ∧ ¬(c = dq) ∧ ¬(c = '=') := by
  refine ⟨?_, ?_, ?_, ?_, ?_, ?_, ?_, ?_, ?_, ?_, ?_⟩ <;>
    (intro hh; subst hh; simp [pathChar, obr, cbr, dq] at h)

theorem all_ne_not_contains (a : Char) (l : List Char)
    (h : l.all (fun x => x != a) = true) : l.contains a = false := by
  induction l with
  | nil => rfl
  | cons x xs ih =>
    simp only [List.all_cons, Bool.and_eq_true] at h
    rw [List.contains_cons, ih h.2, Bool.or_false]
    have := h.1
    simp only [bne_iff_ne, ne_eq] at this
    simp only [beq_eq_false_iff_ne, ne_eq]
    exact fun hh => this hh.symm

theorem all_takeWhile_self (p : Char → Bool) (l : List Char) :
    (l.takeWhile p).all p = true := by
  induction l with
  | nil => rfl
  | cons x xs ih =>
    rw [List.takeWhile_cons]
    by_cases hx : p x = true
    · rw [if_pos hx]
      simp only [List.all_cons, Bool.and_eq_true]
      exact ⟨hx, ih⟩
    · rw [if_neg hx]
      rfl

theorem exc_bind_ok {α β : Type} (a : α) (f : α → Except ParseError β) :
    ((Except.ok a : Except ParseError α) >>= f) = f a := rfl

theorem exc_map_ok {α β : Type} (a : α) (f : α → β) :
    ((Except.ok a : Except ParseError α).map f) = Except.ok (f a) := rfl

theorem exc_bind_err {α β : Type} (e : ParseError) (f : α → Except ParseError β) :
    ((Except.error e : Except ParseError α) >>= f) = Except.error e := rfl

theorem attrPath_var (s pre rest : List Char) (l c : Nat)
    (hne : s ≠ []) (hall : s.all identChar = true)
    (hr1 : headStop identChar rest)
    (hr2 : wsStable rest = true)
    (hr4 : (afterWs rest).head? = some '.' → (afterWs rest)[1]? = some '/') :
    ∃ l2 c2, parse_attribute_path ⟨pre ++ s ++ rest, pre.length, l, c⟩ =
      .ok (s, ⟨pre ++ s ++ rest,
        pre.length + s.length + (rest.takeWhile isWs).length, l2, c2⟩) := by
  obtain ⟨c0, s', rfl⟩ := List.exists_cons_of_ne_nil hne
  have hc0 : identChar c0 = true := by
    simp only [List.all_cons, Bool.and_eq_true] at hall
    exact hall.1
  obtain ⟨hn1, hn2, hn3, hn4, _⟩ := identChar_ne c0 hc0
  have hcur : current ⟨pre ++ (c0 :: s') ++ rest, pre.length, l, c⟩ = some c0 := by
    rw [List.append_assoc, current_at]
    rfl
  obtain ⟨l1, c1, hident⟩ :=
    parse_identifier_run (c0 :: s') pre rest l c hne hall hr1
  -- decompose the trailing text at its whitespace prefix
  have hrsplit : rest = rest.takeWhile isWs ++ afterWs rest :=
    (takeWhile_append_dropWhile isWs rest).symm
  obtain ⟨l2, c2, hskip⟩ := skipWs_run (rest.takeWhile isWs) (pre ++ (c0 :: s'))
    (afterWs rest) l1 c1 (all_takeWhile_self isWs rest) hr2
  unfold parse_attribute_path
  simp only [attrPathLoopF]
  rw [if_neg (fun h => hn3 (by
    have h1 := h.1
    rw [hcur] at h1
    exact Option.some.inj h1))]
  rw [if_neg (fun h => hn4 (by
    rw [hcur] at h
    exact Option.some.inj h))]
  rw [hident, exc_bind_ok]
  dsimp only
  have hinp : pre ++ (c0 :: s') ++ rest =
      (pre ++ (c0 :: s')) ++ rest.takeWhile isWs ++ afterWs rest := by
    conv_lhs => rw [hrsplit]
    simp
  have hshape : (⟨pre ++ (c0 :: s') ++ rest, pre.length + (c0 :: s').length, l1, c1⟩ :
      NixParser) = ⟨(pre ++ (c0 :: s')) ++ rest.takeWhile isWs ++ afterWs rest,
        (pre ++ (c0 :: s')).length, l1, c1⟩ := by
    rw [hinp]
    simp
  rw [hshape, hskip]
  have hshape2 : (⟨(pre ++ (c0 :: s')) ++ rest.takeWhile isWs ++ afterWs rest,
      (pre ++ (c0 :: s')).length + (rest.takeWhile isWs).length, l2, c2⟩ : NixParser) =
      ⟨((pre ++ (c0 :: s')) ++ rest.takeWhile isWs) ++ afterWs rest,
        ((pre ++ (c0 :: s')) ++ rest.takeWhile isWs).length, l2, c2⟩ := by
    simp
    omega
  have hcur2 : current ⟨((pre ++ (c0 :: s')) ++ rest.takeWhile isWs) ++ afterWs rest,
      ((pre ++ (c0 :: s')) ++ rest.takeWhile isWs).length, l2, c2⟩ =
      (afterWs rest).head? := current_at _ _ _ _
  rcases hhead : (afterWs rest).head? with _ | ch
  · rw [hshape2]
    rw [if_neg (by rw [hcur2, hhead]; simp)]
    refine ⟨l2, c2, ?_⟩
    rw [← hshape2]
    simp
    first
    | (constructor <;> first | exact hrsplit.symm | omega)
    | exact hrsplit.symm
    | omega
  · by_cases hdot : ch = '.'
    · subst hdot
      have hslash := hr4 hhead
      rw [hshape2]
      rw [if_pos (by rw [hcur2, hhead])]
      rw [if_pos ?hs]
      case hs =>
        show (((pre ++ (c0 :: s')) ++ rest.takeWhile isWs) ++ afterWs rest)[_ + 1]? =
          some '/'
        rw [get_append_right]
        exact hslash
      refine ⟨l2, c2, ?_⟩
      rw [← hshape2]
      simp
      first
      | (constructor <;> first | exact hrsplit.symm | omega)
      | exact hrsplit.symm
      | omega
    · rw [hshape2]
      rw [if_neg (by rw [hcur2, hhead]; simp [hdot])]
      refine ⟨l2, c2, ?_⟩
      rw [← hshape2]
      simp
      first
      | (constructor <;> first | exact hrsplit.symm | omega)
      | exact hrsplit.symm
      | omega

/-- After a segment: the key ends or a `.` starts another segment (ample
fuel). -/
def dotTail (s : List Char) : Bool := keyTailF (s.length + 1) s

theorem keySegF_at (fuel : Nat) (k : List Char) (h : k.length < fuel) :
    keySegF fuel k = segStart k :=
  (keyChk_mono k.length k le_rfl fuel (k.length + 1) h (by omega)).1

theorem keyTailF_at (fuel : Nat) (k : List Char) (h : k.length < fuel) :
    keyTailF fuel k = dotTail k :=
  (keyChk_mono k.length k le_rfl fuel (k.length + 1) h (by omega)).2

theorem dotTail_inv (k : List Char) (h : dotTail k = true) :
    k = [] ∨ ∃ k3, k = '.' :: k3 ∧ segStart k3 = true := by
  cases k with
  | nil => exact Or.inl rfl
  | cons c r =>
    right
    unfold dotTail at h
    simp only [List.length_cons, keyTailF] at h
    rw [Bool.and_eq_true] at h
    obtain ⟨hdot, hseg⟩ := h
    refine ⟨r, by rw [of_decide_eq_true hdot], ?_⟩
    rw [keySegF_at (r.length + 1) r (by omega)] at hseg
    exact hseg

theorem segStart_inv (k : List Char) (h : segStart k = true) :
    ∃ c r, k = c :: r ∧
      ((c = dq ∧ ∃ inner k2, r = inner ++ (dq :: k2) ∧
          inner.all (fun x => x != dq) = true ∧ inner.all (fun x => x != bs) = true ∧
          dotTail k2 = true) ∨
        (¬(c = dq) ∧ identChar c = true ∧ dotTail (r.dropWhile identChar) = true)) := by
  cases k with
  | nil => simp [segStart, keySegF] at h
  | cons c r =>
    refine ⟨c, r, rfl, ?_⟩
    unfold segStart at h
    simp only [List.length_cons, keySegF] at h
    by_cases hdq : c = dq
    · rw [if_pos hdq] at h
      left
      refine ⟨hdq, r.takeWhile (fun x => x != dq), (r.dropWhile (fun x => x != dq)).tail,
        ?_, ?_, ?_, ?_⟩
      · by_cases hemp : (r.dropWhile (fun x => x != dq)).isEmpty = true
        · rw [if_pos hemp] at h
          simp at h
        · rcases hd : r.dropWhile (fun x => x != dq) with _ | ⟨d, r2⟩
          · rw [hd] at hemp
            simp at hemp
          · have hde : d = dq := by
              have := head_dropWhile_not (fun x => x != dq) r d (by rw [hd]; rfl)
              simpa using this
            subst hde
            conv_lhs => rw [← takeWhile_append_dropWhile (fun x => x != dq) r]
            rw [hd]
            rfl
      · exact all_takeWhile_self _ r
      · by_cases hemp : (r.dropWhile (fun x => x != dq)).isEmpty = true
        · rw [if_pos hemp] at h
          simp at h
        · rw [if_neg hemp, Bool.and_eq_true] at h
          exact h.1
      · by_cases hemp : (r.dropWhile (fun x => x != dq)).isEmpty = true
        · rw [if_pos hemp] at h
          simp at h
        · rw [if_neg hemp, Bool.and_eq_true] at h
          have htl := h.2
          have hlen : (r.dropWhile (fun x => x != dq)).tail.length < r.length + 1 := by
            have h1 := (List.dropWhile_sublist (l := r) (fun x => x != dq)).length_le
            have h2 := List.length_tail (r.dropWhile (fun x => x != dq))
            omega
          rw [keyTailF_at (r.length + 1) _ hlen] at htl
          exact htl
    · rw [if_neg hdq] at h
      right
      by_cases hic : identChar c = true
      · rw [if_pos hic] at h
        refine ⟨hdq, hic, ?_⟩
        have hlen : (r.dropWhile identChar).length < r.length + 1 := by
          have := (List.dropWhile_sublist (l := r) identChar).length_le
          omega
        rw [keyTailF_at (r.length + 1) _ hlen] at h
        exact h
      · rw [if_neg hic] at h
        simp at h

theorem segStart_head (k : List Char) (h : segStart k = true) :
    ∃ c r, k = c :: r ∧ isWs c = false ∧ ¬(c = '#') ∧ ¬(c = '/') ∧ ¬(c = '.') ∧
      ¬(c = '=') := by
  obtain ⟨c, r, rfl, hcase⟩ := segStart_inv k h
  refine ⟨c, r, rfl, ?_⟩
  rcases hcase with ⟨hdq, _⟩ | ⟨_, hic, _⟩
  · subst hdq
    refine ⟨by decide, by decide, by decide, by decide, by decide⟩
  · obtain ⟨h1, h2, h3, _, _, _, _, h8, _⟩ := identChar_ne c hic
    exact ⟨identChar_not_ws c hic, h1, h2, h3, h8⟩


theorem wsBoundary_of_head (c : Char) (rest : List Char) (h1 : isWs c = false)
    (h2 : ¬(c = '#')) (h3 : ¬(c = '/')) : wsBoundary (c :: rest) = true := by
  unfold wsBoundary
  simp only [List.head?_cons]
  rw [h1]
  simp [h2, h3]

theorem identChar_space : identChar ' ' = false := by decide

theorem headStop_seg (k2 sp : List Char) (hsp : sp.head? = some ' ')
    (hstop : ∀ x, k2.head? = some x → identChar x = false) :
    headStop identChar (k2 ++ sp) := by
  unfold headStop
  cases k2 with
  | nil =>
    simp only [List.nil_append]
    rw [hsp]
    exact identChar_space
  | cons x xs =>
    simp only [List.cons_append, List.head?_cons]
    exact hstop x rfl

theorem attrPath_post (m : Nat)
    (ih : ∀ (k acc pre tail : List Char) (l c fuel : Nat),
      k.length ≤ m → segStart k = true → k.length + 1 ≤ fuel →
      ∃ l2 c2, attrPathLoopF fuel acc
          ⟨pre ++ k ++ (' ' :: ('=' :: tail)), pre.length, l, c⟩ =
        .ok (acc ++ k, ⟨pre ++ k ++ (' ' :: ('=' :: tail)),
          pre.length + k.length + 1, l2, c2⟩)) :
    ∀ (k2 acc1 pre1 tail : List Char) (l c g : Nat), dotTail k2 = true →
      k2.length ≤ m + 1 → k2.length ≤ g →
      ∃ l2 c2,
        (if current (skip_whitespace
            ⟨pre1 ++ (k2 ++ (' ' :: ('=' :: tail))), pre1.length, l, c⟩) = some '.' then
          if (skip_whitespace ⟨pre1 ++ (k2 ++ (' ' :: ('=' :: tail))),
              pre1.length, l, c⟩).input[(skip_whitespace
                ⟨pre1 ++ (k2 ++ (' ' :: ('=' :: tail))), pre1.length, l, c⟩).pos + 1]? =
              some '/' then
            Except.ok (acc1, skip_whitespace
              ⟨pre1 ++ (k2 ++ (' ' :: ('=' :: tail))), pre1.length, l, c⟩)
          else
            attrPathLoopF g (acc1 ++ ['.']) (skip_whitespace (advance (skip_whitespace
              ⟨pre1 ++ (k2 ++ (' ' :: ('=' :: tail))), pre1.length, l, c⟩)))
        else Except.ok (acc1, skip_whitespace
          ⟨pre1 ++ (k2 ++ (' ' :: ('=' :: tail))), pre1.length, l, c⟩)) =
        .ok (acc1 ++ k2, ⟨pre1 ++ (k2 ++ (' ' :: ('=' :: tail))),
          pre1.length + k2.length + 1, l2, c2⟩) := by
  intro k2 acc1 pre1 tail l c g htail hk2 hg
  rcases dotTail_inv k2 htail with rfl | ⟨k3, rfl, hseg3⟩
  · have hsh : (⟨pre1 ++ ([] ++ (' ' :: ('=' :: tail))), pre1.length, l, c⟩ : NixParser) =
        ⟨pre1 ++ [' '] ++ ('=' :: tail), pre1.length, l, c⟩ := by
      simp
    rw [hsh]
    obtain ⟨l2, c2, hskip⟩ := skipWs_run [' '] pre1 ('=' :: tail) l c (by decide)
      (wsBoundary_of_head '=' tail (by decide) (by decide) (by decide))
    rw [hskip]
    have hsh2 : (⟨pre1 ++ [' '] ++ ('=' :: tail), pre1.length + [' '].length, l2, c2⟩ :
        NixParser) = ⟨(pre1 ++ [' ']) ++ ('=' :: tail), (pre1 ++ [' ']).length, l2, c2⟩ := by
      simp
    rw [hsh2]
    rw [if_neg (by rw [current_at]; simp)]
    refine ⟨l2, c2, ?_⟩
    simp
  · obtain ⟨c3, r3, rfl, hw3, hh3, hs3, hd3, _⟩ := segStart_head k3 hseg3
    have hsh : (⟨pre1 ++ (('.' :: (c3 :: r3)) ++ (' ' :: ('=' :: tail))),
        pre1.length, l, c⟩ : NixParser) =
        ⟨pre1 ++ ('.' :: ((c3 :: r3) ++ (' ' :: ('=' :: tail)))), pre1.length, l, c⟩ := by
      simp
    rw [hsh]
    rw [skipWs_noop pre1 _ l c (wsBoundary_of_head '.' _ (by decide) (by decide) (by decide))]
    rw [if_pos (by rw [current_at]; rfl)]
    have hg1 : (pre1 ++ ('.' :: ((c3 :: r3) ++ (' ' :: ('=' :: tail)))))[pre1.length + 1]? =
        some c3 := by
      rw [get_append_right]
      simp
    rw [if_neg (by
      show (pre1 ++ ('.' :: ((c3 :: r3) ++ (' ' :: ('=' :: tail)))))[pre1.length + 1]? ≠
        some '/'
      rw [hg1]
      exact fun h => hs3 (Option.some.inj h))]
    obtain ⟨l1, c1, hadv⟩ := advance_at pre1 '.' ((c3 :: r3) ++ (' ' :: ('=' :: tail))) l c
    rw [hadv]
    have hsh2 : (⟨pre1 ++ ('.' :: ((c3 :: r3) ++ (' ' :: ('=' :: tail)))),
        pre1.length + 1, l1, c1⟩ : NixParser) =
        ⟨(pre1 ++ ['.']) ++ ((c3 :: r3) ++ (' ' :: ('=' :: tail))),
          (pre1 ++ ['.']).length, l1, c1⟩ := by
      simp
    rw [hsh2]
    rw [skipWs_noop (pre1 ++ ['.']) _ l1 c1 (by
      apply wsBoundary_of_head c3 _ hw3 hh3 hs3)]
    have hsh3 : (⟨(pre1 ++ ['.']) ++ ((c3 :: r3) ++ (' ' :: ('=' :: tail))),
        (pre1 ++ ['.']).length, l1, c1⟩ : NixParser) =
        ⟨(pre1 ++ ['.']) ++ (c3 :: r3) ++ (' ' :: ('=' :: tail)),
          (pre1 ++ ['.']).length, l1, c1⟩ := by
      simp
    rw [hsh3]
    obtain ⟨l2, c2, hrec⟩ := ih (c3 :: r3) (acc1 ++ ['.']) (pre1 ++ ['.']) tail l1 c1 g
      (by simp only [List.length_cons] at hk2 ⊢; omega) hseg3
      (by simp only [List.length_cons] at hg ⊢; omega)
    rw [hrec]
    refine ⟨l2, c2, ?_⟩
    simp
    first
    | omega
    | (constructor <;> omega)
    | (constructor
       · constructor <;> omega
       · omega)

theorem attrPathLoop_key (n : Nat) : ∀ (k acc pre tail : List Char) (l c fuel : Nat),
    k.length ≤ n → segStart k = true → k.length + 1 ≤ fuel →
    ∃ l2 c2, attrPathLoopF fuel acc
        ⟨pre ++ k ++ (' ' :: ('=' :: tail)), pre.length, l, c⟩ =
      .ok (acc ++ k, ⟨pre ++ k ++ (' ' :: ('=' :: tail)),
        pre.length + k.length + 1, l2, c2⟩) := by
  induction n with
  | zero =>
    intro k acc pre tail l c fuel hk hseg hfuel
    have : k = [] := List.length_eq_zero.mp (Nat.le_zero.mp hk)
    subst this
    simp [segStart, keySegF] at hseg
  | succ m ih =>
    intro k acc pre tail l c fuel hk hseg hfuel
    obtain ⟨c0, r, rfl, hcase⟩ := segStart_inv k hseg
    cases fuel with
    | zero => omega
    | succ g =>
    rcases hcase with ⟨hdq, inner, k2, hr, hinq, hinb, htail⟩ | ⟨hdq, hic, htail⟩
    · -- quoted segment
      subst hdq
      subst hr
      have hinnq : inner.contains dq = false := all_ne_not_contains dq inner hinq
      have hinnb : inner.contains bs = false := all_ne_not_contains bs inner hinb
      have hcur : current ⟨pre ++ (dq :: (inner ++ (dq :: k2))) ++ (' ' :: ('=' :: tail)),
          pre.length, l, c⟩ = some dq := by
        rw [List.append_assoc, current_at]
        rfl
      simp only [attrPathLoopF]
      rw [if_neg (fun h => absurd
        (by rw [hcur] at h; exact Option.some.inj h.1 : dq = '.') (by decide))]
      rw [if_pos hcur]
      have hin : pre ++ (dq :: (inner ++ (dq :: k2))) ++ (' ' :: ('=' :: tail)) =
          pre ++ (dq :: ((escQ inner ++ [dq]) ++ (k2 ++ (' ' :: ('=' :: tail))))) := by
        rw [escQ_id inner hinnq]
        simp
      rw [hin]
      obtain ⟨l1, c1, hstr⟩ := parse_string_run inner pre (k2 ++ (' ' :: ('=' :: tail)))
        l c hinnb
      rw [hstr, exc_map_ok, exc_bind_ok]
      dsimp only
      rw [escQ_id inner hinnq]
      have hsh1 : (⟨pre ++ (dq :: ((inner ++ [dq]) ++ (k2 ++ (' ' :: ('=' :: tail))))),
          pre.length + (inner.length + 2), l1, c1⟩ : NixParser) =
          ⟨(pre ++ (dq :: (inner ++ [dq]))) ++ (k2 ++ (' ' :: ('=' :: tail))),
            (pre ++ (dq :: (inner ++ [dq]))).length, l1, c1⟩ := by
        simp <;> omega
      rw [hsh1]
      obtain ⟨l2, c2, hpost⟩ := attrPath_post m ih k2
        (acc ++ (dq :: inner ++ [dq])) (pre ++ (dq :: (inner ++ [dq]))) tail l1 c1 g htail
        (by simp only [List.length_cons, List.length_append] at hk ⊢; omega)
        (by simp only [List.length_cons, List.length_append] at hfuel ⊢; omega)
      rw [hpost]
      refine ⟨l2, c2, ?_⟩
      simp [-List.takeWhile_append_dropWhile] <;> omega
    · -- identifier segment
      have hrsplit : r = r.takeWhile identChar ++ r.dropWhile identChar :=
        (takeWhile_append_dropWhile identChar r).symm
      have hcur : current ⟨pre ++ (c0 :: r) ++ (' ' :: ('=' :: tail)),
          pre.length, l, c⟩ = some c0 := by
        rw [List.append_assoc, current_at]
        rfl
      obtain ⟨hn1, hn2, hn3, _⟩ := identChar_ne c0 hic
      simp only [attrPathLoopF]
      rw [if_neg (fun h => absurd
        (by rw [hcur] at h; exact Option.some.inj h.1 : c0 = '.') hn3)]
      rw [if_neg (by rw [hcur]; exact fun h => hdq (Option.some.inj h))]
      have hrunall : (c0 :: r.takeWhile identChar).all identChar = true := by
        simp only [List.all_cons, Bool.and_eq_true]
        exact ⟨hic, all_takeWhile_self identChar r⟩
      have hstop : headStop identChar (r.dropWhile identChar ++ (' ' :: ('=' :: tail))) :=
        headStop_seg _ _ rfl (head_dropWhile_not identChar r)
      have hin : pre ++ (c0 :: r) ++ (' ' :: ('=' :: tail)) =
          pre ++ (c0 :: r.takeWhile identChar) ++
            (r.dropWhile identChar ++ (' ' :: ('=' :: tail))) := by
        conv_lhs => rw [hrsplit]
        simp only [List.cons_append, List.append_assoc]
      rw [hin]
      obtain ⟨l1, c1, hident⟩ := parse_identifier_run (c0 :: r.takeWhile identChar) pre
        (r.dropWhile identChar ++ (' ' :: ('=' :: tail))) l c (by simp) hrunall hstop
      rw [hident, exc_bind_ok]
      dsimp only
      have hsh1 : (⟨pre ++ (c0 :: r.takeWhile identChar) ++
          (r.dropWhile identChar ++ (' ' :: ('=' :: tail))),
          pre.length + (c0 :: r.takeWhile identChar).length, l1, c1⟩ : NixParser) =
          ⟨(pre ++ (c0 :: r.takeWhile identChar)) ++
            (r.dropWhile identChar ++ (' ' :: ('=' :: tail))),
            (pre ++ (c0 :: r.takeWhile identChar)).length, l1, c1⟩ := by
        simp
      rw [hsh1]
      have hklen : (r.dropWhile identChar).length ≤ r.length :=
        (List.dropWhile_sublist (l := r) identChar).length_le
      obtain ⟨l2, c2, hpost⟩ := attrPath_post m ih (r.dropWhile identChar)
        (acc ++ (c0 :: r.takeWhile identChar)) (pre ++ (c0 :: r.takeWhile identChar))
        tail l1 c1 g htail
        (by simp only [List.length_cons] at hk; omega)
        (by simp only [List.length_cons] at hfuel; omega)
      rw [hpost]
      refine ⟨l2, c2, ?_⟩
      have hval : acc ++ (c0 :: r) =
          (acc ++ (c0 :: r.takeWhile identChar)) ++ r.dropWhile identChar := by
        conv_lhs => rw [hrsplit]
        simp only [List.cons_append, List.append_assoc]
      have hplen : (c0 :: r).length =
          (c0 :: r.takeWhile identChar).length + (r.dropWhile identChar).length := by
        conv_lhs => rw [hrsplit]
        simp only [List.length_cons, List.length_append]
        omega
      rw [hval]
      simp only [List.length_cons] at hplen
      simp only [Except.ok.injEq, Prod.mk.injEq, NixParser.mk.injEq,
        List.length_append, List.length_cons, true_and, and_true]
      omega

/-- `parse_attribute_path` reads a well-formed dotted key verbatim, stopping
on the space before `=` with the cursor on the `=`. -/
theorem attrPath_key (k pre tail : List Char) (l c : Nat)
    (hseg : segStart k = true) :
    ∃ l2 c2, parse_attribute_path
        ⟨pre ++ k ++ (' ' :: ('=' :: tail)), pre.length, l, c⟩ =
      .ok (k, ⟨pre ++ k ++ (' ' :: ('=' :: tail)),
        pre.length + k.length + 1, l2, c2⟩) := by
  have hrem : k.length + 1 ≤
      remFuel ⟨pre ++ k ++ (' ' :: ('=' :: tail)), pre.length, l, c⟩ := by
    simp [remFuel, List.length_append]
  obtain ⟨l2, c2, h⟩ := attrPathLoop_key k.length k [] pre tail l c
    (remFuel ⟨pre ++ k ++ (' ' :: ('=' :: tail)), pre.length, l, c⟩)
    (le_refl _) hseg hrem
  refine ⟨l2, c2, ?_⟩
  unfold parse_attribute_path
  simpa using h

theorem litPre_append (a b : List Char) : litPre a (a ++ b) = true := by
  induction a with
  | nil => rfl
  | cons c cs ih => simp [litPre, ih]

theorem litPre_mem (a : List Char) : ∀ k r : List Char, litPre a (k ++ r) = true →
    litPre a k = true ∨ ∃ c, r.head? = some c ∧ a.contains c = true := by
  induction a with
  | nil => intro k r _; left; rfl
  | cons c cs ih =>
    intro k r h
    cases k with
    | nil =>
      right
      cases r with
      | nil => simp [litPre] at h
      | cons d ds =>
        simp only [List.nil_append, litPre, Bool.and_eq_true, decide_eq_true_eq] at h
        refine ⟨d, rfl, ?_⟩
        have hcd : c = d := h.1
        subst hcd
        simp [List.contains_cons]
    | cons d ds =>
      simp only [List.cons_append, litPre, Bool.and_eq_true] at h ⊢
      rcases ih ds r h.2 with h2 | ⟨e, he, hm⟩
      · left; exact ⟨h.1, h2⟩
      · right
        refine ⟨e, he, ?_⟩
        simp only [List.contains_cons, hm, Bool.or_true]

theorem ws_not_classes (c : Char) (h : isWs c = true) :
    numChar c = false ∧ pathChar c = false ∧ identChar c = false ∧ ¬(c = '*') := by
  rcases ws_char_cases c h with rfl | rfl | rfl | rfl <;>
    exact ⟨by decide, by decide, by decide, by decide⟩

theorem afterWs_nonws (rest : List Char) (hh : ∀ d, rest.head? = some d → isWs d = false) :
    afterWs rest = rest := by
  cases rest with
  | nil => rfl
  | cons d ds =>
    unfold afterWs
    rw [List.dropWhile_cons, hh d rfl]
    rfl

theorem takeWs_nonws (rest : List Char) (hh : ∀ d, rest.head? = some d → isWs d = false) :
    rest.takeWhile (fun c => isWs c) = [] := by
  cases rest with
  | nil => rfl
  | cons d ds =>
    rw [List.takeWhile_cons, hh d rfl]
    rfl

theorem wsBoundary_head (t : List Char) (hb : wsBoundary t = true) :
    ∀ d, t.head? = some d → isWs d = false := by
  intro d hd
  unfold wsBoundary at hb
  rw [hd] at hb
  simp only [Bool.and_eq_true, Bool.not_eq_true'] at hb
  exact hb.1.1

theorem afterWs_append (w t : List Char) (hw : (w.all fun c => isWs c) = true)
    (hb : wsBoundary t = true) : afterWs (w ++ t) = t := by
  induction w with
  | nil => exact afterWs_nonws t (wsBoundary_head t hb)
  | cons a w2 ih =>
    simp only [List.all_cons, Bool.and_eq_true] at hw
    unfold afterWs at ih ⊢
    rw [List.cons_append, List.dropWhile_cons, hw.1]
    exact ih hw.2

theorem takeWs_append (w t : List Char) (hw : (w.all fun c => isWs c) = true)
    (hb : wsBoundary t = true) : (w ++ t).takeWhile (fun c => isWs c) = w := by
  induction w with
  | nil => exact takeWs_nonws t (wsBoundary_head t hb)
  | cons a w2 ih =>
    simp only [List.all_cons, Bool.and_eq_true] at hw
    rw [List.cons_append, List.takeWhile_cons, hw.1]
    simp only [if_true, ih hw.2]

theorem restStop_stop (v : NixValue) (rest : List Char) (c : Char)
    (hc : rest.head? = some c)
    (h1 : numChar c = false) (h2 : pathChar c = false) (h3 : identChar c = false)
    (h4 : isWs c = false) (h5 : ¬(c = '#')) (h6 : ¬(c = ':')) (h7 : ¬(c = '.'))
    (h2b : ¬(c = '*'))
    (h8 : ¬(c = '/' ∧ rest[1]? = some '*')) :
    restStop v rest = true := by
  have hnw : ∀ d, rest.head? = some d → isWs d = false := by
    intro d hd; rw [hc] at hd; cases hd; exact h4
  have hws : afterWs rest = rest := afterWs_nonws rest hnw
  have hwb : wsBoundary rest = true := by
    unfold wsBoundary
    rw [hc]
    have hstar : (rest[1]? == some '*') = false ∨ (c == '/') = false := by
      by_cases hsl : c = '/'
      · left
        rcases h9 : rest[1]? with _ | e
        · rfl
        · have he : ¬(e = '*') := fun he => h8 ⟨hsl, by rw [h9, he]⟩
          simp [he]
      · right; simp [hsl]
    rcases hstar with h9 | h9 <;> simp [h4, h5, h9]
  cases htk : tailKind v <;> simp only [restStop, htk, hc]
  · rw [h1]; rfl
  · rw [h2]
    simp [h2b]
  · unfold wsStable
    rw [hws, hwb, h3, hc]
    simp [h6, h7]
  · unfold wsStable
    rw [hws, hwb, hc]
    simp [h6]

theorem restStop_semi (v : NixValue) (t : List Char) : restStop v (';' :: t) = true := by
  refine restStop_stop v _ ';' rfl (by decide) (by decide) (by decide) (by decide)
    (by decide) (by decide) (by decide) (by decide) ?_
  rintro ⟨h, -⟩
  exact absurd h (by decide)

theorem restStop_ws (v : NixValue) (w t : List Char) (a : Char) (tl : List Char)
    (hsh : w = a :: tl) (hw : (w.all fun c => isWs c) = true)
    (hb : wsBoundary t = true) (hcl : t.head? ≠ some ':')
    (hd : ∀ d, t.head? = some d → d = '.' → t[1]? = some '/') :
    restStop v (w ++ t) = true := by
  subst hsh
  simp only [List.all_cons, Bool.and_eq_true] at hw
  obtain ⟨ha, htl⟩ := hw
  obtain ⟨hn1, hn2, hn3, hn4⟩ := ws_not_classes a ha
  have hws : afterWs ((a :: tl) ++ t) = t := by
    rw [List.cons_append]
    exact afterWs_append (a :: tl) t (by simp [ha, htl]) hb
  have hcol : (t.head? != some ':') = true := by
    rcases ht : t.head? with _ | e
    · rfl
    · rw [ht] at hcl
      simp only [bne_iff_ne, ne_eq, Option.some.injEq]
      exact fun he => hcl (by rw [he])
  cases htk : tailKind v <;>
    simp only [restStop, htk, List.cons_append, List.head?_cons]
  · rw [hn1]; rfl
  · rw [hn2]
    simp [hn4]
  · unfold wsStable
    rw [List.cons_append] at hws
    rw [hws, hb, hn3, hcol]
    rcases ht : t.head? with _ | e
    · rfl
    · simp only [Bool.true_and, Bool.and_true]
      by_cases he : e = '.'
      · rw [hd e ht he]
        simp [he]
      · simp [he]
  · unfold wsStable
    rw [List.cons_append] at hws
    rw [hws, hb, hcol]
    rfl

theorem restStop_nil (v : NixValue) : restStop v [] = true := by
  cases htk : tailKind v <;> simp [restStop, htk, wsStable, afterWs, wsBoundary]

theorem delta_stop (v : NixValue) (rest : List Char)
    (hh : ∀ d, rest.head? = some d → isWs d = false) : delta v rest = 0 := by
  cases htk : tailKind v <;> simp only [delta, htk]
  rw [takeWs_nonws rest hh]
  rfl

theorem delta_nil (v : NixValue) : delta v [] = 0 :=
  delta_stop v [] (by intro d hd; cases hd)

theorem delta_ws (v : NixValue) (w t : List Char)
    (hw : (w.all fun c => isWs c) = true) (hb : wsBoundary t = true) :
    delta v (w ++ t) = 0 ∨ delta v (w ++ t) = w.length := by
  cases htk : tailKind v
  case varT =>
    right
    simp only [delta, htk]
    rw [takeWs_append w t hw hb]
  all_goals left
  all_goals simp only [delta, htk]

theorem isDigit_facts (c : Char) (h : c.isDigit = true) :
    isWs c = false ∧ ¬(c = '#') ∧ ¬(c = ':') ∧ ¬(c = ']') ∧ ¬(c = '.') ∧ ¬(c = '/') := by
  refine ⟨?_, ?_, ?_, ?_, ?_, ?_⟩
  · by_contra hws
    rw [Bool.not_eq_false] at hws
    rcases ws_char_cases c hws with rfl | rfl | rfl | rfl <;> simp at h
  all_goals intro hh
  all_goals subst hh
  all_goals simp at h

theorem natChars_head (n : Nat) :
    ∃ c s, natChars n = c :: s ∧ c.isDigit = true := by
  obtain ⟨hall, hne, _⟩ := natChars_spec n
  obtain ⟨c, s, hcs⟩ := List.exists_cons_of_ne_nil hne
  refine ⟨c, s, hcs, ?_⟩
  rw [hcs] at hall
  simp only [List.all_cons, Bool.and_eq_true] at hall
  exact hall.1

/-- The head character of the rendering of a well-formed value: never
whitespace or a comment opener (so the pre-value `skip_whitespace` runs stop
exactly there), never `:` or `]`, and a leading `.` is always followed by
`/`.  A `/` head occurs only for path renderings, whose remaining characters
are path characters. -/
theorem renderHead (v : NixValue) (ind : Nat) (hwf : wfV v = true) :
    ∃ c s, render v ind = c :: s ∧ isWs c = false ∧ ¬(c = '#') ∧ ¬(c = ':') ∧
      ¬(c = ']') ∧ (c = '.' → s.head? = some '/') ∧
      (c = '/' → tailKind v = TailK.pathT ∧ s.all pathChar = true) := by
  cases v with
  | null =>
    exact ⟨'n', "ull".toList, rfl, by decide, by decide, by decide, by decide,
      fun h => absurd h (by decide), fun h => absurd h (by decide)⟩
  | bool b =>
    cases b
    · exact ⟨'f', "alse".toList, rfl, by decide, by decide, by decide, by decide,
        fun h => absurd h (by decide), fun h => absurd h (by decide)⟩
    · exact ⟨'t', "rue".toList, rfl, by decide, by decide, by decide, by decide,
        fun h => absurd h (by decide), fun h => absurd h (by decide)⟩
  | int n =>
    cases n with
    | ofNat m =>
      obtain ⟨c, s, hcs, hdig⟩ := natChars_head m
      obtain ⟨f1, f2, f3, f4, f5, f6⟩ := isDigit_facts c hdig
      exact ⟨c, s, hcs, f1, f2, f3, f4, fun h => absurd h f5, fun h => absurd h f6⟩
    | negSucc m =>
      obtain ⟨c, s, hcs, _⟩ := natChars_head (m + 1)
      refine ⟨'-', natChars (m + 1), rfl, by decide, by decide, by decide, by decide,
        fun h => absurd h (by decide), fun h => absurd h (by decide)⟩
  | float q => simp [wfV] at hwf
  | str s =>
    exact ⟨dq, escQ s ++ [dq], rfl, by decide, by decide, by decide, by decide,
      fun h => absurd h (by decide), fun h => absurd h (by decide)⟩
  | path s =>
    cases s with
    | nil => simp [wfV, pathOk] at hwf
    | cons c0 r =>
      simp only [wfV, pathOk, Bool.and_eq_true, Bool.or_eq_true, beq_iff_eq,
        List.all_cons] at hwf
      obtain ⟨⟨hc0, hall⟩, hor⟩ := hwf
      rcases hor with h0 | ⟨h0, h1⟩
      · subst h0
        exact ⟨'/', r, rfl, by decide, by decide, by decide, by decide,
          fun h => absurd h (by decide), fun _ => ⟨rfl, hall⟩⟩
      · subst h0
        refine ⟨'.', r, rfl, by decide, by decide, by decide, by decide, fun _ => ?_,
          fun h => absurd h (by decide)⟩
        exact h1
  | var s =>
    cases s with
    | nil => simp [wfV, varOk] at hwf
    | cons c0 r =>
      have hic : identChar c0 = true := by
        simp only [wfV, varOk, identText, Bool.and_eq_true, List.all_cons] at hwf
        exact hwf.1.1.1.1.2.1
      obtain ⟨g1, g2, g3, _, g5, _, g7, _⟩ := identChar_ne c0 hic
      exact ⟨c0, r, rfl, identChar_not_ws c0 hic, g1, g5, g7,
        fun h => absurd h g3, fun h => absurd h g2⟩
  | imprt s =>
    exact ⟨'i', "mport ".toList ++ s, rfl, by decide, by decide, by decide, by decide,
      fun h => absurd h (by decide), fun h => absurd h (by decide)⟩
  | list items =>
    exact ⟨'[', '\n' :: (renderItems items ind ++ renderIndent ind ++ [']']), rfl,
      by decide, by decide, by decide, by decide,
      fun h => absurd h (by decide), fun h => absurd h (by decide)⟩
  | attrSet attrs =>
    exact ⟨obr, '\n' :: (renderEntries attrs ind ++ renderIndent ind ++ [cbr]), rfl,
      by decide, by decide, by decide, by decide,
      fun h => absurd h (by decide), fun h => absurd h (by decide)⟩
  | letE binds body =>
    exact ⟨'l', "et\n".toList ++ (renderEntries binds ind ++ renderIndent ind ++
      "in ".toList ++ render body ind), rfl, by decide, by decide, by decide, by decide,
      fun h => absurd h (by decide), fun h => absurd h (by decide)⟩
  | fn params body =>
    match params with
    | [] => simp [wfV] at hwf
    | [p] =>
      have hvp : varOk p = true := by
        simp only [wfV, Bool.and_eq_true] at hwf
        exact hwf.1
      cases p with
      | nil => simp [varOk] at hvp
      | cons c0 r =>
        have hic : identChar c0 = true := by
          simp only [varOk, identText, Bool.and_eq_true, List.all_cons] at hvp
          exact hvp.1.1.1.1.2.1
        obtain ⟨g1, g2, g3, _, g5, _, g7, _⟩ := identChar_ne c0 hic
        exact ⟨c0, r ++ (':' :: ' ' :: render body ind), rfl,
          identChar_not_ws c0 hic, g1, g5, g7,
          fun h => absurd h g3, fun h => absurd h g2⟩
    | p0 :: p1 :: ps =>
      exact ⟨obr, ' ' :: (joinParams (p0 :: p1 :: ps) ++ ", ... ".toList ++
        (cbr :: ':' :: ' ' :: render body ind)), rfl,
        by decide, by decide, by decide, by decide,
        fun h => absurd h (by decide), fun h => absurd h (by decide)⟩
  | withE a b => simp [wfV] at hwf
  | inherit names => simp [wfV] at hwf

/-- The rendering of a well-formed value followed by admissible text stops a
`skip_whitespace` run at its first character. -/
theorem render_wsBoundary (v : NixValue) (ind : Nat) (rest : List Char)
    (hwf : wfV v = true) (hrest : restStop v rest = true) :
    wsBoundary (render v ind ++ rest) = true := by
  obtain ⟨c, s, hcs, f1, f2, _, _, _, f6⟩ := renderHead v ind hwf
  rw [hcs, List.cons_append]
  unfold wsBoundary
  simp only [List.head?_cons, Bool.and_eq_true, Bool.not_eq_true', bne_iff_ne, ne_eq]
  refine ⟨⟨f1, f2⟩, ?_⟩
  by_cases hsl : c = '/'
  · obtain ⟨htk, hall⟩ := f6 hsl
    have hsnd : ((s ++ rest)[0]? = some '*') → False := by
      cases s with
      | cons d s2 =>
        intro h
        simp only [List.cons_append, List.getElem?_cons_zero, Option.some.injEq] at h
        subst h
        simp only [List.all_cons, Bool.and_eq_true] at hall
        exact absurd hall.1 (by decide)
      | nil =>
        intro h
        simp only [List.nil_append] at h
        simp only [restStop, htk] at hrest
        rw [← List.head?_eq_getElem?] at h
        rw [h] at hrest
        simp at hrest
    rcases h2 : (s ++ rest)[0]? with _ | e
    · simp [List.getElem?_cons_succ, h2]
    · have : ¬(e = '*') := fun he => hsnd (by rw [h2, he])
      simp [List.getElem?_cons_succ, h2, this]
  · simp [hsl]

/-- The statement of the value-level round-trip, graded by node count: the
parser reads back the rendering of any well-formed value of size at most `n`,
leaving the cursor just past it (plus the whitespace an identifier-final
rendering's lookahead consumes). -/
def RT (n : Nat) : Prop :=
  ∀ v : NixValue, nsize v ≤ n → wfV v = true →
    ∀ (ind : Nat) (pre rest : List Char) (l c fuel : Nat),
      fuelFor v ≤ fuel → restStop v rest = true →
      ∃ l2 c2, parseValue fuel ⟨pre ++ (render v ind ++ rest), pre.length, l, c⟩ =
        .ok (v, ⟨pre ++ (render v ind ++ rest),
          pre.length + ((render v ind).length + delta v rest), l2, c2⟩)

/-- Reduction of the `parse_value` dispatch to its keyword zone: when the
cursor needs no whitespace skipping and the current character opens none of
the brace/bracket/quote/number/path forms, what remains is the keyword
chain followed by the attribute-path fallback. -/
theorem parseValue_kw (fuel : Nat) (p : NixParser) (ch : Char)
    (hskip : skip_whitespace p = p)
    (hcur : current p = some ch)
    (hobr : ¬(ch = obr)) (hbrk : ¬(ch = '[')) (hdq : ¬(ch = dq)) (hsq : ¬(ch = sq))
    (hnum : ¬(ch.isDigit = true ∨ (ch = '-' ∧ nextIsDigit p = true)))
    (hdot : ¬(ch = '.')) (hsl : ¬(ch = '/')) :
    parseValue (fuel + 1) p =
      (if peekS p "null" then .ok (.null, advanceN 4 p)
       else if peekS p "true" then .ok (.bool true, advanceN 4 p)
       else if peekS p "false" then .ok (.bool false, advanceN 5 p)
       else if peekS p "let" then parseLet fuel p
       else if peekS p "import" then do
         let (v, p2) ← parseValue fuel (skip_whitespace (advanceN 6 p))
         match v with
         | .str s => .ok (.imprt s, p2)
         | .path s => .ok (.imprt s, p2)
         | _ => .error (mkError p2 "Expected string or path after import")
       else do
         let (id, p1) ← parse_attribute_path p
         let p2 := skip_whitespace p1
         if current p2 = some ':' then do
           let (body, p3) ← parseValue fuel (skip_whitespace (advance p2))
           .ok (.fn [id] body, p3)
         else .ok (.var id, p2)) := by
  conv_lhs => rw [parseValue]
  rw [hskip, hcur]
  rw [if_neg (fun h => hobr (by injection h))]
  split
  · rename_i heq
    injection heq with h
    exact absurd h hbrk
  · rename_i c hne heq
    injection heq with h
    subst h
    rw [if_neg hdq, if_neg hsq, if_neg hnum, if_neg hdot, if_neg hsl]
  · rename_i heq
    cases heq

theorem advanceN_at (n : Nat) (pre rest : List Char) (l c : Nat) :
    ∃ l2 c2, advanceN n ⟨pre ++ rest, pre.length, l, c⟩ =
      ⟨pre ++ rest, pre.length + n, l2, c2⟩ := by
  have h1 := advanceN_input n ⟨pre ++ rest, pre.length, l, c⟩
  have h2 := advanceN_pos n ⟨pre ++ rest, pre.length, l, c⟩
  rcases hst : advanceN n ⟨pre ++ rest, pre.length, l, c⟩ with ⟨i2, p2, l2, c2⟩
  rw [hst] at h1 h2
  dsimp at h1 h2
  subst h1
  subst h2
  exact ⟨l2, c2, rfl⟩

/-- `parse_value` on the rendering of `null`. -/
theorem pv_null (pre rest : List Char) (l c fuel : Nat) :
    ∃ l2 c2, parseValue (fuel + 1) ⟨pre ++ ("null".toList ++ rest), pre.length, l, c⟩ =
      .ok (.null, ⟨pre ++ ("null".toList ++ rest), pre.length + 4, l2, c2⟩) := by
  have hskip := skipWs_noop pre ("null".toList ++ rest) l c (by rfl)
  have hcur : current ⟨pre ++ ("null".toList ++ rest), pre.length, l, c⟩ = some 'n' := by
    rw [current_at]; rfl
  rw [parseValue_kw fuel _ 'n' hskip hcur (by decide) (by decide) (by decide) (by decide)
    (by rintro (h | ⟨h, -⟩) <;> exact absurd h (by decide))
    (by decide) (by decide)]
  have hpk : peekS ⟨pre ++ ("null".toList ++ rest), pre.length, l, c⟩ "null" = true := by
    rw [peekS_at]; exact litPre_append _ _
  rw [if_pos hpk]
  obtain ⟨l2, c2, hadv⟩ := advanceN_at 4 pre ("null".toList ++ rest) l c
  rw [hadv]
  exact ⟨l2, c2, rfl⟩

/-- `parse_value` on the rendering of `true`. -/
theorem pv_true (pre rest : List Char) (l c fuel : Nat) :
    ∃ l2 c2, parseValue (fuel + 1) ⟨pre ++ ("true".toList ++ rest), pre.length, l, c⟩ =
      .ok (.bool true, ⟨pre ++ ("true".toList ++ rest), pre.length + 4, l2, c2⟩) := by
  have hskip := skipWs_noop pre ("true".toList ++ rest) l c (by rfl)
  have hcur : current ⟨pre ++ ("true".toList ++ rest), pre.length, l, c⟩ = some 't' := by
    rw [current_at]; rfl
  rw [parseValue_kw fuel _ 't' hskip hcur (by decide) (by decide) (by decide) (by decide)
    (by rintro (h | ⟨h, -⟩) <;> exact absurd h (by decide))
    (by decide) (by decide)]
  have hn : peekS ⟨pre ++ ("true".toList ++ rest), pre.length, l, c⟩ "null" = false := by
    rw [peekS_at]; rfl
  have ht : peekS ⟨pre ++ ("true".toList ++ rest), pre.length, l, c⟩ "true" = true := by
    rw [peekS_at]; exact litPre_append _ _
  rw [if_neg (by rw [hn]; decide), if_pos ht]
  obtain ⟨l2, c2, hadv⟩ := advanceN_at 4 pre ("true".toList ++ rest) l c
  rw [hadv]
  exact ⟨l2, c2, rfl⟩

/-- `parse_value` on the rendering of `false`. -/
theorem pv_false (pre rest : List Char) (l c fuel : Nat) :
    ∃ l2 c2, parseValue (fuel + 1) ⟨pre ++ ("false".toList ++ rest), pre.length, l, c⟩ =
      .ok (.bool false, ⟨pre ++ ("false".toList ++ rest), pre.length + 5, l2, c2⟩) := by
  have hskip := skipWs_noop pre ("false".toList ++ rest) l c (by rfl)
  have hcur : current ⟨pre ++ ("false".toList ++ rest), pre.length, l, c⟩ = some 'f' := by
    rw [current_at]; rfl
  rw [parseValue_kw fuel _ 'f' hskip hcur (by decide) (by decide) (by decide) (by decide)
    (by rintro (h | ⟨h, -⟩) <;> exact absurd h (by decide))
    (by decide) (by decide)]
  have hn : peekS ⟨pre ++ ("false".toList ++ rest), pre.length, l, c⟩ "null" = false := by
    rw [peekS_at]; rfl
  have ht : peekS ⟨pre ++ ("false".toList ++ rest), pre.length, l, c⟩ "true" = false := by
    rw [peekS_at]; rfl
  have hf : peekS ⟨pre ++ ("false".toList ++ rest), pre.length, l, c⟩ "false" = true := by
    rw [peekS_at]; exact litPre_append _ _
  rw [if_neg (by rw [hn]; decide), if_neg (by rw [ht]; decide), if_pos hf]
  obtain ⟨l2, c2, hadv⟩ := advanceN_at 5 pre ("false".toList ++ rest) l c
  rw [hadv]
  exact ⟨l2, c2, rfl⟩

theorem numHead_facts (ch : Char) (h : ch.isDigit = true ∨ ch = '-') :
    isWs ch = false ∧ ¬(ch = obr) ∧ ¬(ch = '[') ∧ ¬(ch = dq) ∧ ¬(ch = sq) ∧
      ¬(ch = '#') ∧ ¬(ch = '/') ∧ ¬(ch = '.') := by
  rcases h with h | rfl
  · refine ⟨?_, ?_, ?_, ?_, ?_, ?_, ?_, ?_⟩
    · by_contra hws
      rw [Bool.not_eq_false] at hws
      rcases ws_char_cases ch hws with rfl | rfl | rfl | rfl <;> simp at h
    all_goals intro hh
    all_goals subst hh
    all_goals exact absurd h (by decide)
  · exact ⟨by decide, by decide, by decide, by decide, by decide, by decide,
      by decide, by decide⟩

/-- `parse_value` on the rendering of a string literal. -/
theorem pv_str (s pre rest : List Char) (l c fuel : Nat)
    (hbs : s.contains bs = false) :
    ∃ l2 c2, parseValue (fuel + 1)
        ⟨pre ++ (dq :: ((escQ s ++ [dq]) ++ rest)), pre.length, l, c⟩ =
      .ok (.str s, ⟨pre ++ (dq :: ((escQ s ++ [dq]) ++ rest)),
        pre.length + ((escQ s).length + 2), l2, c2⟩) := by
  obtain ⟨l2, c2, hps⟩ := parse_string_run s pre rest l c hbs
  refine ⟨l2, c2, ?_⟩
  have hskip := skipWs_noop pre (dq :: ((escQ s ++ [dq]) ++ rest)) l c (by rfl)
  have hcur : current ⟨pre ++ (dq :: ((escQ s ++ [dq]) ++ rest)), pre.length, l, c⟩ =
      some dq := by
    rw [current_at]; rfl
  conv_lhs => rw [parseValue]
  rw [hskip, hcur, if_neg (by decide)]
  split
  · rename_i heq
    exact absurd heq (by decide)
  · rename_i ch hne heq
    injection heq with h
    subst h
    rw [if_pos rfl, hps]
    rfl
  · rename_i heq
    cases heq

theorem intChars_head (n : Int) :
    ∃ ch t, intChars n = ch :: t ∧
      (ch.isDigit = true ∨ (ch = '-' ∧ ∃ d t2, t = d :: t2 ∧ d.isDigit = true)) := by
  cases n with
  | ofNat m =>
    obtain ⟨c0, s0, hcs, hdig⟩ := natChars_head m
    exact ⟨c0, s0, hcs, Or.inl hdig⟩
  | negSucc m =>
    obtain ⟨c0, s0, hcs, hdig⟩ := natChars_head (m + 1)
    exact ⟨'-', natChars (m + 1), rfl, Or.inr ⟨rfl, c0, s0, hcs, hdig⟩⟩

/-- `parse_value` on the rendering of an integer. -/
theorem pv_int (n : Int) (pre rest : List Char) (l c fuel : Nat)
    (hlo : -(2 ^ 63) ≤ n) (hhi : n ≤ 2 ^ 63 - 1) (hstop : headStop numChar rest) :
    ∃ l2 c2, parseValue (fuel + 1) ⟨pre ++ (intChars n ++ rest), pre.length, l, c⟩ =
      .ok (.int n, ⟨pre ++ (intChars n ++ rest),
        pre.length + (intChars n).length, l2, c2⟩) := by
  obtain ⟨l2, c2, hpn⟩ := parse_number_int n pre rest l c hlo hhi hstop
  rw [List.append_assoc] at hpn
  refine ⟨l2, c2, ?_⟩
  obtain ⟨ch, t, hcs, hd⟩ := intChars_head n
  have hd2 : ch.isDigit = true ∨ ch = '-' := by
    rcases hd with h | ⟨h, -⟩
    · exact Or.inl h
    · exact Or.inr h
  obtain ⟨f1, f2, f3, f4, f5, f6, f7, f8⟩ := numHead_facts ch hd2
  rw [hcs, List.cons_append]
  have hskip := skipWs_noop pre (ch :: (t ++ rest)) l c
    (wsBoundary_of_head ch (t ++ rest) f1 f6 f7)
  have hcur : current ⟨pre ++ (ch :: (t ++ rest)), pre.length, l, c⟩ = some ch := by
    rw [current_at]; rfl
  have hnum : ch.isDigit = true ∨
      (ch = '-' ∧ nextIsDigit ⟨pre ++ (ch :: (t ++ rest)), pre.length, l, c⟩ = true) := by
    rcases hd with h | ⟨hh, d, t2, ht, hdig⟩
    · exact Or.inl h
    · refine Or.inr ⟨hh, ?_⟩
      unfold nextIsDigit
      show (match (pre ++ (ch :: (t ++ rest)))[pre.length + 1]? with
        | some c => c.isDigit | none => false) = true
      have hg := get_append_right pre (ch :: (t ++ rest)) 1
      rw [hg, ht]
      simp only [List.cons_append, List.getElem?_cons_succ, List.getElem?_cons_zero]
      exact hdig
  conv_lhs => rw [parseValue]
  rw [hskip, hcur, if_neg (fun h => f2 (by injection h))]
  split
  · rename_i heq
    injection heq with h
    exact absurd h f3
  · rename_i ch2 hne heq
    injection heq with h
    subst h
    rw [if_neg f4, if_neg f5, if_pos hnum]
    rw [show pre ++ (ch :: (t ++ rest)) = pre ++ (intChars n ++ rest) from by
      rw [hcs, List.cons_append]]
    rw [hpn, hcs, List.cons_append]
  · rename_i heq
    cases heq

/-- `parse_value` on the rendering of a path. -/
theorem pv_path (s pre rest : List Char) (l c fuel : Nat)
    (hok : pathOk s = true) (hstop : headStop pathChar rest)
    (hb : wsBoundary (s ++ rest) = true) :
    ∃ l2 c2, parseValue (fuel + 1) ⟨pre ++ (s ++ rest), pre.length, l, c⟩ =
      .ok (.path s, ⟨pre ++ (s ++ rest), pre.length + s.length, l2, c2⟩) := by
  cases s with
  | nil => simp [pathOk] at hok
  | cons c0 r =>
    simp only [pathOk, Bool.and_eq_true, Bool.or_eq_true, beq_iff_eq,
      List.all_cons] at hok
    obtain ⟨⟨hc0, hall⟩, hor⟩ := hok
    have hne : (c0 :: r) ≠ [] := by simp
    have hallp : (c0 :: r).all pathChar = true := by
      simp only [List.all_cons]
      simp [hc0, hall]
    obtain ⟨l2, c2, hpp⟩ := parse_path_run (c0 :: r) pre rest l c hne hallp hstop
    rw [List.append_assoc] at hpp
    refine ⟨l2, c2, ?_⟩
    rw [List.cons_append]
    have hskip := skipWs_noop pre (c0 :: (r ++ rest)) l c
      (by rw [← List.cons_append]; exact hb)
    have hcur : current ⟨pre ++ (c0 :: (r ++ rest)), pre.length, l, c⟩ = some c0 := by
      rw [current_at]; rfl
    conv_lhs => rw [parseValue]
    rw [hskip, hcur]
    rcases hor with h0 | ⟨h0, h1⟩
    · subst h0
      rw [if_neg (by decide)]
      split
      · rename_i heq
        exact absurd heq (by decide)
      · rename_i ch2 hne2 heq
        injection heq with h
        subst h
        rw [if_neg (by decide), if_neg (by decide),
          if_neg (by rintro (h | ⟨h, -⟩) <;> exact absurd h (by decide)),
          if_neg (by decide), if_pos rfl]
        rw [show pre ++ ('/' :: (r ++ rest)) = pre ++ (('/' :: r) ++ rest) from by
          rw [List.cons_append]]
        rw [hpp]
        rfl
      · rename_i heq
        cases heq
    · subst h0
      rw [if_neg (by decide)]
      split
      · rename_i heq
        exact absurd heq (by decide)
      · rename_i ch2 hne2 heq
        injection heq with h
        subst h
        rw [if_neg (by decide), if_neg (by decide),
          if_neg (by rintro (h | ⟨h, -⟩) <;> exact absurd h (by decide)),
          if_pos rfl]
        have hsnd : (pre ++ ('.' :: (r ++ rest)))[pre.length + 1]? = some '/' := by
          rw [get_append_right pre ('.' :: (r ++ rest)) 1]
          cases r with
          | nil => simp at h1
          | cons d r2 =>
            simp only [List.head?_cons, Option.some.injEq] at h1
            subst h1
            simp
        rw [hsnd]
        dsimp only
        rw [if_pos (Or.inl rfl : ('/' : Char) = '/' ∨ ('/' : Char) = '.')]
        rw [show pre ++ ('.' :: (r ++ rest)) = pre ++ (('.' :: r) ++ rest) from by
          rw [List.cons_append]]
        rw [hpp]
        rfl
      · rename_i heq
        cases heq

theorem isDigit_identChar (d : Char) (h : d.isDigit = true) : identChar d = true := by
  simp [identChar, Char.isAlphanum, h]

theorem kw_not_pre (kw : List Char) (s rest : List Char)
    (hkw : litPre kw s = false)
    (hall : kw.all identChar = true)
    (hrh : ∀ d, rest.head? = some d → identChar d = false) :
    litPre kw (s ++ rest) = false := by
  by_contra h
  rw [Bool.not_eq_false] at h
  rcases litPre_mem kw s rest h with h2 | ⟨d, hd, hm⟩
  · rw [h2] at hkw; cases hkw
  · have hmem : d ∈ kw := by simpa using hm
    have hident : identChar d = true := List.all_eq_true.mp hall d hmem
    rw [hrh d hd] at hident
    cases hident

/-- The identifier-headed dispatch of `parse_value`: a name passing the
variable checks falls through every keyword test to the attribute-path
branch. -/
theorem pv_attr (c0 : Char) (s1 rest pre : List Char) (l c fuel : Nat)
    (hvar : varOk (c0 :: s1) = true)
    (hrh : ∀ d, rest.head? = some d → identChar d = false) :
    parseValue (fuel + 1) ⟨pre ++ ((c0 :: s1) ++ rest), pre.length, l, c⟩ =
      (do
        let (id, p1) ← parse_attribute_path
          ⟨pre ++ ((c0 :: s1) ++ rest), pre.length, l, c⟩
        let p2 := skip_whitespace p1
        if current p2 = some ':' then do
          let (body, p3) ← parseValue fuel (skip_whitespace (advance p2))
          .ok (.fn [id] body, p3)
        else .ok (.var id, p2)) := by
  simp only [varOk, identText, Bool.and_eq_true, Bool.not_eq_true'] at hvar
  obtain ⟨⟨⟨⟨⟨-, hall⟩, hdig⟩, hsq⟩, hminus⟩, hkwp⟩ := hvar
  have hic : identChar c0 = true := by
    simp only [List.all_cons, Bool.and_eq_true] at hall
    exact hall.1
  obtain ⟨g1, g2, g3, g4, -, -, -, -, -, g10, -, g12⟩ := identChar_ne c0 hic
  have hsq2 : ¬(c0 = sq) := by simpa using hsq
  have hskip := skipWs_noop pre ((c0 :: s1) ++ rest) l c
    (by rw [List.cons_append]
        exact wsBoundary_of_head c0 _ (identChar_not_ws c0 hic) g1 g2)
  have hcur : current ⟨pre ++ ((c0 :: s1) ++ rest), pre.length, l, c⟩ = some c0 := by
    rw [current_at]; simp
  have hnum : ¬(c0.isDigit = true ∨ (c0 = '-' ∧
      nextIsDigit ⟨pre ++ ((c0 :: s1) ++ rest), pre.length, l, c⟩ = true)) := by
    rintro (h | ⟨hm, hnx⟩)
    · rw [hdig] at h; cases h
    · unfold nextIsDigit at hnx
      rw [show pre ++ ((c0 :: s1) ++ rest) = pre ++ (c0 :: (s1 ++ rest)) from by
        simp] at hnx
      rw [get_append_right pre (c0 :: (s1 ++ rest)) 1] at hnx
      simp only [List.getElem?_cons_succ] at hnx
      cases s1 with
      | nil =>
        simp only [List.nil_append] at hnx
        rcases hh : rest[0]? with _ | d
        · rw [hh] at hnx; cases hnx
        · rw [hh] at hnx
          have hd0 : rest.head? = some d := by rw [List.head?_eq_getElem?]; exact hh
          have hcontra := hrh d hd0
          rw [isDigit_identChar d hnx] at hcontra
          cases hcontra
      | cons d s2 =>
        simp only [List.cons_append, List.getElem?_cons_zero] at hnx
        subst hm
        simp only [List.head?_cons] at hminus
        rw [hnx] at hminus
        simp at hminus
  rw [parseValue_kw fuel _ c0 hskip hcur g10 g12 g4 hsq2 hnum g3 g2]
  simp only [kwPre, Bool.or_eq_false_iff] at hkwp
  obtain ⟨⟨⟨⟨hw1, hw2⟩, hw3⟩, hw4⟩, hw5⟩ := hkwp
  have hp1 : peekS ⟨pre ++ ((c0 :: s1) ++ rest), pre.length, l, c⟩ "null" = false := by
    rw [peekS_at]; exact kw_not_pre _ _ _ hw1 (by decide) hrh
  have hp2 : peekS ⟨pre ++ ((c0 :: s1) ++ rest), pre.length, l, c⟩ "true" = false := by
    rw [peekS_at]; exact kw_not_pre _ _ _ hw2 (by decide) hrh
  have hp3 : peekS ⟨pre ++ ((c0 :: s1) ++ rest), pre.length, l, c⟩ "false" = false := by
    rw [peekS_at]; exact kw_not_pre _ _ _ hw3 (by decide) hrh
  have hp4 : peekS ⟨pre ++ ((c0 :: s1) ++ rest), pre.length, l, c⟩ "let" = false := by
    rw [peekS_at]; exact kw_not_pre _ _ _ hw4 (by decide) hrh
  have hp5 : peekS ⟨pre ++ ((c0 :: s1) ++ rest), pre.length, l, c⟩ "import" = false := by
    rw [peekS_at]; exact kw_not_pre _ _ _ hw5 (by decide) hrh
  rw [if_neg (by rw [hp1]; decide), if_neg (by rw [hp2]; decide),
    if_neg (by rw [hp3]; decide), if_neg (by rw [hp4]; decide),
    if_neg (by rw [hp5]; decide)]

/-- `parse_value` on the rendering of a variable. -/
theorem pv_var (s pre rest : List Char) (l c fuel : Nat)
    (hvar : varOk s = true)
    (hr1 : headStop identChar rest) (hr2 : wsStable rest = true)
    (hr3 : (afterWs rest).head? ≠ some ':')
    (hr4 : (afterWs rest).head? = some '.' → (afterWs rest)[1]? = some '/') :
    ∃ l2 c2, parseValue (fuel + 1) ⟨pre ++ (s ++ rest), pre.length, l, c⟩ =
      .ok (.var s, ⟨pre ++ (s ++ rest),
        pre.length + (s.length + (rest.takeWhile isWs).length), l2, c2⟩) := by
  cases s with
  | nil => simp [varOk] at hvar
  | cons c0 s1 =>
    have hrh : ∀ d, rest.head? = some d → identChar d = false := by
      intro d hd
      unfold headStop at hr1
      rw [hd] at hr1
      exact hr1
    rw [pv_attr c0 s1 rest pre l c fuel hvar hrh]
    have hall : (c0 :: s1).all identChar = true := by
      simp only [varOk, identText, Bool.and_eq_true] at hvar
      exact hvar.1.1.1.1.2
    obtain ⟨l2, c2, hap⟩ := attrPath_var (c0 :: s1) pre rest l c (by simp) hall hr1 hr2 hr4
    rw [show pre ++ ((c0 :: s1) ++ rest) = pre ++ (c0 :: s1) ++ rest from by simp]
    rw [hap]
    rw [exc_bind_ok]
    refine ⟨l2, c2, ?_⟩
    dsimp only
    have hsplit : rest = rest.takeWhile isWs ++ afterWs rest := by
      unfold afterWs
      rw [List.takeWhile_append_dropWhile]
    have hws : (rest.takeWhile isWs).all (fun x => isWs x) = true := by
      have := all_takeWhile_self isWs rest
      simpa using this
    have hb : wsBoundary (afterWs rest) = true := hr2
    have hid : List.takeWhile isWs (List.takeWhile isWs rest ++ afterWs rest) =
        List.takeWhile isWs rest := takeWs_append _ _ hws hb
    have hsh : (⟨pre ++ (c0 :: s1) ++ rest,
        pre.length + (c0 :: s1).length + (rest.takeWhile isWs).length, l2, c2⟩ :
        NixParser) =
        ⟨(pre ++ (c0 :: s1) ++ rest.takeWhile isWs) ++ afterWs rest,
          (pre ++ (c0 :: s1) ++ rest.takeWhile isWs).length, l2, c2⟩ := by
      conv_lhs => rw [hsplit]
      rw [hid]
      simp only [Except.ok.injEq, NixParser.mk.injEq, List.append_assoc,
        List.length_append, List.length_cons, true_and, and_true]
      omega
    rw [hsh]
    rw [skipWs_noop (pre ++ (c0 :: s1) ++ rest.takeWhile isWs) (afterWs rest) l2 c2 hb]
    rw [current_at]
    rw [if_neg hr3]
    rw [show (pre ++ (c0 :: s1) ++ rest.takeWhile isWs) ++ afterWs rest =
        pre ++ ((c0 :: s1) ++ rest) from by
      conv_rhs => rw [hsplit]
      simp [-List.takeWhile_append_dropWhile]]
    simp only [Except.ok.injEq, Prod.mk.injEq, NixParser.mk.injEq,
      List.length_append, List.length_cons, true_and, and_true]
    exact ⟨by simp, by omega⟩

/-- The whitespace run preceding the next stop inside a printed list body:
newline plus indentation (plus the two-space item prefix when an item
follows). -/
def itemsWs (xs : List NixValue) (ind : Nat) : List Char :=
  match xs with
  | [] => '\n' :: renderIndent ind
  | _ :: _ => '\n' :: (renderIndent ind ++ [' ', ' '])

/-- The non-whitespace spine of a printed list body: each item's rendering,
the whitespace run after it, and the closing bracket. -/
def itemsCore (xs : List NixValue) (ind : Nat) (rest : List Char) : List Char :=
  match xs with
  | [] => ']' :: rest
  | x :: xs2 => render x (ind + 1) ++ (itemsWs xs2 ind ++ itemsCore xs2 ind rest)

/-- Characters consumed by the list loop reading `itemsCore`. -/
def itemsLen (xs : List NixValue) (ind : Nat) : Nat :=
  match xs with
  | [] => 1
  | x :: xs2 => (render x (ind + 1)).length + (itemsWs xs2 ind).length + itemsLen xs2 ind

theorem renderIndent_ws (ind : Nat) :
    ((renderIndent ind).all fun c => isWs c) = true := by
  unfold renderIndent
  rw [List.all_eq_true]
  intro x hx
  have hx2 := List.eq_of_mem_replicate hx
  subst hx2
  rfl

theorem itemsWs_ws (xs : List NixValue) (ind : Nat) :
    ((itemsWs xs ind).all fun c => isWs c) = true := by
  cases xs
  · simp only [itemsWs, List.all_cons, Bool.and_eq_true]
    exact ⟨by decide, renderIndent_ws ind⟩
  · simp only [itemsWs, List.all_cons, List.all_append, Bool.and_eq_true]
    exact ⟨by decide, renderIndent_ws ind, by decide⟩

theorem itemsWs_shape (xs : List NixValue) (ind : Nat) :
    ∃ t, itemsWs xs ind = '\n' :: t := by
  cases xs <;> exact ⟨_, rfl⟩

theorem itemsDecomp (xs : List NixValue) (ind : Nat) (rest : List Char) :
    '\n' :: (renderItems xs ind ++ (renderIndent ind ++ (']' :: rest))) =
      itemsWs xs ind ++ itemsCore xs ind rest := by
  induction xs with
  | nil => simp [itemsWs, itemsCore, renderItems]
  | cons x xs2 ih =>
    show '\n' :: ((renderIndent ind ++ ' ' :: ' ' :: render x (ind + 1) ++ '\n' ::
        renderItems xs2 ind) ++ (renderIndent ind ++ (']' :: rest))) =
      ('\n' :: (renderIndent ind ++ [' ', ' '])) ++
        (render x (ind + 1) ++ (itemsWs xs2 ind ++ itemsCore xs2 ind rest))
    rw [← ih]
    simp

theorem itemsCore_facts (xs : List NixValue) (hwf : wfL xs = true) (ind : Nat)
    (rest : List Char) :
    wsBoundary (itemsCore xs ind rest) = true ∧
      (itemsCore xs ind rest).head? ≠ some ':' ∧
      (∀ d, (itemsCore xs ind rest).head? = some d → d = '.' →
        (itemsCore xs ind rest)[1]? = some '/') := by
  induction xs generalizing rest with
  | nil =>
    refine ⟨wsBoundary_of_head ']' rest (by decide) (by decide) (by decide), ?_, ?_⟩
    · simp [itemsCore]
    · intro d hd hdot
      simp only [itemsCore, List.head?_cons, Option.some.injEq] at hd
      rw [← hd] at hdot
      exact absurd hdot (by decide)
  | cons x xs2 ih =>
    simp only [wfL, Bool.and_eq_true] at hwf
    obtain ⟨hwx, hw2⟩ := hwf
    obtain ⟨b1, b2, b3⟩ := ih hw2 rest
    obtain ⟨t, hts⟩ := itemsWs_shape xs2 ind
    have hrest : restStop x (itemsWs xs2 ind ++ itemsCore xs2 ind rest) = true :=
      restStop_ws x _ _ '\n' t hts (itemsWs_ws xs2 ind) b1 b2 b3
    obtain ⟨c0, s0, hcs, f1, f2, f3, _, f5, _⟩ := renderHead x (ind + 1) hwx
    have hshape0 : itemsCore (x :: xs2) ind rest =
        render x (ind + 1) ++ (itemsWs xs2 ind ++ itemsCore xs2 ind rest) := rfl
    have hshape : itemsCore (x :: xs2) ind rest =
        c0 :: (s0 ++ (itemsWs xs2 ind ++ itemsCore xs2 ind rest)) := by
      rw [hshape0, hcs, List.cons_append]
    refine ⟨?_, ?_, ?_⟩
    · have hb := render_wsBoundary x (ind + 1) (itemsWs xs2 ind ++ itemsCore xs2 ind rest)
        hwx hrest
      rw [hshape0]
      exact hb
    · rw [hshape]
      simp only [List.head?_cons, ne_eq, Option.some.injEq]
      exact f3
    · intro d hd hdot
      rw [hshape] at hd ⊢
      simp only [List.head?_cons, Option.some.injEq] at hd
      subst hd
      have := f5 hdot
      rcases s0 with _ | ⟨e, s1⟩
      · cases this
      · simp only [List.head?_cons, Option.some.injEq] at this
        subst this
        simp

/-- The list-element loop reads the printed items and the closing bracket,
collecting the items onto its accumulator. -/
theorem listLoop (n : Nat) (ih : RT n) (ind : Nat) (rest : List Char) :
    ∀ (xs : List NixValue), nsizeL xs ≤ n → wfL xs = true →
    ∀ (w : List Char) (items : List NixValue) (pre : List Char) (l c fuel : Nat),
      fuelForL xs ≤ fuel → (w.all fun c => isWs c) = true →
    ∃ l2 c2, parseList fuel
        (skip_whitespace ⟨pre ++ (w ++ itemsCore xs ind rest), pre.length, l, c⟩)
        items =
      .ok (.list (items ++ xs), ⟨pre ++ (w ++ itemsCore xs ind rest),
        pre.length + (w.length + itemsLen xs ind), l2, c2⟩) := by
  intro xs
  induction xs with
  | nil =>
    intro _ _ w items pre l c fuel hfuel hw
    have hcore : itemsCore ([] : List NixValue) ind rest = ']' :: rest := rfl
    rw [hcore]
    obtain ⟨l1, c1, hsk⟩ := skipWs_run w pre (']' :: rest) l c hw
      (wsBoundary_of_head ']' rest (by decide) (by decide) (by decide))
    rw [show pre ++ (w ++ (']' :: rest)) = pre ++ w ++ (']' :: rest) from by simp]
    rw [hsk]
    cases fuel with
    | zero => simp [fuelForL] at hfuel
    | succ f =>
      have hsh : (⟨pre ++ w ++ (']' :: rest), pre.length + w.length, l1, c1⟩ :
          NixParser) = ⟨(pre ++ w) ++ (']' :: rest), (pre ++ w).length, l1, c1⟩ := by
        simp
      rw [hsh]
      have hcur : current ⟨(pre ++ w) ++ (']' :: rest), (pre ++ w).length, l1, c1⟩ =
          some ']' := by
        rw [current_at]; rfl
      rw [parseList]
      rw [hcur, if_pos (Or.inl rfl), if_pos rfl]
      obtain ⟨l2, c2, hadv⟩ := advance_at (pre ++ w) ']' rest l1 c1
      rw [hadv]
      refine ⟨l2, c2, ?_⟩
      simp only [Except.ok.injEq, Prod.mk.injEq, NixParser.mk.injEq,
        List.length_append, List.append_assoc, true_and, and_true, List.append_nil]
      have h1 : itemsLen ([] : List NixValue) ind = 1 := rfl
      omega
  | cons x xs2 ihx =>
    intro hsz hwf w items pre l c fuel hfuel hw
    simp only [wfL, Bool.and_eq_true] at hwf
    obtain ⟨hwx, hw2⟩ := hwf
    simp only [nsizeL] at hsz
    have hszx : nsize x ≤ n := by omega
    have hsz2 : nsizeL xs2 ≤ n := by omega
    simp only [fuelForL] at hfuel
    obtain ⟨b1, b2, b3⟩ := itemsCore_facts xs2 hw2 ind rest
    obtain ⟨t, hts⟩ := itemsWs_shape xs2 ind
    have hrest : restStop x (itemsWs xs2 ind ++ itemsCore xs2 ind rest) = true :=
      restStop_ws x _ _ '\n' t hts (itemsWs_ws xs2 ind) b1 b2 b3
    have hb := render_wsBoundary x (ind + 1)
      (itemsWs xs2 ind ++ itemsCore xs2 ind rest) hwx hrest
    have hcore : itemsCore (x :: xs2) ind rest =
        render x (ind + 1) ++ (itemsWs xs2 ind ++ itemsCore xs2 ind rest) := rfl
    rw [hcore]
    obtain ⟨l1, c1, hsk⟩ := skipWs_run w pre
      (render x (ind + 1) ++ (itemsWs xs2 ind ++ itemsCore xs2 ind rest)) l c hw hb
    rw [show pre ++ (w ++ (render x (ind + 1) ++
        (itemsWs xs2 ind ++ itemsCore xs2 ind rest))) =
      pre ++ w ++ (render x (ind + 1) ++ (itemsWs xs2 ind ++ itemsCore xs2 ind rest))
      from by simp]
    rw [hsk]
    cases fuel with
    | zero => omega
    | succ f =>
      have hsh : (⟨pre ++ w ++ (render x (ind + 1) ++
          (itemsWs xs2 ind ++ itemsCore xs2 ind rest)),
          pre.length + w.length, l1, c1⟩ : NixParser) =
          ⟨(pre ++ w) ++ (render x (ind + 1) ++
            (itemsWs xs2 ind ++ itemsCore xs2 ind rest)),
            (pre ++ w).length, l1, c1⟩ := by
        simp
      rw [hsh]
      obtain ⟨c0, s0, hcs, f1, f2, f3, f4, f5, f6⟩ := renderHead x (ind + 1) hwx
      have hcur : current ⟨(pre ++ w) ++ (render x (ind + 1) ++
          (itemsWs xs2 ind ++ itemsCore xs2 ind rest)),
          (pre ++ w).length, l1, c1⟩ = some c0 := by
        rw [current_at, hcs]
        simp
      rw [parseList]
      rw [hcur]
      rw [if_neg (by
        rintro (h | h)
        · injection h with h2; exact f4 h2
        · cases h)]
      obtain ⟨l2, c2, hpv⟩ := ih x hszx hwx (ind + 1) (pre ++ w)
        (itemsWs xs2 ind ++ itemsCore xs2 ind rest) l1 c1 f (by omega) hrest
      rw [hpv, exc_bind_ok]
      dsimp only
      rcases delta_ws x (itemsWs xs2 ind) (itemsCore xs2 ind rest)
          (itemsWs_ws xs2 ind) b1 with hd | hd
      · rw [hd]
        have hsh2 : (⟨(pre ++ w) ++ (render x (ind + 1) ++
            (itemsWs xs2 ind ++ itemsCore xs2 ind rest)),
            (pre ++ w).length + ((render x (ind + 1)).length + 0), l2, c2⟩ :
            NixParser) =
            ⟨((pre ++ w) ++ render x (ind + 1)) ++
              (itemsWs xs2 ind ++ itemsCore xs2 ind rest),
              ((pre ++ w) ++ render x (ind + 1)).length, l2, c2⟩ := by
          simp
          omega
        rw [hsh2]
        obtain ⟨l3, c3, hloop⟩ := ihx hsz2 hw2 (itemsWs xs2 ind) (items ++ [x])
          ((pre ++ w) ++ render x (ind + 1)) l2 c2 f (by omega) (itemsWs_ws xs2 ind)
        rw [hloop]
        refine ⟨l3, c3, ?_⟩
        simp only [Except.ok.injEq, Prod.mk.injEq, NixParser.mk.injEq,
          List.length_append, List.append_assoc, true_and, and_true]
        have hil : itemsLen (x :: xs2) ind = (render x (ind + 1)).length +
            (itemsWs xs2 ind).length + itemsLen xs2 ind := rfl
        repeat' apply And.intro
        all_goals first
          | rfl
          | omega
          | simp
      · rw [hd]
        have hsh2 : (⟨(pre ++ w) ++ (render x (ind + 1) ++
            (itemsWs xs2 ind ++ itemsCore xs2 ind rest)),
            (pre ++ w).length + ((render x (ind + 1)).length +
              (itemsWs xs2 ind).length), l2, c2⟩ : NixParser) =
            ⟨((pre ++ w) ++ render x (ind + 1) ++ itemsWs xs2 ind) ++
              ([] ++ itemsCore xs2 ind rest),
              ((pre ++ w) ++ render x (ind + 1) ++ itemsWs xs2 ind).length,
              l2, c2⟩ := by
          simp
          omega
        rw [hsh2]
        obtain ⟨l3, c3, hloop⟩ := ihx hsz2 hw2 [] (items ++ [x])
          ((pre ++ w) ++ render x (ind + 1) ++ itemsWs xs2 ind) l2 c2 f (by omega) rfl
        rw [hloop]
        refine ⟨l3, c3, ?_⟩
        simp only [Except.ok.injEq, Prod.mk.injEq, NixParser.mk.injEq,
          List.length_append, List.append_assoc, List.nil_append,
          List.length_nil, true_and, and_true]
        have hil : itemsLen (x :: xs2) ind = (render x (ind + 1)).length +
            (itemsWs xs2 ind).length + itemsLen xs2 ind := rfl
        repeat' apply And.intro
        all_goals first
          | rfl
          | omega
          | simp

/-- The whitespace run after a printed entry (or the opening brace):
newline plus indentation (plus the two-space entry prefix when an entry
follows). -/
def entriesWs (es : List (List Char × NixValue)) (ind : Nat) : List Char :=
  match es with
  | [] => '\n' :: renderIndent ind
  | _ :: _ => '\n' :: (renderIndent ind ++ [' ', ' '])

/-- The non-whitespace spine of a printed entry block: each `key = value;`
group and the closing text. -/
def entriesCore (es : List (List Char × NixValue)) (ind : Nat) (close : List Char) :
    List Char :=
  match es with
  | [] => close
  | (k, v) :: es2 =>
    k ++ (' ' :: ('=' :: (' ' :: (render v (ind + 1) ++
      (';' :: (entriesWs es2 ind ++ entriesCore es2 ind close))))))

/-- Characters consumed by the entry loop before its closing text. -/
def entriesLen (es : List (List Char × NixValue)) (ind : Nat) : Nat :=
  match es with
  | [] => 0
  | (k, v) :: es2 =>
    k.length + 3 + (render v (ind + 1)).length + 1 +
      (entriesWs es2 ind).length + entriesLen es2 ind

theorem entriesWs_ws (es : List (List Char × NixValue)) (ind : Nat) :
    ((entriesWs es ind).all fun c => isWs c) = true := by
  cases es
  · simp only [entriesWs, List.all_cons, Bool.and_eq_true]
    exact ⟨by decide, renderIndent_ws ind⟩
  · simp only [entriesWs, List.all_cons, List.all_append, Bool.and_eq_true]
    exact ⟨by decide, renderIndent_ws ind, by decide⟩

theorem entriesWs_shape (es : List (List Char × NixValue)) (ind : Nat) :
    ∃ t, entriesWs es ind = '\n' :: t := by
  cases es <;> exact ⟨_, rfl⟩

theorem entriesDecomp (es : List (List Char × NixValue)) (ind : Nat)
    (close : List Char) :
    '\n' :: (renderEntries es ind ++ (renderIndent ind ++ close)) =
      entriesWs es ind ++ entriesCore es ind close := by
  induction es with
  | nil => simp [entriesWs, entriesCore, renderEntries]
  | cons e es2 ih =>
    obtain ⟨k, v⟩ := e
    show '\n' :: ((renderIndent ind ++ ' ' :: ' ' :: k ++ ' ' :: '=' :: ' ' ::
        render v (ind + 1) ++ ';' :: '\n' :: renderEntries es2 ind) ++
        (renderIndent ind ++ close)) =
      ('\n' :: (renderIndent ind ++ [' ', ' '])) ++
        (k ++ (' ' :: ('=' :: (' ' :: (render v (ind + 1) ++
          (';' :: (entriesWs es2 ind ++ entriesCore es2 ind close)))))))
    rw [← ih]
    simp

theorem keyOk_head (k : List Char) (h : keyOk k = true) :
    ∃ c0 k1, k = c0 :: k1 ∧ identChar c0 = true := by
  cases k with
  | nil => simp [keyOk] at h
  | cons c0 k1 =>
    refine ⟨c0, k1, rfl, ?_⟩
    simp only [keyOk, List.head?_cons, Bool.and_eq_true] at h
    exact h.1.1

theorem letNameOk_head (k : List Char) (h : letNameOk k = true) :
    ∃ c0 k1, k = c0 :: k1 ∧ identChar c0 = true := by
  cases k with
  | nil => simp [letNameOk, identText] at h
  | cons c0 k1 =>
    refine ⟨c0, k1, rfl, ?_⟩
    simp only [letNameOk, identText, List.all_cons, Bool.and_eq_true] at h
    exact h.1.2.1

theorem entriesCore_facts (es : List (List Char × NixValue)) (ind : Nat)
    (close : List Char)
    (hheads : ∀ p, p ∈ es → ∃ c0 k1, p.1 = c0 :: k1 ∧ identChar c0 = true)
    (hc1 : wsBoundary close = true) (hc2 : close.head? ≠ some ':')
    (hc3 : ∀ d, close.head? = some d → d = '.' → close[1]? = some '/') :
    wsBoundary (entriesCore es ind close) = true ∧
      (entriesCore es ind close).head? ≠ some ':' ∧
      (∀ d, (entriesCore es ind close).head? = some d → d = '.' →
        (entriesCore es ind close)[1]? = some '/') := by
  cases es with
  | nil => exact ⟨hc1, hc2, hc3⟩
  | cons e es2 =>
    obtain ⟨k, v⟩ := e
    obtain ⟨c0, k1, hk, hic⟩ := hheads (k, v) (List.mem_cons_self _ _)
    simp only at hk
    obtain ⟨g1, g2, g3, _, g5, _⟩ := identChar_ne c0 hic
    have hshape : entriesCore ((k, v) :: es2) ind close =
        c0 :: (k1 ++ (' ' :: ('=' :: (' ' :: (render v (ind + 1) ++
          (';' :: (entriesWs es2 ind ++ entriesCore es2 ind close))))))) := by
      show k ++ (' ' :: ('=' :: (' ' :: (render v (ind + 1) ++
        (';' :: (entriesWs es2 ind ++ entriesCore es2 ind close)))))) = _
      rw [hk, List.cons_append]
    rw [hshape]
    refine ⟨wsBoundary_of_head c0 _ (identChar_not_ws c0 hic) g1 g2, ?_, ?_⟩
    · simp only [List.head?_cons, ne_eq, Option.some.injEq]
      exact g5
    · intro d hd hdot
      simp only [List.head?_cons, Option.some.injEq] at hd
      subst hd
      exact absurd hdot g3

theorem insertAttr_append (k : List Char) (v : NixValue) :
    ∀ attrs : List (List Char × NixValue),
      (attrs.any fun e => e.1 == k) = false →
      insertAttr k v attrs = attrs ++ [(k, v)] := by
  intro attrs
  induction attrs with
  | nil => intro _; rfl
  | cons e rest ih =>
    obtain ⟨k0, v0⟩ := e
    intro h
    simp only [List.any_cons, Bool.or_eq_false_iff] at h
    obtain ⟨h1, h2⟩ := h
    unfold insertAttr
    rw [if_neg (by
      intro hk
      rw [hk] at h1
      simp at h1)]
    rw [ih h2]
    rfl

theorem nodup_mid (k : List Char) (v : NixValue) :
    ∀ attrs es2 : List (List Char × NixValue),
      nodupKeys (attrs ++ (k, v) :: es2) = true →
      (attrs.any fun e => e.1 == k) = false ∧
        nodupKeys ((attrs ++ [(k, v)]) ++ es2) = true := by
  intro attrs es2 h
  constructor
  · induction attrs with
    | nil => rfl
    | cons e rest ih =>
      obtain ⟨k0, v0⟩ := e
      simp only [List.cons_append, nodupKeys, Bool.and_eq_true,
        Bool.not_eq_true'] at h
      obtain ⟨h1, h2⟩ := h
      simp only [List.any_cons, Bool.or_eq_false_iff]
      refine ⟨?_, ih h2⟩
      simp only [List.append_eq, List.any_append, List.any_cons,
        Bool.or_eq_false_iff] at h1
      have hne := h1.2.1
      simp only [beq_eq_false_iff_ne, ne_eq] at hne ⊢
      exact fun hh => hne (by rw [hh])
  · rw [show (attrs ++ [(k, v)]) ++ es2 = attrs ++ (k, v) :: es2 from by simp]
    exact h

theorem wfA_heads (es : List (List Char × NixValue)) (h : wfA es = true) :
    ∀ p, p ∈ es → ∃ c0 k1, p.1 = c0 :: k1 ∧ identChar c0 = true := by
  induction es with
  | nil => intro p hp; cases hp
  | cons q qs ihq =>
    obtain ⟨q1, q2⟩ := q
    simp only [wfA, Bool.and_eq_true] at h
    intro p hp
    rcases List.mem_cons.mp hp with rfl | hmem
    · exact keyOk_head q1 h.1.1
    · exact ihq h.2 p hmem

theorem wfBinds_heads (es : List (List Char × NixValue)) (h : wfBinds es = true) :
    ∀ p, p ∈ es → ∃ c0 k1, p.1 = c0 :: k1 ∧ identChar c0 = true := by
  induction es with
  | nil => intro p hp; cases hp
  | cons q qs ihq =>
    obtain ⟨q1, q2⟩ := q
    simp only [wfBinds, Bool.and_eq_true] at h
    intro p hp
    rcases List.mem_cons.mp hp with rfl | hmem
    · exact letNameOk_head q1 h.1.1
    · exact ihq h.2 p hmem

/-- The attrset entry loop reads the printed `key = value;` groups and the
closing brace, appending each pair to its accumulator (the insert is a plain
append because the keys are distinct). -/
theorem attrLoop (n : Nat) (ih : RT n) (ind : Nat) (rest : List Char) :
    ∀ es : List (List Char × NixValue), nsizeA es ≤ n → wfA es = true →
    ∀ (w : List Char) (attrs : List (List Char × NixValue)) (pre : List Char)
      (l c fuel : Nat),
      fuelForA es ≤ fuel → (w.all fun c => isWs c) = true →
      nodupKeys (attrs ++ es) = true →
    ∃ l2 c2, parseAttrsetLoop fuel attrs
        (skip_whitespace ⟨pre ++ (w ++ entriesCore es ind (cbr :: rest)),
          pre.length, l, c⟩) =
      .ok (.attrSet (attrs ++ es), ⟨pre ++ (w ++ entriesCore es ind (cbr :: rest)),
        pre.length + (w.length + (entriesLen es ind + 1)), l2, c2⟩) := by
  intro es
  induction es generalizing rest with
  | nil =>
    intro _ _ w attrs pre l c fuel hfuel hw _
    have hcore : entriesCore ([] : List (List Char × NixValue)) ind (cbr :: rest) =
        cbr :: rest := rfl
    rw [hcore]
    obtain ⟨l1, c1, hsk⟩ := skipWs_run w pre (cbr :: rest) l c hw
      (wsBoundary_of_head cbr rest (by decide) (by decide) (by decide))
    rw [show pre ++ (w ++ (cbr :: rest)) = pre ++ w ++ (cbr :: rest) from by simp]
    rw [hsk]
    cases fuel with
    | zero => simp [fuelForA] at hfuel
    | succ f =>
      have hsh : (⟨pre ++ w ++ (cbr :: rest), pre.length + w.length, l1, c1⟩ :
          NixParser) = ⟨(pre ++ w) ++ (cbr :: rest), (pre ++ w).length, l1, c1⟩ := by
        simp
      rw [hsh]
      have hcur : current ⟨(pre ++ w) ++ (cbr :: rest), (pre ++ w).length, l1, c1⟩ =
          some cbr := by
        rw [current_at]; rfl
      rw [parseAttrsetLoop]
      rw [hcur, if_pos (Or.inl rfl), if_pos rfl]
      obtain ⟨l2, c2, hadv⟩ := advance_at (pre ++ w) cbr rest l1 c1
      rw [hadv]
      refine ⟨l2, c2, ?_⟩
      simp only [Except.ok.injEq, Prod.mk.injEq, NixParser.mk.injEq,
        List.length_append, List.append_assoc, true_and, and_true, List.append_nil]
      have h1 : entriesLen ([] : List (List Char × NixValue)) ind = 0 := rfl
      omega
  | cons e es2 ihx =>
    obtain ⟨k, v⟩ := e
    intro hsz hwf w attrs pre l c fuel hfuel hw hnd
    simp only [wfA, Bool.and_eq_true] at hwf
    obtain ⟨⟨hkey, hwv⟩, hw2⟩ := hwf
    simp only [nsizeA] at hsz
    have hszv : nsize v ≤ n := by omega
    have hsz2 : nsizeA es2 ≤ n := by omega
    simp only [fuelForA] at hfuel
    obtain ⟨c0, k1, hk, hic⟩ := keyOk_head k hkey
    obtain ⟨g1, g2, g3, g4, g5, g6, g7, g8, g9, g10, g11, g12⟩ := identChar_ne c0 hic
    obtain ⟨hnmem, hnd2⟩ := nodup_mid k v attrs es2 hnd
    have hheads2 := wfA_heads es2 hw2
    obtain ⟨b1, b2, b3⟩ := entriesCore_facts es2 ind (cbr :: rest) hheads2
      (wsBoundary_of_head cbr rest (by decide) (by decide) (by decide))
      (by simp only [List.head?_cons, ne_eq, Option.some.injEq]; decide)
      (by intro d hd hdot
          simp only [List.head?_cons, Option.some.injEq] at hd
          subst hd
          exact absurd hdot (by decide))
    have hrest2 : restStop v (';' :: (entriesWs es2 ind ++
        entriesCore es2 ind (cbr :: rest))) = true := restStop_semi v _
    have hcore : entriesCore ((k, v) :: es2) ind (cbr :: rest) =
        k ++ (' ' :: ('=' :: (' ' :: (render v (ind + 1) ++
          (';' :: (entriesWs es2 ind ++ entriesCore es2 ind (cbr :: rest))))))) := rfl
    have hbk : wsBoundary (k ++ (' ' :: ('=' :: (' ' :: (render v (ind + 1) ++
        (';' :: (entriesWs es2 ind ++ entriesCore es2 ind (cbr :: rest)))))))) =
        true := by
      rw [hk, List.cons_append]
      exact wsBoundary_of_head c0 _ (identChar_not_ws c0 hic) g1 g2
    rw [hcore]
    obtain ⟨l1, c1, hsk⟩ := skipWs_run w pre
      (k ++ (' ' :: ('=' :: (' ' :: (render v (ind + 1) ++
        (';' :: (entriesWs es2 ind ++ entriesCore es2 ind (cbr :: rest))))))))
      l c hw hbk
    rw [show pre ++ (w ++ (k ++ (' ' :: ('=' :: (' ' :: (render v (ind + 1) ++
        (';' :: (entriesWs es2 ind ++ entriesCore es2 ind (cbr :: rest))))))))) =
      pre ++ w ++ (k ++ (' ' :: ('=' :: (' ' :: (render v (ind + 1) ++
        (';' :: (entriesWs es2 ind ++ entriesCore es2 ind (cbr :: rest))))))))
      from by simp]
    rw [hsk]
    cases fuel with
    | zero => omega
    | succ f =>
      have hsh : (⟨pre ++ w ++ (k ++ (' ' :: ('=' :: (' ' :: (render v (ind + 1) ++
          (';' :: (entriesWs es2 ind ++ entriesCore es2 ind (cbr :: rest)))))))),
          pre.length + w.length, l1, c1⟩ : NixParser) =
          ⟨(pre ++ w) ++ (k ++ (' ' :: ('=' :: (' ' :: (render v (ind + 1) ++
            (';' :: (entriesWs es2 ind ++ entriesCore es2 ind (cbr :: rest)))))))),
            (pre ++ w).length, l1, c1⟩ := by
        simp
      rw [hsh]
      have hcur : current ⟨(pre ++ w) ++ (k ++ (' ' :: ('=' :: (' ' ::
          (render v (ind + 1) ++ (';' :: (entriesWs es2 ind ++
            entriesCore es2 ind (cbr :: rest)))))))),
          (pre ++ w).length, l1, c1⟩ = some c0 := by
        rw [current_at, hk]
        simp
      rw [parseAttrsetLoop]
      rw [hcur]
      rw [if_neg (by
        rintro (h | h)
        · injection h with h2; exact g11 h2
        · cases h)]
      have hpin : peekS ⟨(pre ++ w) ++ (k ++ (' ' :: ('=' :: (' ' ::
          (render v (ind + 1) ++ (';' :: (entriesWs es2 ind ++
            entriesCore es2 ind (cbr :: rest)))))))),
          (pre ++ w).length, l1, c1⟩ "inherit" = false := by
        rw [peekS_at]
        apply kw_not_pre
        · simp only [keyOk, Bool.and_eq_true, Bool.not_eq_true'] at hkey
          exact hkey.2
        · decide
        · intro d hd
          simp only [List.head?_cons, Option.some.injEq] at hd
          subst hd
          exact identChar_space
      rw [if_neg (by rw [hpin]; decide)]
      rw [if_neg (by intro h; injection h with h2; exact g4 h2)]
      obtain ⟨l2, c2, hap⟩ := attrPath_key k (pre ++ w)
        (' ' :: (render v (ind + 1) ++
          (';' :: (entriesWs es2 ind ++ entriesCore es2 ind (cbr :: rest)))))
        l1 c1 (by
          simp only [keyOk, Bool.and_eq_true] at hkey
          exact hkey.1.2)
      rw [show (pre ++ w) ++ (k ++ (' ' :: ('=' :: (' ' :: (render v (ind + 1) ++
          (';' :: (entriesWs es2 ind ++ entriesCore es2 ind (cbr :: rest)))))))) =
        (pre ++ w) ++ k ++ (' ' :: ('=' :: (' ' :: (render v (ind + 1) ++
          (';' :: (entriesWs es2 ind ++ entriesCore es2 ind (cbr :: rest)))))))
        from by simp]
      rw [hap, exc_bind_ok]
      dsimp only
      have hsh1 : (⟨pre ++ w ++ k ++ ' ' :: '=' :: ' ' :: (render v (ind + 1) ++
          ';' :: (entriesWs es2 ind ++ entriesCore es2 ind (cbr :: rest))),
          (pre ++ w).length + k.length + 1, l2, c2⟩ : NixParser) =
          ⟨(pre ++ w ++ k ++ [' ']) ++ ('=' :: (' ' :: (render v (ind + 1) ++
            (';' :: (entriesWs es2 ind ++ entriesCore es2 ind (cbr :: rest)))))),
            (pre ++ w ++ k ++ [' ']).length, l2, c2⟩ := by
        simp
        omega
      rw [hsh1]
      rw [skipWs_noop (pre ++ w ++ k ++ [' ']) ('=' :: (' ' :: (render v (ind + 1) ++
        (';' :: (entriesWs es2 ind ++ entriesCore es2 ind (cbr :: rest)))))) l2 c2
        (wsBoundary_of_head '=' _ (by decide) (by decide) (by decide))]
      have hcur2 : current ⟨(pre ++ w ++ k ++ [' ']) ++ ('=' :: (' ' ::
          (render v (ind + 1) ++ (';' :: (entriesWs es2 ind ++
            entriesCore es2 ind (cbr :: rest)))))),
          (pre ++ w ++ k ++ [' ']).length, l2, c2⟩ = some '=' := by
        rw [current_at]; rfl
      rw [hcur2, if_pos rfl]
      obtain ⟨l3, c3, hadv⟩ := advance_at (pre ++ w ++ k ++ [' ']) '='
        (' ' :: (render v (ind + 1) ++ (';' :: (entriesWs es2 ind ++
          entriesCore es2 ind (cbr :: rest))))) l2 c2
      rw [hadv]
      have hsh2 : (⟨(pre ++ w ++ k ++ [' ']) ++ ('=' :: (' ' ::
          (render v (ind + 1) ++ (';' :: (entriesWs es2 ind ++
            entriesCore es2 ind (cbr :: rest)))))),
          (pre ++ w ++ k ++ [' ']).length + 1, l3, c3⟩ : NixParser) =
          ⟨(pre ++ w ++ k ++ [' '] ++ ['=']) ++ [' '] ++ (render v (ind + 1) ++
            (';' :: (entriesWs es2 ind ++ entriesCore es2 ind (cbr :: rest)))),
            (pre ++ w ++ k ++ [' '] ++ ['=']).length, l3, c3⟩ := by
        simp
        omega
      rw [hsh2]
      have hbv := render_wsBoundary v (ind + 1)
        (';' :: (entriesWs es2 ind ++ entriesCore es2 ind (cbr :: rest))) hwv hrest2
      obtain ⟨l4, c4, hsk2⟩ := skipWs_run [' '] (pre ++ w ++ k ++ [' '] ++ ['='])
        (render v (ind + 1) ++ (';' :: (entriesWs es2 ind ++
          entriesCore es2 ind (cbr :: rest)))) l3 c3 rfl hbv
      rw [hsk2]
      have hsh3 : (⟨(pre ++ w ++ k ++ [' '] ++ ['=']) ++ [' '] ++
          (render v (ind + 1) ++ (';' :: (entriesWs es2 ind ++
            entriesCore es2 ind (cbr :: rest)))),
          (pre ++ w ++ k ++ [' '] ++ ['=']).length + [' '].length, l4, c4⟩ :
          NixParser) =
          ⟨(pre ++ w ++ k ++ [' '] ++ ['='] ++ [' ']) ++ (render v (ind + 1) ++
            (';' :: (entriesWs es2 ind ++ entriesCore es2 ind (cbr :: rest)))),
            (pre ++ w ++ k ++ [' '] ++ ['='] ++ [' ']).length, l4, c4⟩ := by
        simp
        omega
      rw [hsh3]
      obtain ⟨l5, c5, hpv⟩ := ih v hszv hwv (ind + 1)
        (pre ++ w ++ k ++ [' '] ++ ['='] ++ [' '])
        (';' :: (entriesWs es2 ind ++ entriesCore es2 ind (cbr :: rest)))
        l4 c4 f (by omega) hrest2
      rw [hpv, exc_bind_ok]
      dsimp only
      have hdel : delta v (';' :: (entriesWs es2 ind ++
          entriesCore es2 ind (cbr :: rest))) = 0 := by
        apply delta_stop
        intro d hd
        simp only [List.head?_cons, Option.some.injEq] at hd
        subst hd
        decide
      rw [hdel]
      have hsh4 : (⟨(pre ++ w ++ k ++ [' '] ++ ['='] ++ [' ']) ++
          (render v (ind + 1) ++ (';' :: (entriesWs es2 ind ++
            entriesCore es2 ind (cbr :: rest)))),
          (pre ++ w ++ k ++ [' '] ++ ['='] ++ [' ']).length +
            ((render v (ind + 1)).length + 0), l5, c5⟩ : NixParser) =
          ⟨(pre ++ w ++ k ++ [' '] ++ ['='] ++ [' '] ++ render v (ind + 1)) ++
            (';' :: (entriesWs es2 ind ++ entriesCore es2 ind (cbr :: rest))),
            (pre ++ w ++ k ++ [' '] ++ ['='] ++ [' '] ++
              render v (ind + 1)).length, l5, c5⟩ := by
        simp
        omega
      rw [hsh4]
      rw [skipWs_noop (pre ++ w ++ k ++ [' '] ++ ['='] ++ [' '] ++
        render v (ind + 1)) (';' :: (entriesWs es2 ind ++
          entriesCore es2 ind (cbr :: rest))) l5 c5
        (wsBoundary_of_head ';' _ (by decide) (by decide) (by decide))]
      have hcur3 : current ⟨(pre ++ w ++ k ++ [' '] ++ ['='] ++ [' '] ++
          render v (ind + 1)) ++ (';' :: (entriesWs es2 ind ++
            entriesCore es2 ind (cbr :: rest))),
          (pre ++ w ++ k ++ [' '] ++ ['='] ++ [' '] ++
            render v (ind + 1)).length, l5, c5⟩ = some ';' := by
        rw [current_at]; rfl
      rw [hcur3, if_pos rfl]
      obtain ⟨l6, c6, hadv2⟩ := advance_at
        (pre ++ w ++ k ++ [' '] ++ ['='] ++ [' '] ++ render v (ind + 1)) ';'
        (entriesWs es2 ind ++ entriesCore es2 ind (cbr :: rest)) l5 c5
      rw [hadv2]
      have hsh5 : (⟨(pre ++ w ++ k ++ [' '] ++ ['='] ++ [' '] ++
          render v (ind + 1)) ++ (';' :: (entriesWs es2 ind ++
            entriesCore es2 ind (cbr :: rest))),
          (pre ++ w ++ k ++ [' '] ++ ['='] ++ [' '] ++
            render v (ind + 1)).length + 1, l6, c6⟩ : NixParser) =
          ⟨(pre ++ w ++ k ++ [' '] ++ ['='] ++ [' '] ++ render v (ind + 1) ++
            [';']) ++ (entriesWs es2 ind ++ entriesCore es2 ind (cbr :: rest)),
            (pre ++ w ++ k ++ [' '] ++ ['='] ++ [' '] ++ render v (ind + 1) ++
              [';']).length, l6, c6⟩ := by
        simp
        omega
      rw [hsh5]
      rw [insertAttr_append k v attrs hnmem]
      obtain ⟨l7, c7, hloop⟩ := ihx rest hsz2 hw2 (entriesWs es2 ind)
        (attrs ++ [(k, v)])
        (pre ++ w ++ k ++ [' '] ++ ['='] ++ [' '] ++ render v (ind + 1) ++ [';'])
        l6 c6 f (by omega) (entriesWs_ws es2 ind) hnd2
      rw [hloop]
      refine ⟨l7, c7, ?_⟩
      simp only [Except.ok.injEq, Prod.mk.injEq, NixParser.mk.injEq,
        List.length_append, List.append_assoc, List.length_cons, List.length_nil,
        true_and, and_true]
      have hel : entriesLen ((k, v) :: es2) ind = k.length + 3 +
          (render v (ind + 1)).length + 1 + (entriesWs es2 ind).length +
          entriesLen es2 ind := rfl
      repeat' apply And.intro
      all_goals first
        | rfl
        | omega
        | simp

/-- The let binding loop reads the printed `name = value;` bindings, stops on
the literal `in `, and parses the body. -/
theorem letLoop (n : Nat) (ih : RT n) (ind : Nat) (rest : List Char)
    (body : NixValue) (hwb : wfV body = true) (hszb : nsize body ≤ n)
    (hrb : restStop body rest = true) :
    ∀ es : List (List Char × NixValue), nsizeA es ≤ n → wfBinds es = true →
    ∀ (w : List Char) (binds : List (List Char × NixValue)) (pre : List Char)
      (l c fuel : Nat),
      fuelForA es + fuelFor body ≤ fuel → (w.all fun c => isWs c) = true →
      nodupKeys (binds ++ es) = true →
    ∃ l2 c2, parseLetLoop fuel binds
        (skip_whitespace ⟨pre ++ (w ++ entriesCore es ind
          ("in ".toList ++ (render body ind ++ rest))), pre.length, l, c⟩) =
      .ok (.letE (binds ++ es) body,
        ⟨pre ++ (w ++ entriesCore es ind ("in ".toList ++ (render body ind ++ rest))),
          pre.length + (w.length + (entriesLen es ind +
            (3 + ((render body ind).length + delta body rest)))), l2, c2⟩) := by
  intro es
  induction es with
  | nil =>
    intro _ _ w binds pre l c fuel hfuel hw _
    have hcore : entriesCore ([] : List (List Char × NixValue)) ind
        ("in ".toList ++ (render body ind ++ rest)) =
        "in ".toList ++ (render body ind ++ rest) := rfl
    rw [hcore]
    have hbnd : wsBoundary ("in ".toList ++ (render body ind ++ rest)) = true := by
      rw [show ("in ".toList ++ (render body ind ++ rest)) =
        'i' :: ("n ".toList ++ (render body ind ++ rest)) from rfl]
      exact wsBoundary_of_head 'i' _ (by decide) (by decide) (by decide)
    obtain ⟨l1, c1, hsk⟩ := skipWs_run w pre
      ("in ".toList ++ (render body ind ++ rest)) l c hw hbnd
    rw [show pre ++ (w ++ ("in ".toList ++ (render body ind ++ rest))) =
      pre ++ w ++ ("in ".toList ++ (render body ind ++ rest)) from by simp]
    rw [hsk]
    cases fuel with
    | zero => simp [fuelForA] at hfuel
    | succ f =>
      have hsh : (⟨pre ++ w ++ ("in ".toList ++ (render body ind ++ rest)),
          pre.length + w.length, l1, c1⟩ : NixParser) =
          ⟨(pre ++ w) ++ ("in ".toList ++ (render body ind ++ rest)),
            (pre ++ w).length, l1, c1⟩ := by
        simp
      rw [hsh]
      have hpk : peekS ⟨(pre ++ w) ++ ("in ".toList ++ (render body ind ++ rest)),
          (pre ++ w).length, l1, c1⟩ "in" = true := by
        rw [peekS_at]
        rw [show ("in ".toList ++ (render body ind ++ rest)) =
          "in".toList ++ (' ' :: (render body ind ++ rest)) from rfl]
        exact litPre_append _ _
      rw [parseLetLoop]
      rw [hpk]
      rw [if_pos (Or.inl rfl)]
      obtain ⟨l2, c2, hadv⟩ := advanceN_at 2 (pre ++ w)
        ("in ".toList ++ (render body ind ++ rest)) l1 c1
      rw [hadv]
      have hsh2 : (⟨(pre ++ w) ++ ("in ".toList ++ (render body ind ++ rest)),
          (pre ++ w).length + 2, l2, c2⟩ : NixParser) =
          ⟨(pre ++ w ++ ['i', 'n']) ++ [' '] ++ (render body ind ++ rest),
            (pre ++ w ++ ['i', 'n']).length, l2, c2⟩ := by
        simp
        omega
      rw [hsh2]
      have hbb := render_wsBoundary body ind rest hwb hrb
      obtain ⟨l3, c3, hsk2⟩ := skipWs_run [' '] (pre ++ w ++ ['i', 'n'])
        (render body ind ++ rest) l2 c2 rfl hbb
      rw [hsk2]
      have hsh3 : (⟨(pre ++ w ++ ['i', 'n']) ++ [' '] ++ (render body ind ++ rest),
          (pre ++ w ++ ['i', 'n']).length + [' '].length, l3, c3⟩ : NixParser) =
          ⟨(pre ++ w ++ ['i', 'n'] ++ [' ']) ++ (render body ind ++ rest),
            (pre ++ w ++ ['i', 'n'] ++ [' ']).length, l3, c3⟩ := by
        simp
        omega
      rw [hsh3]
      obtain ⟨l4, c4, hpv⟩ := ih body hszb hwb ind (pre ++ w ++ ['i', 'n'] ++ [' '])
        rest l3 c3 f (by simp [fuelForA] at hfuel; omega) hrb
      rw [hpv, exc_bind_ok]
      dsimp only
      refine ⟨l4, c4, ?_⟩
      simp only [Except.ok.injEq, Prod.mk.injEq, NixParser.mk.injEq,
        List.length_append, List.append_assoc, List.length_cons, List.length_nil,
        true_and, and_true, List.append_nil]
      have hel : entriesLen ([] : List (List Char × NixValue)) ind = 0 := rfl
      repeat' apply And.intro
      all_goals first
        | rfl
        | omega
        | simp
  | cons e es2 ihx =>
    obtain ⟨k, v⟩ := e
    intro hsz hwf w binds pre l c fuel hfuel hw hnd
    simp only [wfBinds, Bool.and_eq_true] at hwf
    obtain ⟨⟨hkey, hwv⟩, hw2⟩ := hwf
    simp only [nsizeA] at hsz
    have hszv : nsize v ≤ n := by omega
    have hsz2 : nsizeA es2 ≤ n := by omega
    simp only [fuelForA] at hfuel
    obtain ⟨c0, k1, hk, hic⟩ := letNameOk_head k hkey
    obtain ⟨g1, g2, g3, g4, g5, g6, g7, g8, g9, g10, g11, g12⟩ := identChar_ne c0 hic
    obtain ⟨hnmem, hnd2⟩ := nodup_mid k v binds es2 hnd
    have hkid : identText k = true := by
      simp only [letNameOk, Bool.and_eq_true] at hkey
      exact hkey.1
    have hkne : k ≠ [] := by rw [hk]; simp
    have hkall : k.all identChar = true := by
      simp only [identText, Bool.and_eq_true] at hkid
      exact hkid.2
    have hrest2 : restStop v (';' :: (entriesWs es2 ind ++ entriesCore es2 ind
        ("in ".toList ++ (render body ind ++ rest)))) = true := restStop_semi v _
    have hcore : entriesCore ((k, v) :: es2) ind
        ("in ".toList ++ (render body ind ++ rest)) =
        k ++ (' ' :: ('=' :: (' ' :: (render v (ind + 1) ++
          (';' :: (entriesWs es2 ind ++ entriesCore es2 ind
            ("in ".toList ++ (render body ind ++ rest)))))))) := rfl
    have hbk : wsBoundary (k ++ (' ' :: ('=' :: (' ' :: (render v (ind + 1) ++
        (';' :: (entriesWs es2 ind ++ entriesCore es2 ind
          ("in ".toList ++ (render body ind ++ rest))))))))) = true := by
      rw [hk, List.cons_append]
      exact wsBoundary_of_head c0 _ (identChar_not_ws c0 hic) g1 g2
    rw [hcore]
    obtain ⟨l1, c1, hsk⟩ := skipWs_run w pre
      (k ++ (' ' :: ('=' :: (' ' :: (render v (ind + 1) ++
        (';' :: (entriesWs es2 ind ++ entriesCore es2 ind
          ("in ".toList ++ (render body ind ++ rest)))))))))
      l c hw hbk
    rw [show pre ++ (w ++ (k ++ (' ' :: ('=' :: (' ' :: (render v (ind + 1) ++
        (';' :: (entriesWs es2 ind ++ entriesCore es2 ind
          ("in ".toList ++ (render body ind ++ rest)))))))))) =
      pre ++ w ++ (k ++ (' ' :: ('=' :: (' ' :: (render v (ind + 1) ++
        (';' :: (entriesWs es2 ind ++ entriesCore es2 ind
          ("in ".toList ++ (render body ind ++ rest)))))))))
      from by simp]
    rw [hsk]
    cases fuel with
    | zero => omega
    | succ f =>
      have hsh : (⟨pre ++ w ++ (k ++ (' ' :: ('=' :: (' ' :: (render v (ind + 1) ++
          (';' :: (entriesWs es2 ind ++ entriesCore es2 ind
            ("in ".toList ++ (render body ind ++ rest))))))))),
          pre.length + w.length, l1, c1⟩ : NixParser) =
          ⟨(pre ++ w) ++ (k ++ (' ' :: ('=' :: (' ' :: (render v (ind + 1) ++
            (';' :: (entriesWs es2 ind ++ entriesCore es2 ind
              ("in ".toList ++ (render body ind ++ rest))))))))),
            (pre ++ w).length, l1, c1⟩ := by
        simp
      rw [hsh]
      have hpin : peekS ⟨(pre ++ w) ++ (k ++ (' ' :: ('=' :: (' ' ::
          (render v (ind + 1) ++ (';' :: (entriesWs es2 ind ++
            entriesCore es2 ind ("in ".toList ++ (render body ind ++ rest))))))))),
          (pre ++ w).length, l1, c1⟩ "in" = false := by
        rw [peekS_at]
        apply kw_not_pre
        · simp only [letNameOk, Bool.and_eq_true, Bool.not_eq_true'] at hkey
          exact hkey.2
        · decide
        · intro d hd
          simp only [List.head?_cons, Option.some.injEq] at hd
          subst hd
          exact identChar_space
      rw [parseLetLoop]
      rw [if_neg (by
        rw [hpin]
        rintro (h | h)
        · cases h
        · rw [show current ⟨(pre ++ w) ++ (k ++ (' ' :: ('=' :: (' ' ::
            (render v (ind + 1) ++ (';' :: (entriesWs es2 ind ++
              entriesCore es2 ind ("in ".toList ++
                (render body ind ++ rest))))))))),
            (pre ++ w).length, l1, c1⟩ = some c0 from by
            rw [current_at, hk]; simp] at h
          cases h)]
      obtain ⟨l2, c2, hid⟩ := parse_identifier_run k (pre ++ w)
        (' ' :: ('=' :: (' ' :: (render v (ind + 1) ++
          (';' :: (entriesWs es2 ind ++ entriesCore es2 ind
            ("in ".toList ++ (render body ind ++ rest))))))))
        l1 c1 hkne hkall (by
          unfold headStop
          simp only [List.head?_cons]
          exact identChar_space)
      rw [show (pre ++ w) ++ (k ++ (' ' :: ('=' :: (' ' :: (render v (ind + 1) ++
          (';' :: (entriesWs es2 ind ++ entriesCore es2 ind
            ("in ".toList ++ (render body ind ++ rest))))))))) =
        (pre ++ w) ++ k ++ (' ' :: ('=' :: (' ' :: (render v (ind + 1) ++
          (';' :: (entriesWs es2 ind ++ entriesCore es2 ind
            ("in ".toList ++ (render body ind ++ rest))))))))
        from by simp]
      rw [hid, exc_bind_ok]
      dsimp only
      have hsh1 : (⟨(pre ++ w) ++ k ++ (' ' :: ('=' :: (' ' ::
          (render v (ind + 1) ++ (';' :: (entriesWs es2 ind ++
            entriesCore es2 ind ("in ".toList ++ (render body ind ++ rest)))))))),
          (pre ++ w).length + k.length, l2, c2⟩ : NixParser) =
          ⟨(pre ++ w ++ k) ++ [' '] ++ ('=' :: (' ' :: (render v (ind + 1) ++
            (';' :: (entriesWs es2 ind ++ entriesCore es2 ind
              ("in ".toList ++ (render body ind ++ rest))))))),
            (pre ++ w ++ k).length, l2, c2⟩ := by
        simp
        omega
      rw [hsh1]
      obtain ⟨l3, c3, hsk1⟩ := skipWs_run [' '] (pre ++ w ++ k)
        ('=' :: (' ' :: (render v (ind + 1) ++ (';' :: (entriesWs es2 ind ++
          entriesCore es2 ind ("in ".toList ++ (render body ind ++ rest)))))))
        l2 c2 rfl (wsBoundary_of_head '=' _ (by decide) (by decide) (by decide))
      rw [hsk1]
      have hsh2 : (⟨(pre ++ w ++ k) ++ [' '] ++ ('=' :: (' ' ::
          (render v (ind + 1) ++ (';' :: (entriesWs es2 ind ++
            entriesCore es2 ind ("in ".toList ++ (render body ind ++ rest))))))),
          (pre ++ w ++ k).length + [' '].length, l3, c3⟩ : NixParser) =
          ⟨(pre ++ w ++ k ++ [' ']) ++ ('=' :: (' ' :: (render v (ind + 1) ++
            (';' :: (entriesWs es2 ind ++ entriesCore es2 ind
              ("in ".toList ++ (render body ind ++ rest))))))),
            (pre ++ w ++ k ++ [' ']).length, l3, c3⟩ := by
        simp
        omega
      rw [hsh2]
      have hcur2 : current ⟨(pre ++ w ++ k ++ [' ']) ++ ('=' :: (' ' ::
          (render v (ind + 1) ++ (';' :: (entriesWs es2 ind ++
            entriesCore es2 ind ("in ".toList ++ (render body ind ++ rest))))))),
          (pre ++ w ++ k ++ [' ']).length, l3, c3⟩ = some '=' := by
        rw [current_at]; rfl
      rw [hcur2, if_pos rfl]
      obtain ⟨l4, c4, hadv⟩ := advance_at (pre ++ w ++ k ++ [' ']) '='
        (' ' :: (render v (ind + 1) ++ (';' :: (entriesWs es2 ind ++
          entriesCore es2 ind ("in ".toList ++ (render body ind ++ rest)))))) l3 c3
      rw [hadv]
      have hsh3 : (⟨(pre ++ w ++ k ++ [' ']) ++ ('=' :: (' ' ::
          (render v (ind + 1) ++ (';' :: (entriesWs es2 ind ++
            entriesCore es2 ind ("in ".toList ++ (render body ind ++ rest))))))),
          (pre ++ w ++ k ++ [' ']).length + 1, l4, c4⟩ : NixParser) =
          ⟨(pre ++ w ++ k ++ [' '] ++ ['=']) ++ [' '] ++ (render v (ind + 1) ++
            (';' :: (entriesWs es2 ind ++ entriesCore es2 ind
              ("in ".toList ++ (render body ind ++ rest))))),
            (pre ++ w ++ k ++ [' '] ++ ['=']).length, l4, c4⟩ := by
        simp
        omega
      rw [hsh3]
      have hbv := render_wsBoundary v (ind + 1)
        (';' :: (entriesWs es2 ind ++ entriesCore es2 ind
          ("in ".toList ++ (render body ind ++ rest)))) hwv hrest2
      obtain ⟨l5, c5, hsk2⟩ := skipWs_run [' '] (pre ++ w ++ k ++ [' '] ++ ['='])
        (render v (ind + 1) ++ (';' :: (entriesWs es2 ind ++
          entriesCore es2 ind ("in ".toList ++ (render body ind ++ rest)))))
        l4 c4 rfl hbv
      rw [hsk2]
      have hsh4 : (⟨(pre ++ w ++ k ++ [' '] ++ ['=']) ++ [' '] ++
          (render v (ind + 1) ++ (';' :: (entriesWs es2 ind ++
            entriesCore es2 ind ("in ".toList ++ (render body ind ++ rest))))),
          (pre ++ w ++ k ++ [' '] ++ ['=']).length + [' '].length, l5, c5⟩ :
          NixParser) =
          ⟨(pre ++ w ++ k ++ [' '] ++ ['='] ++ [' ']) ++ (render v (ind + 1) ++
            (';' :: (entriesWs es2 ind ++ entriesCore es2 ind
              ("in ".toList ++ (render body ind ++ rest))))),
            (pre ++ w ++ k ++ [' '] ++ ['='] ++ [' ']).length, l5, c5⟩ := by
        simp
        omega
      rw [hsh4]
      obtain ⟨l6, c6, hpv⟩ := ih v hszv hwv (ind + 1)
        (pre ++ w ++ k ++ [' '] ++ ['='] ++ [' '])
        (';' :: (entriesWs es2 ind ++ entriesCore es2 ind
          ("in ".toList ++ (render body ind ++ rest))))
        l5 c5 f (by omega) hrest2
      rw [hpv, exc_bind_ok]
      dsimp only
      have hdel : delta v (';' :: (entriesWs es2 ind ++ entriesCore es2 ind
          ("in ".toList ++ (render body ind ++ rest)))) = 0 := by
        apply delta_stop
        intro d hd
        simp only [List.head?_cons, Option.some.injEq] at hd
        subst hd
        decide
      rw [hdel]
      have hsh5 : (⟨(pre ++ w ++ k ++ [' '] ++ ['='] ++ [' ']) ++
          (render v (ind + 1) ++ (';' :: (entriesWs es2 ind ++
            entriesCore es2 ind ("in ".toList ++ (render body ind ++ rest))))),
          (pre ++ w ++ k ++ [' '] ++ ['='] ++ [' ']).length +
            ((render v (ind + 1)).length + 0), l6, c6⟩ : NixParser) =
          ⟨(pre ++ w ++ k ++ [' '] ++ ['='] ++ [' '] ++ render v (ind + 1)) ++
            (';' :: (entriesWs es2 ind ++ entriesCore es2 ind
              ("in ".toList ++ (render body ind ++ rest)))),
            (pre ++ w ++ k ++ [' '] ++ ['='] ++ [' '] ++
              render v (ind + 1)).length, l6, c6⟩ := by
        simp
        omega
      rw [hsh5]
      rw [skipWs_noop (pre ++ w ++ k ++ [' '] ++ ['='] ++ [' '] ++
        render v (ind + 1)) (';' :: (entriesWs es2 ind ++
          entriesCore es2 ind ("in ".toList ++ (render body ind ++ rest))))
        l6 c6 (wsBoundary_of_head ';' _ (by decide) (by decide) (by decide))]
      have hcur3 : current ⟨(pre ++ w ++ k ++ [' '] ++ ['='] ++ [' '] ++
          render v (ind + 1)) ++ (';' :: (entriesWs es2 ind ++
            entriesCore es2 ind ("in ".toList ++ (render body ind ++ rest)))),
          (pre ++ w ++ k ++ [' '] ++ ['='] ++ [' '] ++
            render v (ind + 1)).length, l6, c6⟩ = some ';' := by
        rw [current_at]; rfl
      rw [hcur3, if_pos rfl]
      obtain ⟨l7, c7, hadv2⟩ := advance_at
        (pre ++ w ++ k ++ [' '] ++ ['='] ++ [' '] ++ render v (ind + 1)) ';'
        (entriesWs es2 ind ++ entriesCore es2 ind
          ("in ".toList ++ (render body ind ++ rest))) l6 c6
      rw [hadv2]
      have hsh6 : (⟨(pre ++ w ++ k ++ [' '] ++ ['='] ++ [' '] ++
          render v (ind + 1)) ++ (';' :: (entriesWs es2 ind ++
            entriesCore es2 ind ("in ".toList ++ (render body ind ++ rest)))),
          (pre ++ w ++ k ++ [' '] ++ ['='] ++ [' '] ++
            render v (ind + 1)).length + 1, l7, c7⟩ : NixParser) =
          ⟨(pre ++ w ++ k ++ [' '] ++ ['='] ++ [' '] ++ render v (ind + 1) ++
            [';']) ++ (entriesWs es2 ind ++ entriesCore es2 ind
              ("in ".toList ++ (render body ind ++ rest))),
            (pre ++ w ++ k ++ [' '] ++ ['='] ++ [' '] ++ render v (ind + 1) ++
              [';']).length, l7, c7⟩ := by
        simp
        omega
      rw [hsh6]
      rw [insertAttr_append k v binds hnmem]
      obtain ⟨l8, c8, hloop⟩ := ihx hsz2 hw2 (entriesWs es2 ind)
        (binds ++ [(k, v)])
        (pre ++ w ++ k ++ [' '] ++ ['='] ++ [' '] ++ render v (ind + 1) ++ [';'])
        l7 c7 f (by omega) (entriesWs_ws es2 ind) hnd2
      rw [hloop]
      refine ⟨l8, c8, ?_⟩
      simp only [Except.ok.injEq, Prod.mk.injEq, NixParser.mk.injEq,
        List.length_append, List.append_assoc, List.length_cons, List.length_nil,
        true_and, and_true]
      have hel : entriesLen ((k, v) :: es2) ind = k.length + 3 +
          (render v (ind + 1)).length + 1 + (entriesWs es2 ind).length +
          entriesLen es2 ind := rfl
      repeat' apply And.intro
      all_goals first
        | rfl
        | omega
        | simp

theorem litPre_head_ne (kc : Char) (kcs : List Char) (d : Char) (ds : List Char)
    (h : ¬(kc = d)) : litPre (kc :: kcs) (d :: ds) = false := by
  simp [litPre, h]

theorem dropWhile_append_all (p : Char → Bool) (l1 l2 : List Char)
    (h : l1.all p = true) : (l1 ++ l2).dropWhile p = l2.dropWhile p := by
  induction l1 with
  | nil => rfl
  | cons a l ih =>
    simp only [List.all_cons, Bool.and_eq_true] at h
    rw [List.cons_append, List.dropWhile_cons, h.1]
    simp only [if_true]
    exact ih h.2

theorem takeWhile_append_all (p : Char → Bool) (l1 l2 : List Char)
    (h : l1.all p = true) : (l1 ++ l2).takeWhile p = l1 ++ l2.takeWhile p := by
  induction l1 with
  | nil => rfl
  | cons a l ih =>
    simp only [List.all_cons, Bool.and_eq_true] at h
    rw [List.cons_append, List.takeWhile_cons, h.1]
    simp only [if_true, ih h.2]
    rfl

theorem dropWhile_append_stop (p : Char → Bool) (l1 l2 : List Char)
    (hne : l1.dropWhile p ≠ []) : (l1 ++ l2).dropWhile p = l1.dropWhile p ++ l2 := by
  induction l1 with
  | nil => exact absurd rfl hne
  | cons a l ih =>
    rw [List.cons_append, List.dropWhile_cons, List.dropWhile_cons]
    rw [List.dropWhile_cons] at hne
    by_cases hp : p a = true
    · rw [if_pos hp, if_pos hp]
      rw [if_pos hp] at hne
      exact ih hne
    · rw [if_neg hp, if_neg hp]
      rw [List.cons_append]

theorem takeWhile_append_stop (p : Char → Bool) (l1 l2 : List Char)
    (hne : l1.dropWhile p ≠ []) : (l1 ++ l2).takeWhile p = l1.takeWhile p := by
  induction l1 with
  | nil => exact absurd rfl hne
  | cons a l ih =>
    rw [List.cons_append, List.takeWhile_cons, List.takeWhile_cons]
    rw [List.dropWhile_cons] at hne
    by_cases hp : p a = true
    · rw [if_pos hp, if_pos hp]
      rw [if_pos hp] at hne
      rw [ih hne]
    · rw [if_neg hp, if_neg hp]

/-- The parameter loop on a printed multi-parameter list: reads each
identifier and separator, the `...` marker, and the closing brace. -/
theorem fnLoop (ps : List (List Char)) :
    ps ≠ [] → ps.all identText = true →
    ∀ (acc : List (List Char)) (pre tail : List Char) (l c fuel : Nat),
      ps.length + 2 ≤ fuel →
    ∃ l2 c2, fnParamsLoopF fuel acc
        ⟨pre ++ ((joinParams ps ++ ", ... ".toList) ++ (cbr :: tail)),
          pre.length, l, c⟩ =
      .ok (acc ++ ps,
        ⟨pre ++ ((joinParams ps ++ ", ... ".toList) ++ (cbr :: tail)),
          pre.length + ((joinParams ps ++ ", ... ".toList).length + 1), l2, c2⟩) := by
  induction ps with
  | nil => intro h; exact absurd rfl h
  | cons q qs ihq =>
    intro _ hall acc pre tail l c fuel hfuel
    simp only [List.all_cons, Bool.and_eq_true] at hall
    obtain ⟨hq, hqs⟩ := hall
    simp only [identText, Bool.and_eq_true] at hq
    obtain ⟨hqne, hqall⟩ := hq
    obtain ⟨c0, q1, hqc⟩ : ∃ c0 q1, q = c0 :: q1 := by
      cases q with
      | nil => simp at hqne
      | cons a b => exact ⟨a, b, rfl⟩
    have hic : identChar c0 = true := by
      rw [hqc] at hqall
      simp only [List.all_cons, Bool.and_eq_true] at hqall
      exact hqall.1
    obtain ⟨g1, g2, g3, g4, g5, g6, g7, g8, g9, g10, g11, g12⟩ := identChar_ne c0 hic
    simp only [List.length_cons] at hfuel
    cases fuel with
    | zero => omega
    | succ f =>
    cases qs with
    | nil =>
      -- single parameter before the dots
      have hjp : joinParams [q] = q := rfl
      rw [hjp]
      have hsplit : (q ++ ", ... ".toList) ++ (cbr :: tail) =
          q ++ (',' :: (' ' :: ("... ".toList ++ (cbr :: tail)))) := by
        simp
      rw [hsplit]
      have hcur : current ⟨pre ++ (q ++ (',' :: (' ' :: ("... ".toList ++
          (cbr :: tail))))), pre.length, l, c⟩ = some c0 := by
        rw [current_at, hqc]
        simp
      rw [fnParamsLoopF]
      rw [hcur]
      rw [if_neg (by
        rintro (h | h)
        · injection h with h2; exact g11 h2
        · cases h)]
      have hdots : peekS ⟨pre ++ (q ++ (',' :: (' ' :: ("... ".toList ++
          (cbr :: tail))))), pre.length, l, c⟩ "..." = false := by
        rw [peekS_at, hqc, List.cons_append]
        exact litPre_head_ne '.' _ c0 _ (fun hh => g3 hh.symm)
      rw [if_neg (by rw [hdots]; decide)]
      obtain ⟨l1, c1, hid⟩ := parse_identifier_run q pre
        (',' :: (' ' :: ("... ".toList ++ (cbr :: tail)))) l c
        (by rw [hqc]; simp) hqall
        (by unfold headStop; simp only [List.head?_cons]; decide)
      rw [show pre ++ (q ++ (',' :: (' ' :: ("... ".toList ++ (cbr :: tail))))) =
        pre ++ q ++ (',' :: (' ' :: ("... ".toList ++ (cbr :: tail)))) from by simp]
      rw [hid, exc_bind_ok]
      dsimp only
      have hsh1 : (⟨pre ++ q ++ (',' :: (' ' :: ("... ".toList ++ (cbr :: tail)))),
          pre.length + q.length, l1, c1⟩ : NixParser) =
          ⟨(pre ++ q) ++ (',' :: (' ' :: ("... ".toList ++ (cbr :: tail)))),
            (pre ++ q).length, l1, c1⟩ := by
        simp
      rw [hsh1]
      rw [skipWs_noop (pre ++ q) (',' :: (' ' :: ("... ".toList ++ (cbr :: tail))))
        l1 c1 (wsBoundary_of_head ',' _ (by decide) (by decide) (by decide))]
      have hcur2 : current ⟨(pre ++ q) ++ (',' :: (' ' :: ("... ".toList ++
          (cbr :: tail)))), (pre ++ q).length, l1, c1⟩ = some ',' := by
        rw [current_at]; rfl
      rw [hcur2, if_pos rfl]
      obtain ⟨l2, c2, hadv⟩ := advance_at (pre ++ q) ','
        (' ' :: ("... ".toList ++ (cbr :: tail))) l1 c1
      rw [hadv]
      have hsh2 : (⟨(pre ++ q) ++ (',' :: (' ' :: ("... ".toList ++ (cbr :: tail)))),
          (pre ++ q).length + 1, l2, c2⟩ : NixParser) =
          ⟨(pre ++ q ++ [',']) ++ [' '] ++ ("... ".toList ++ (cbr :: tail)),
            (pre ++ q ++ [',']).length, l2, c2⟩ := by
        simp
        omega
      rw [hsh2]
      obtain ⟨l3, c3, hsk⟩ := skipWs_run [' '] (pre ++ q ++ [','])
        ("... ".toList ++ (cbr :: tail)) l2 c2 rfl
        (by rw [show ("... ".toList ++ (cbr :: tail)) =
            '.' :: ("".toList ++ (".. ".toList ++ (cbr :: tail))) from by simp]
            exact wsBoundary_of_head '.' _ (by decide) (by decide) (by decide))
      rw [hsk]
      cases f with
      | zero => omega
      | succ g =>
        have hsh3 : (⟨(pre ++ q ++ [',']) ++ [' '] ++ ("... ".toList ++
            (cbr :: tail)), (pre ++ q ++ [',']).length + [' '].length, l3, c3⟩ :
            NixParser) =
            ⟨(pre ++ q ++ [','] ++ [' ']) ++ ("... ".toList ++ (cbr :: tail)),
              (pre ++ q ++ [','] ++ [' ']).length, l3, c3⟩ := by
          simp
          omega
        rw [hsh3]
        have hcur3 : current ⟨(pre ++ q ++ [','] ++ [' ']) ++ ("... ".toList ++
            (cbr :: tail)), (pre ++ q ++ [','] ++ [' ']).length, l3, c3⟩ =
            some '.' := by
          rw [current_at]; rfl
        rw [fnParamsLoopF]
        rw [hcur3]
        rw [if_neg (by
          rintro (h | h)
          · exact absurd (by injection h) (by decide)
          · cases h)]
        have hdots2 : peekS ⟨(pre ++ q ++ [','] ++ [' ']) ++ ("... ".toList ++
            (cbr :: tail)), (pre ++ q ++ [','] ++ [' ']).length, l3, c3⟩
            "..." = true := by
          rw [peekS_at]
          rw [show ("... ".toList ++ (cbr :: tail)) =
            "...".toList ++ (' ' :: (cbr :: tail)) from by simp]
          exact litPre_append _ _
        rw [if_pos hdots2]
        obtain ⟨l4, c4, hadv3⟩ := advanceN_at 3 (pre ++ q ++ [','] ++ [' '])
          ("... ".toList ++ (cbr :: tail)) l3 c3
        rw [hadv3]
        have hsh4 : (⟨(pre ++ q ++ [','] ++ [' ']) ++ ("... ".toList ++
            (cbr :: tail)), (pre ++ q ++ [','] ++ [' ']).length + 3, l4, c4⟩ :
            NixParser) =
            ⟨(pre ++ q ++ [','] ++ [' '] ++ ['.', '.', '.']) ++ [' '] ++
              (cbr :: tail),
              (pre ++ q ++ [','] ++ [' '] ++ ['.', '.', '.']).length, l4, c4⟩ := by
          simp
          omega
        rw [hsh4]
        obtain ⟨l5, c5, hsk2⟩ := skipWs_run [' ']
          (pre ++ q ++ [','] ++ [' '] ++ ['.', '.', '.']) (cbr :: tail) l4 c4 rfl
          (wsBoundary_of_head cbr _ (by decide) (by decide) (by decide))
        rw [hsk2]
        have hsh5 : (⟨(pre ++ q ++ [','] ++ [' '] ++ ['.', '.', '.']) ++ [' '] ++
            (cbr :: tail),
            (pre ++ q ++ [','] ++ [' '] ++ ['.', '.', '.']).length + [' '].length,
            l5, c5⟩ : NixParser) =
            ⟨(pre ++ q ++ [','] ++ [' '] ++ ['.', '.', '.'] ++ [' ']) ++
              (cbr :: tail),
              (pre ++ q ++ [','] ++ [' '] ++ ['.', '.', '.'] ++ [' ']).length,
              l5, c5⟩ := by
          simp
          omega
        rw [hsh5]
        have hcur4 : current ⟨(pre ++ q ++ [','] ++ [' '] ++ ['.', '.', '.'] ++
            [' ']) ++ (cbr :: tail),
            (pre ++ q ++ [','] ++ [' '] ++ ['.', '.', '.'] ++ [' ']).length,
            l5, c5⟩ = some cbr := by
          rw [current_at]; rfl
        dsimp only
        rw [hcur4]
        rw [if_neg (show ¬(some cbr = some ',') from by decide)]
        rw [hcur4, if_pos rfl]
        obtain ⟨l6, c6, hadv4⟩ := advance_at
          (pre ++ q ++ [','] ++ [' '] ++ ['.', '.', '.'] ++ [' ']) cbr tail l5 c5
        rw [hadv4]
        refine ⟨l6, c6, ?_⟩
        simp only [Except.ok.injEq, Prod.mk.injEq, NixParser.mk.injEq,
          List.length_append, List.append_assoc, List.length_cons, List.length_nil,
          true_and, and_true]
        repeat' apply And.intro
        all_goals first
          | rfl
          | omega
          | simp
    | cons q2 qs2 =>
      have hjp : joinParams (q :: q2 :: qs2) = q ++ (',' :: (' ' ::
          joinParams (q2 :: qs2))) := rfl
      rw [hjp]
      have hsplit : ((q ++ (',' :: (' ' :: joinParams (q2 :: qs2)))) ++
          ", ... ".toList) ++ (cbr :: tail) =
          q ++ (',' :: (' ' :: ((joinParams (q2 :: qs2) ++ ", ... ".toList) ++
            (cbr :: tail)))) := by
        simp
      rw [hsplit]
      have hcur : current ⟨pre ++ (q ++ (',' :: (' ' ::
          ((joinParams (q2 :: qs2) ++ ", ... ".toList) ++ (cbr :: tail))))),
          pre.length, l, c⟩ = some c0 := by
        rw [current_at, hqc]
        simp
      rw [fnParamsLoopF]
      rw [hcur]
      rw [if_neg (by
        rintro (h | h)
        · injection h with h2; exact g11 h2
        · cases h)]
      have hdots : peekS ⟨pre ++ (q ++ (',' :: (' ' ::
          ((joinParams (q2 :: qs2) ++ ", ... ".toList) ++ (cbr :: tail))))),
          pre.length, l, c⟩ "..." = false := by
        rw [peekS_at, hqc, List.cons_append]
        exact litPre_head_ne '.' _ c0 _ (fun hh => g3 hh.symm)
      rw [if_neg (by rw [hdots]; decide)]
      obtain ⟨l1, c1, hid⟩ := parse_identifier_run q pre
        (',' :: (' ' :: ((joinParams (q2 :: qs2) ++ ", ... ".toList) ++
          (cbr :: tail)))) l c (by rw [hqc]; simp) hqall
        (by unfold headStop; simp only [List.head?_cons]; decide)
      rw [show pre ++ (q ++ (',' :: (' ' :: ((joinParams (q2 :: qs2) ++
          ", ... ".toList) ++ (cbr :: tail))))) =
        pre ++ q ++ (',' :: (' ' :: ((joinParams (q2 :: qs2) ++
          ", ... ".toList) ++ (cbr :: tail)))) from by simp]
      rw [hid, exc_bind_ok]
      dsimp only
      have hsh1 : (⟨pre ++ q ++ (',' :: (' ' :: ((joinParams (q2 :: qs2) ++
          ", ... ".toList) ++ (cbr :: tail)))),
          pre.length + q.length, l1, c1⟩ : NixParser) =
          ⟨(pre ++ q) ++ (',' :: (' ' :: ((joinParams (q2 :: qs2) ++
            ", ... ".toList) ++ (cbr :: tail)))),
            (pre ++ q).length, l1, c1⟩ := by
        simp
      rw [hsh1]
      rw [skipWs_noop (pre ++ q) (',' :: (' ' :: ((joinParams (q2 :: qs2) ++
        ", ... ".toList) ++ (cbr :: tail)))) l1 c1
        (wsBoundary_of_head ',' _ (by decide) (by decide) (by decide))]
      have hcur2 : current ⟨(pre ++ q) ++ (',' :: (' ' ::
          ((joinParams (q2 :: qs2) ++ ", ... ".toList) ++ (cbr :: tail)))),
          (pre ++ q).length, l1, c1⟩ = some ',' := by
        rw [current_at]; rfl
      rw [hcur2, if_pos rfl]
      obtain ⟨l2, c2, hadv⟩ := advance_at (pre ++ q) ','
        (' ' :: ((joinParams (q2 :: qs2) ++ ", ... ".toList) ++ (cbr :: tail)))
        l1 c1
      rw [hadv]
      have hq2head : ∃ d q21, q2 = d :: q21 ∧ identChar d = true := by
        simp only [List.all_cons, identText, Bool.and_eq_true] at hqs
        obtain ⟨⟨h1, h2⟩, _⟩ := hqs
        cases q2 with
        | nil => simp at h1
        | cons d q21 =>
          refine ⟨d, q21, rfl, ?_⟩
          simp only [List.all_cons, Bool.and_eq_true] at h2
          exact h2.1
      obtain ⟨d, q21, hq2, hicd⟩ := hq2head
      have hbnd : wsBoundary ((joinParams (q2 :: qs2) ++ ", ... ".toList) ++
          (cbr :: tail)) = true := by
        obtain ⟨gg1, gg2, _⟩ := identChar_ne d hicd
        have hhead : ∃ t2, ((joinParams (q2 :: qs2) ++ ", ... ".toList) ++
            (cbr :: tail)) = d :: t2 := by
          cases qs2 with
          | nil =>
            refine ⟨q21 ++ (", ... ".toList ++ (cbr :: tail)), ?_⟩
            rw [show joinParams [q2] = q2 from rfl, hq2]
            simp
          | cons q3 qs3 =>
            refine ⟨(q21 ++ (',' :: (' ' :: joinParams (q3 :: qs3)))) ++
              (", ... ".toList ++ (cbr :: tail)), ?_⟩
            rw [show joinParams (q2 :: q3 :: qs3) =
              q2 ++ (',' :: (' ' :: joinParams (q3 :: qs3))) from rfl, hq2]
            simp
        obtain ⟨t2, ht2⟩ := hhead
        rw [ht2]
        exact wsBoundary_of_head d _ (identChar_not_ws d hicd) gg1 gg2
      have hsh2 : (⟨(pre ++ q) ++ (',' :: (' ' :: ((joinParams (q2 :: qs2) ++
          ", ... ".toList) ++ (cbr :: tail)))),
          (pre ++ q).length + 1, l2, c2⟩ : NixParser) =
          ⟨(pre ++ q ++ [',']) ++ [' '] ++ ((joinParams (q2 :: qs2) ++
            ", ... ".toList) ++ (cbr :: tail)),
            (pre ++ q ++ [',']).length, l2, c2⟩ := by
        simp
        omega
      rw [hsh2]
      obtain ⟨l3, c3, hsk⟩ := skipWs_run [' '] (pre ++ q ++ [','])
        ((joinParams (q2 :: qs2) ++ ", ... ".toList) ++ (cbr :: tail)) l2 c2 rfl
        hbnd
      rw [hsk]
      have hsh3 : (⟨(pre ++ q ++ [',']) ++ [' '] ++ ((joinParams (q2 :: qs2) ++
          ", ... ".toList) ++ (cbr :: tail)),
          (pre ++ q ++ [',']).length + [' '].length, l3, c3⟩ : NixParser) =
          ⟨(pre ++ q ++ [','] ++ [' ']) ++ ((joinParams (q2 :: qs2) ++
            ", ... ".toList) ++ (cbr :: tail)),
            (pre ++ q ++ [','] ++ [' ']).length, l3, c3⟩ := by
        simp
        omega
      rw [hsh3]
      obtain ⟨l6, c6, hloop⟩ := ihq (by simp) hqs (acc ++ [q])
        (pre ++ q ++ [','] ++ [' ']) tail l3 c3 f (by
          simp only [List.length_cons] at hfuel ⊢
          omega)
      rw [hloop]
      refine ⟨l6, c6, ?_⟩
      simp only [Except.ok.injEq, Prod.mk.injEq, NixParser.mk.injEq,
        List.length_append, List.append_assoc, List.length_cons, List.length_nil,
        true_and, and_true]
      repeat' apply And.intro
      all_goals first
        | rfl
        | omega
        | simp

theorem joinParams_len (ps : List (List Char)) :
    ps.length ≤ (joinParams ps).length + 1 := by
  induction ps with
  | nil => simp
  | cons q qs ih =>
    cases qs with
    | nil => simp [joinParams]
    | cons q2 qs2 =>
      rw [show joinParams (q :: q2 :: qs2) =
        q ++ (',' :: (' ' :: joinParams (q2 :: qs2))) from rfl]
      simp only [List.length_cons] at ih
      simp only [List.length_cons, List.length_append]
      omega

/-- `parse_function_params` on a printed multi-parameter head: collects the
parameters and stops after the closing brace. -/
theorem fnParams_run (ps : List (List Char)) (hne : ps ≠ [])
    (hall : ps.all identText = true) (pre tail : List Char) (l c : Nat) :
    ∃ l2 c2, parse_function_params
        ⟨pre ++ (obr :: (' ' :: ((joinParams ps ++ ", ... ".toList) ++
          (cbr :: tail)))), pre.length, l, c⟩ =
      .ok (ps, ⟨pre ++ (obr :: (' ' :: ((joinParams ps ++ ", ... ".toList) ++
        (cbr :: tail)))),
        pre.length + (2 + ((joinParams ps ++ ", ... ".toList).length + 1)),
        l2, c2⟩) := by
  obtain ⟨q, qs, rfl⟩ := List.exists_cons_of_ne_nil hne
  have hqhead : ∃ c0 q1, q = c0 :: q1 ∧ identChar c0 = true := by
    simp only [List.all_cons, identText, Bool.and_eq_true] at hall
    obtain ⟨⟨h1, h2⟩, -⟩ := hall
    cases q with
    | nil => simp at h1
    | cons a b =>
      refine ⟨a, b, rfl, ?_⟩
      simp only [List.all_cons, Bool.and_eq_true] at h2
      exact h2.1
  obtain ⟨c0, q1, hqc, hic⟩ := hqhead
  obtain ⟨g1, g2, _⟩ := identChar_ne c0 hic
  unfold parse_function_params
  obtain ⟨l1, c1, hadv⟩ := advance_at pre obr
    (' ' :: ((joinParams (q :: qs) ++ ", ... ".toList) ++ (cbr :: tail))) l c
  rw [hadv]
  have hsh : (⟨pre ++ obr :: (' ' :: ((joinParams (q :: qs) ++ ", ... ".toList) ++
      (cbr :: tail))), pre.length + 1, l1, c1⟩ : NixParser) =
      ⟨(pre ++ [obr]) ++ [' '] ++ ((joinParams (q :: qs) ++ ", ... ".toList) ++
        (cbr :: tail)), (pre ++ [obr]).length, l1, c1⟩ := by
    simp
  rw [hsh]
  have hjbnd : wsBoundary ((joinParams (q :: qs) ++ ", ... ".toList) ++
      (cbr :: tail)) = true := by
    have hjh : ∃ t2, ((joinParams (q :: qs) ++ ", ... ".toList) ++
        (cbr :: tail)) = c0 :: t2 := by
      cases qs with
      | nil =>
        refine ⟨q1 ++ (", ... ".toList ++ (cbr :: tail)), ?_⟩
        rw [show joinParams [q] = q from rfl, hqc]
        simp
      | cons q2 qs2 =>
        refine ⟨(q1 ++ (',' :: (' ' :: joinParams (q2 :: qs2)))) ++
          (", ... ".toList ++ (cbr :: tail)), ?_⟩
        rw [show joinParams (q :: q2 :: qs2) =
          q ++ (',' :: (' ' :: joinParams (q2 :: qs2))) from rfl, hqc]
        simp
    obtain ⟨t2, ht2⟩ := hjh
    rw [ht2]
    exact wsBoundary_of_head c0 _ (identChar_not_ws c0 hic) g1 g2
  obtain ⟨l2, c2, hsk⟩ := skipWs_run [' '] (pre ++ [obr])
    ((joinParams (q :: qs) ++ ", ... ".toList) ++ (cbr :: tail)) l1 c1 rfl hjbnd
  rw [hsk]
  have hsh2 : (⟨(pre ++ [obr]) ++ [' '] ++ ((joinParams (q :: qs) ++
      ", ... ".toList) ++ (cbr :: tail)),
      (pre ++ [obr]).length + [' '].length, l2, c2⟩ : NixParser) =
      ⟨(pre ++ [obr] ++ [' ']) ++ ((joinParams (q :: qs) ++ ", ... ".toList) ++
        (cbr :: tail)), (pre ++ [obr] ++ [' ']).length, l2, c2⟩ := by
    simp
  rw [hsh2]
  have hfuel : (q :: qs).length + 2 ≤ remFuel ⟨pre ++ obr :: (' ' ::
      ((joinParams (q :: qs) ++ ", ... ".toList) ++ (cbr :: tail))),
      pre.length, l, c⟩ := by
    have hjl := joinParams_len (q :: qs)
    unfold remFuel
    simp only [List.length_cons, List.length_append]
    simp only [List.length_cons] at hjl
    omega
  obtain ⟨l3, c3, hloop⟩ := fnLoop (q :: qs) (by simp) hall []
    (pre ++ [obr] ++ [' ']) tail l2 c2 _ hfuel
  rw [hloop]
  refine ⟨l3, c3, ?_⟩
  simp only [Except.ok.injEq, Prod.mk.injEq, NixParser.mk.injEq,
    List.length_append, List.append_assoc, List.length_cons, List.length_nil,
    List.nil_append, true_and, and_true]
  repeat' apply And.intro
  all_goals first
    | rfl
    | omega
    | simp

/-- `parse_function_params` on a printed empty attrset: the scan succeeds,
consuming both braces and returning no parameters. -/
theorem fnParams_empty (ind : Nat) (pre rest : List Char) (l c : Nat) :
    ∃ l2 c2, parse_function_params
        ⟨pre ++ (obr :: ('\n' :: (renderIndent ind ++ (cbr :: rest)))),
          pre.length, l, c⟩ =
      .ok ([], ⟨pre ++ (obr :: ('\n' :: (renderIndent ind ++ (cbr :: rest)))),
        pre.length + (2 + (renderIndent ind).length + 1), l2, c2⟩) := by
  unfold parse_function_params
  obtain ⟨l1, c1, hadv⟩ := advance_at pre obr
    ('\n' :: (renderIndent ind ++ (cbr :: rest))) l c
  rw [hadv]
  have hsh : (⟨pre ++ obr :: ('\n' :: (renderIndent ind ++ (cbr :: rest))),
      pre.length + 1, l1, c1⟩ : NixParser) =
      ⟨(pre ++ [obr]) ++ ('\n' :: renderIndent ind) ++ (cbr :: rest),
        (pre ++ [obr]).length, l1, c1⟩ := by
    simp
  rw [hsh]
  obtain ⟨l2, c2, hsk⟩ := skipWs_run ('\n' :: renderIndent ind) (pre ++ [obr])
    (cbr :: rest) l1 c1
    (by simp only [List.all_cons, Bool.and_eq_true]
        exact ⟨by decide, renderIndent_ws ind⟩)
    (wsBoundary_of_head cbr rest (by decide) (by decide) (by decide))
  rw [hsk]
  have hrf : remFuel ⟨pre ++ obr :: ('\n' :: (renderIndent ind ++ (cbr :: rest))),
      pre.length, l, c⟩ =
      (2 + (renderIndent ind).length + 1 + rest.length) + 1 := by
    unfold remFuel
    dsimp only
    simp only [List.length_append, List.length_cons]
    rw [Nat.add_sub_cancel_left]
    omega
  rw [hrf]
  have hsh2 : (⟨(pre ++ [obr]) ++ ('\n' :: renderIndent ind) ++ (cbr :: rest),
      (pre ++ [obr]).length + ('\n' :: renderIndent ind).length, l2, c2⟩ :
      NixParser) =
      ⟨(pre ++ [obr] ++ ('\n' :: renderIndent ind)) ++ (cbr :: rest),
        (pre ++ [obr] ++ ('\n' :: renderIndent ind)).length, l2, c2⟩ := by
    simp
    omega
  rw [hsh2]
  have hcur : current ⟨(pre ++ [obr] ++ ('\n' :: renderIndent ind)) ++
      (cbr :: rest), (pre ++ [obr] ++ ('\n' :: renderIndent ind)).length,
      l2, c2⟩ = some cbr := by
    rw [current_at]; rfl
  rw [fnParamsLoopF]
  rw [hcur, if_pos (Or.inl rfl), if_pos rfl]
  obtain ⟨l3, c3, hadv2⟩ := advance_at (pre ++ [obr] ++ ('\n' :: renderIndent ind))
    cbr rest l2 c2
  rw [hadv2]
  refine ⟨l3, c3, ?_⟩
  simp only [Except.ok.injEq, Prod.mk.injEq, NixParser.mk.injEq,
    List.length_append, List.append_assoc, List.length_cons, List.length_nil,
    true_and, and_true]
  repeat' apply And.intro
  all_goals first
    | rfl
    | omega
    | simp

theorem litPre_cons_same (ch : Char) (cs ds : List Char) :
    litPre (ch :: cs) (ch :: ds) = litPre cs ds := by
  simp [litPre]

theorem parse_identifier_err (pre rest : List Char) (l c : Nat)
    (h : headStop identChar rest) :
    ∃ e, parse_identifier ⟨pre ++ rest, pre.length, l, c⟩ = .error e := by
  obtain ⟨l2, c2, hs⟩ := scanWhile_run identChar [] pre rest l c rfl h
  simp only [List.append_nil, List.length_nil, Nat.add_zero] at hs
  refine ⟨mkError ⟨pre ++ rest, pre.length, l2, c2⟩ "Expected identifier", ?_⟩
  unfold parse_identifier
  rw [hs]
  rfl

/-- The parameter scan fails on a printed attrset entry head: the key's
first identifier run is followed by `.` or (after spaces) `=`, where the
loop demands another identifier. -/
theorem fnParams_err (k T2 ws2 pre : List Char) (l c : Nat)
    (hkey : keyOk k = true) (hws2 : (ws2.all fun c => isWs c) = true) :
    ∃ e, parse_function_params
        ⟨pre ++ (obr :: (ws2 ++ (k ++ (' ' :: ('=' :: T2))))), pre.length, l, c⟩ =
      .error e := by
  obtain ⟨c0, k1, hk, hic⟩ := keyOk_head k hkey
  obtain ⟨g1, g2, g3, g4, g5, g6, g7, g8, g9, g10, g11, g12⟩ := identChar_ne c0 hic
  have hseg : segStart k = true := by
    simp only [keyOk, Bool.and_eq_true] at hkey
    exact hkey.1.2
  obtain ⟨c', r', hk2, hbr⟩ := segStart_inv k hseg
  rw [hk] at hk2
  injection hk2 with he1 he2
  subst he1
  subst he2
  rcases hbr with ⟨hdq, -⟩ | ⟨-, -, hdt⟩
  · subst hdq
    exact absurd hic (by decide)
  unfold parse_function_params
  obtain ⟨l1, c1, hadv⟩ := advance_at pre obr
    (ws2 ++ (k ++ (' ' :: ('=' :: T2)))) l c
  rw [hadv]
  have hsh : (⟨pre ++ obr :: (ws2 ++ (k ++ (' ' :: ('=' :: T2)))),
      pre.length + 1, l1, c1⟩ : NixParser) =
      ⟨(pre ++ [obr]) ++ ws2 ++ (k ++ (' ' :: ('=' :: T2))),
        (pre ++ [obr]).length, l1, c1⟩ := by
    simp
  rw [hsh]
  have hbk : wsBoundary (k ++ (' ' :: ('=' :: T2))) = true := by
    rw [hk, List.cons_append]
    exact wsBoundary_of_head c0 _ (identChar_not_ws c0 hic) g1 g2
  obtain ⟨l2, c2, hsk⟩ := skipWs_run ws2 (pre ++ [obr])
    (k ++ (' ' :: ('=' :: T2))) l1 c1 hws2 hbk
  rw [hsk]
  have hrf : remFuel ⟨pre ++ obr :: (ws2 ++ (k ++ (' ' :: ('=' :: T2)))),
      pre.length, l, c⟩ =
      (ws2.length + k1.length + T2.length + 3) + 1 + 1 := by
    unfold remFuel
    dsimp only
    rw [hk]
    simp only [List.length_append, List.length_cons]
    rw [Nat.add_sub_cancel_left]
    omega
  rw [hrf]
  have hsh2 : (⟨(pre ++ [obr]) ++ ws2 ++ (k ++ (' ' :: ('=' :: T2))),
      (pre ++ [obr]).length + ws2.length, l2, c2⟩ : NixParser) =
      ⟨(pre ++ [obr] ++ ws2) ++ (k ++ (' ' :: ('=' :: T2))),
        (pre ++ [obr] ++ ws2).length, l2, c2⟩ := by
    simp
    omega
  rw [hsh2]
  have hcur : current ⟨(pre ++ [obr] ++ ws2) ++ (k ++ (' ' :: ('=' :: T2))),
      (pre ++ [obr] ++ ws2).length, l2, c2⟩ = some c0 := by
    rw [current_at, hk]
    simp
  rw [fnParamsLoopF]
  rw [hcur]
  rw [if_neg (by
    rintro (h | h)
    · injection h with h2; exact g11 h2
    · cases h)]
  rw [if_neg (by
    rw [peekS_at, hk, List.cons_append]
    rw [show ("...".toList : List Char) = '.' :: ['.', '.'] from rfl]
    rw [litPre_head_ne '.' _ c0 _ (fun hh => g3 hh.symm)]
    decide)]
  rcases dotTail_inv (k1.dropWhile identChar) hdt with hnil | ⟨k3, hdk, hseg3⟩
  · -- the key is a single identifier run: the loop stalls at `=`
    have hall1 : k1.all identChar = true := by
      rw [List.all_eq_true]
      intro x hx
      have := List.dropWhile_eq_nil_iff.mp hnil x hx
      exact this
    have hallk : k.all identChar = true := by
      rw [hk]
      simp only [List.all_cons, Bool.and_eq_true]
      exact ⟨hic, hall1⟩
    obtain ⟨l3, c3, hid⟩ := parse_identifier_run k (pre ++ [obr] ++ ws2)
      (' ' :: ('=' :: T2)) l2 c2 (by rw [hk]; simp) hallk
      (by unfold headStop; simp only [List.head?_cons]; exact identChar_space)
    rw [show (pre ++ [obr] ++ ws2) ++ (k ++ (' ' :: ('=' :: T2))) =
      (pre ++ [obr] ++ ws2) ++ k ++ (' ' :: ('=' :: T2)) from by simp]
    rw [hid, exc_bind_ok]
    dsimp only
    have hsh3 : (⟨(pre ++ [obr] ++ ws2) ++ k ++ (' ' :: ('=' :: T2)),
        (pre ++ [obr] ++ ws2).length + k.length, l3, c3⟩ : NixParser) =
        ⟨(pre ++ [obr] ++ ws2 ++ k) ++ [' '] ++ ('=' :: T2),
          (pre ++ [obr] ++ ws2 ++ k).length, l3, c3⟩ := by
      simp
      omega
    rw [hsh3]
    obtain ⟨l4, c4, hsk2⟩ := skipWs_run [' '] (pre ++ [obr] ++ ws2 ++ k)
      ('=' :: T2) l3 c3 rfl
      (wsBoundary_of_head '=' _ (by decide) (by decide) (by decide))
    rw [hsk2]
    have hsh4 : (⟨(pre ++ [obr] ++ ws2 ++ k) ++ [' '] ++ ('=' :: T2),
        (pre ++ [obr] ++ ws2 ++ k).length + [' '].length, l4, c4⟩ : NixParser) =
        ⟨(pre ++ [obr] ++ ws2 ++ k ++ [' ']) ++ ('=' :: T2),
          (pre ++ [obr] ++ ws2 ++ k ++ [' ']).length, l4, c4⟩ := by
      simp
      omega
    rw [hsh4]
    have hcur2 : current ⟨(pre ++ [obr] ++ ws2 ++ k ++ [' ']) ++ ('=' :: T2),
        (pre ++ [obr] ++ ws2 ++ k ++ [' ']).length, l4, c4⟩ = some '=' := by
      rw [current_at]; rfl
    rw [hcur2]
    rw [if_neg (show ¬(some '=' = some ',') from by decide)]
    rw [fnParamsLoopF]
    rw [hcur2]
    rw [if_neg (by
      rintro (h | h)
      · exact absurd h (by decide)
      · cases h)]
    rw [if_neg (by
      rw [peekS_at]
      rw [show ("...".toList : List Char) = '.' :: ['.', '.'] from rfl]
      rw [litPre_head_ne '.' _ '=' _ (by decide)]
      decide)]
    obtain ⟨e, herr⟩ := parse_identifier_err (pre ++ [obr] ++ ws2 ++ k ++ [' '])
      ('=' :: T2) l4 c4
      (by unfold headStop; simp only [List.head?_cons]; decide)
    rw [herr, exc_bind_err]
    exact ⟨e, rfl⟩
  · -- the key is dotted: the loop stalls at `.`
    have hdrop : k.dropWhile identChar = '.' :: k3 := by
      rw [hk, List.dropWhile_cons, if_pos hic, hdk]
    have hsplitk : k = k.takeWhile identChar ++ ('.' :: k3) := by
      conv_lhs => rw [← List.takeWhile_append_dropWhile (p := identChar) (l := k)]
      rw [hdrop]
    have htkne : k.takeWhile identChar ≠ [] := by
      rw [hk, List.takeWhile_cons, if_pos hic]
      simp
    obtain ⟨l3, c3, hid⟩ := parse_identifier_run (k.takeWhile identChar)
      (pre ++ [obr] ++ ws2) (('.' :: k3) ++ (' ' :: ('=' :: T2))) l2 c2 htkne
      (all_takeWhile_self identChar k)
      (by unfold headStop
          simp only [List.cons_append, List.head?_cons]
          decide)
    rw [show (pre ++ [obr] ++ ws2) ++ (k ++ (' ' :: ('=' :: T2))) =
      (pre ++ [obr] ++ ws2) ++ k.takeWhile identChar ++
        (('.' :: k3) ++ (' ' :: ('=' :: T2))) from by
      conv_lhs => rw [hsplitk]
      simp]
    rw [hid, exc_bind_ok]
    dsimp only
    have hsh3 : (⟨(pre ++ [obr] ++ ws2) ++ k.takeWhile identChar ++
        (('.' :: k3) ++ (' ' :: ('=' :: T2))),
        (pre ++ [obr] ++ ws2).length + (k.takeWhile identChar).length,
        l3, c3⟩ : NixParser) =
        ⟨(pre ++ [obr] ++ ws2 ++ k.takeWhile identChar) ++
          ('.' :: (k3 ++ (' ' :: ('=' :: T2)))),
          (pre ++ [obr] ++ ws2 ++ k.takeWhile identChar).length, l3, c3⟩ := by
      simp
      omega
    rw [hsh3]
    rw [skipWs_noop (pre ++ [obr] ++ ws2 ++ k.takeWhile identChar)
      ('.' :: (k3 ++ (' ' :: ('=' :: T2)))) l3 c3
      (wsBoundary_of_head '.' _ (by decide) (by decide) (by decide))]
    have hcur2 : current ⟨(pre ++ [obr] ++ ws2 ++ k.takeWhile identChar) ++
        ('.' :: (k3 ++ (' ' :: ('=' :: T2)))),
        (pre ++ [obr] ++ ws2 ++ k.takeWhile identChar).length, l3, c3⟩ =
        some '.' := by
      rw [current_at]; rfl
    rw [hcur2]
    rw [if_neg (show ¬(some '.' = some ',') from by decide)]
    rw [fnParamsLoopF]
    rw [hcur2]
    rw [if_neg (by
      rintro (h | h)
      · exact absurd h (by decide)
      · cases h)]
    obtain ⟨e3, r3, hk3, hw1, hw2, hw3, hw4, hw5⟩ := segStart_head k3 hseg3
    rw [if_neg (by
      rw [peekS_at]
      rw [show ("...".toList : List Char) = '.' :: ['.', '.'] from rfl]
      rw [litPre_cons_same]
      rw [hk3, List.cons_append]
      rw [litPre_head_ne '.' _ e3 _ (fun hh => hw4 hh.symm)]
      decide)]
    obtain ⟨e, herr⟩ := parse_identifier_err
      (pre ++ [obr] ++ ws2 ++ k.takeWhile identChar)
      ('.' :: (k3 ++ (' ' :: ('=' :: T2)))) l3 c3
      (by unfold headStop; simp only [List.head?_cons]; decide)
    rw [herr, exc_bind_err]
    exact ⟨e, rfl⟩

theorem itemsCore_length (xs : List NixValue) (ind : Nat) (rest : List Char) :
    (itemsCore xs ind rest).length = itemsLen xs ind + rest.length := by
  induction xs with
  | nil =>
    show (']' :: rest).length = 1 + rest.length
    simp only [List.length_cons]
    omega
  | cons x xs2 ih =>
    show (render x (ind + 1) ++ (itemsWs xs2 ind ++ itemsCore xs2 ind rest)).length =
      (render x (ind + 1)).length + (itemsWs xs2 ind).length + itemsLen xs2 ind +
        rest.length
    simp only [List.length_append, ih]
    omega

theorem entriesCore_length (es : List (List Char × NixValue)) (ind : Nat)
    (close : List Char) :
    (entriesCore es ind close).length = entriesLen es ind + close.length := by
  induction es with
  | nil =>
    show close.length = 0 + close.length
    omega
  | cons e es2 ih =>
    obtain ⟨k, v⟩ := e
    show (k ++ (' ' :: ('=' :: (' ' :: (render v (ind + 1) ++
      (';' :: (entriesWs es2 ind ++ entriesCore es2 ind close))))))).length =
      k.length + 3 + (render v (ind + 1)).length + 1 +
        (entriesWs es2 ind).length + entriesLen es2 ind + close.length
    simp only [List.length_append, List.length_cons, ih]
    omega

/-- The inductive step of the round-trip: every well-formed value of size
`n + 1` is read back from its rendering, assuming all smaller values are. -/
theorem RT_step (n : Nat) (ih : RT n) : RT (n + 1) := by
  intro v hsz hwf ind pre rest l c fuel hfuel hrest
  cases v with
  | null =>
    have hf2 : (2 : Nat) ≤ fuel := hfuel
    cases fuel with
    | zero => omega
    | succ f =>
      obtain ⟨l2, c2, h⟩ := pv_null pre rest l c f
      exact ⟨l2, c2, h⟩
  | bool b =>
    have hf2 : (2 : Nat) ≤ fuel := hfuel
    cases fuel with
    | zero => omega
    | succ f =>
      cases b with
      | true =>
        obtain ⟨l2, c2, h⟩ := pv_true pre rest l c f
        exact ⟨l2, c2, h⟩
      | false =>
        obtain ⟨l2, c2, h⟩ := pv_false pre rest l c f
        exact ⟨l2, c2, h⟩
  | int n2 =>
    have hf2 : (2 : Nat) ≤ fuel := hfuel
    cases fuel with
    | zero => omega
    | succ f =>
      have hwf2 : (decide (-(2 ^ 63) ≤ n2) && decide (n2 ≤ 2 ^ 63 - 1)) = true := hwf
      simp only [Bool.and_eq_true, decide_eq_true_eq] at hwf2
      have hrest2 : (match rest.head? with
        | some c => !numChar c | none => true) = true := hrest
      have hstop : headStop numChar rest := by
        unfold headStop
        rcases h : rest.head? with _ | d
        · trivial
        · rw [h] at hrest2
          simp only [Bool.not_eq_true'] at hrest2
          exact hrest2
      obtain ⟨l2, c2, h⟩ := pv_int n2 pre rest l c f hwf2.1 hwf2.2 hstop
      exact ⟨l2, c2, h⟩
  | float q => simp [wfV] at hwf
  | str s =>
    have hf2 : (2 : Nat) ≤ fuel := hfuel
    cases fuel with
    | zero => omega
    | succ f =>
      have hbs : s.contains bs = false := by
        have hwf2 : (!(s.contains bs)) = true := hwf
        simp only [Bool.not_eq_true'] at hwf2
        exact hwf2
      obtain ⟨l2, c2, h⟩ := pv_str s pre rest l c f hbs
      refine ⟨l2, c2, ?_⟩
      rw [show pre ++ (render (.str s) ind ++ rest) =
        pre ++ (dq :: ((escQ s ++ [dq]) ++ rest)) from by
        show pre ++ ((dq :: (escQ s ++ [dq])) ++ rest) = _
        simp]
      rw [h]
      simp only [Except.ok.injEq, Prod.mk.injEq, NixParser.mk.injEq,
        true_and, and_true]
      have hrender : render (.str s) ind = dq :: (escQ s ++ [dq]) := rfl
      have hd : delta (.str s) rest = 0 := rfl
      rw [hrender, hd]
      simp only [List.length_cons, List.length_append, List.length_nil]
  | path s =>
    have hf2 : (2 : Nat) ≤ fuel := hfuel
    cases fuel with
    | zero => omega
    | succ f =>
      have hok : pathOk s = true := hwf
      have hrest2 : (match rest.head? with
        | some c => !pathChar c && !(c == '*') | none => true) = true := hrest
      have hstop : headStop pathChar rest := by
        unfold headStop
        rcases h : rest.head? with _ | d
        · trivial
        · rw [h] at hrest2
          simp only [Bool.and_eq_true, Bool.not_eq_true'] at hrest2
          exact hrest2.1
      have hb : wsBoundary (s ++ rest) = true :=
        render_wsBoundary (.path s) ind rest hwf hrest
      obtain ⟨l2, c2, h⟩ := pv_path s pre rest l c f hok hstop hb
      exact ⟨l2, c2, h⟩
  | var s =>
    have hf2 : (2 : Nat) ≤ fuel := hfuel
    cases fuel with
    | zero => omega
    | succ f =>
      have hvar : varOk s = true := hwf
      have hrest2 : ((((match rest.head? with
          | some c => !identChar c | none => true) &&
        wsStable rest) && ((afterWs rest).head? != some ':')) &&
          (match (afterWs rest).head? with
           | some c => !(c == '.') || (afterWs rest)[1]? == some '/'
           | none => true)) = true := hrest
      simp only [Bool.and_eq_true] at hrest2
      obtain ⟨⟨⟨ha, hb⟩, hc⟩, hd⟩ := hrest2
      have hr1 : headStop identChar rest := by
        unfold headStop
        rcases h : rest.head? with _ | d
        · trivial
        · rw [h] at ha
          simp only [Bool.not_eq_true'] at ha
          exact ha
      have hr3 : (afterWs rest).head? ≠ some ':' := by
        simp only [bne_iff_ne, ne_eq] at hc
        exact hc
      have hr4 : (afterWs rest).head? = some '.' → (afterWs rest)[1]? = some '/' := by
        intro hdd
        rw [hdd] at hd
        simp only [beq_self_eq_true, Bool.not_true, Bool.false_or] at hd
        exact eq_of_beq hd
      obtain ⟨l2, c2, h⟩ := pv_var s pre rest l c f hvar hr1 hb hr3 hr4
      exact ⟨l2, c2, h⟩
  | withE a b => simp [wfV] at hwf
  | inherit names => simp [wfV] at hwf
  | imprt s =>
    have hf3 : (3 : Nat) ≤ fuel := hfuel
    cases fuel with
    | zero => omega
    | succ f =>
    cases f with
    | zero => omega
    | succ g =>
      have hok : pathOk s = true := hwf
      have hrest2 : (match rest.head? with
        | some c => !pathChar c && !(c == '*') | none => true) = true := hrest
      have hstop : headStop pathChar rest := by
        unfold headStop
        rcases h : rest.head? with _ | d
        · trivial
        · rw [h] at hrest2
          simp only [Bool.and_eq_true, Bool.not_eq_true'] at hrest2
          exact hrest2.1
      have hsb : wsBoundary (s ++ rest) = true :=
        render_wsBoundary (.path s) ind rest hwf hrest
      have hshape : pre ++ (render (.imprt s) ind ++ rest) =
          pre ++ (("import".toList ++ [' ']) ++ (s ++ rest)) := by
        show pre ++ (("import ".toList ++ s) ++ rest) = _
        simp
      rw [hshape]
      have hskip := skipWs_noop pre (("import".toList ++ [' ']) ++ (s ++ rest)) l c
        (by rfl)
      have hcur : current ⟨pre ++ (("import".toList ++ [' ']) ++ (s ++ rest)),
          pre.length, l, c⟩ = some 'i' := by
        rw [current_at]; rfl
      rw [parseValue_kw (g + 1) _ 'i' hskip hcur (by decide) (by decide) (by decide)
        (by decide) (by rintro (h | ⟨h, -⟩) <;> exact absurd h (by decide))
        (by decide) (by decide)]
      have hp1 : peekS ⟨pre ++ (("import".toList ++ [' ']) ++ (s ++ rest)),
          pre.length, l, c⟩ "null" = false := by
        rw [peekS_at]; rfl
      have hp2 : peekS ⟨pre ++ (("import".toList ++ [' ']) ++ (s ++ rest)),
          pre.length, l, c⟩ "true" = false := by
        rw [peekS_at]; rfl
      have hp3 : peekS ⟨pre ++ (("import".toList ++ [' ']) ++ (s ++ rest)),
          pre.length, l, c⟩ "false" = false := by
        rw [peekS_at]; rfl
      have hp4 : peekS ⟨pre ++ (("import".toList ++ [' ']) ++ (s ++ rest)),
          pre.length, l, c⟩ "let" = false := by
        rw [peekS_at]; rfl
      have hp5 : peekS ⟨pre ++ (("import".toList ++ [' ']) ++ (s ++ rest)),
          pre.length, l, c⟩ "import" = true := by
        rw [peekS_at]
        rw [show ("import".toList ++ [' ']) ++ (s ++ rest) =
          "import".toList ++ (' ' :: (s ++ rest)) from by simp]
        exact litPre_append _ _
      rw [if_neg (by rw [hp1]; decide), if_neg (by rw [hp2]; decide),
        if_neg (by rw [hp3]; decide), if_neg (by rw [hp4]; decide), if_pos hp5]
      obtain ⟨l1, c1, hadv⟩ := advanceN_at 6 pre
        (("import".toList ++ [' ']) ++ (s ++ rest)) l c
      rw [hadv]
      have hsh : (⟨pre ++ (("import".toList ++ [' ']) ++ (s ++ rest)),
          pre.length + 6, l1, c1⟩ : NixParser) =
          ⟨(pre ++ "import".toList) ++ [' '] ++ (s ++ rest),
            (pre ++ "import".toList).length, l1, c1⟩ := by
        simp
      rw [hsh]
      obtain ⟨l2, c2, hsk⟩ := skipWs_run [' '] (pre ++ "import".toList)
        (s ++ rest) l1 c1 rfl hsb
      rw [hsk]
      have hsh2 : (⟨(pre ++ "import".toList) ++ [' '] ++ (s ++ rest),
          (pre ++ "import".toList).length + [' '].length, l2, c2⟩ : NixParser) =
          ⟨(pre ++ "import".toList ++ [' ']) ++ (s ++ rest),
            (pre ++ "import".toList ++ [' ']).length, l2, c2⟩ := by
        simp
      rw [hsh2]
      obtain ⟨l3, c3, hpv⟩ := pv_path s (pre ++ "import".toList ++ [' '])
        rest l2 c2 g hok hstop hsb
      rw [hpv, exc_bind_ok]
      dsimp only
      refine ⟨l3, c3, ?_⟩
      simp only [Except.ok.injEq, Prod.mk.injEq, NixParser.mk.injEq,
        List.length_append, List.length_cons, List.length_nil, true_and,
        and_true]
      have hd : delta (.imprt s) rest = 0 := rfl
      have hrl : (render (.imprt s) ind).length = 7 + s.length := by
        show ("import ".toList ++ s).length = _
        simp only [List.length_append]
        have h7 : ("import ".toList).length = 7 := rfl
        omega
      rw [hd, hrl]
      refine ⟨by simp, ?_⟩
      have h7 : ("import".toList).length = 6 := rfl
      omega
  | list items =>
    have hwfl : wfL items = true := hwf
    have hf : 2 + fuelForL items ≤ fuel := hfuel
    cases fuel with
    | zero => omega
    | succ f =>
      have hszl : nsizeL items ≤ n := by
        have : nsize (.list items) = 1 + nsizeL items := rfl
        omega
      have hskip := skipWs_noop pre (render (.list items) ind ++ rest) l c
        (by show wsBoundary ('[' :: ('\n' :: (renderItems items ind ++
              renderIndent ind ++ [']']) ++ rest)) = true
            exact wsBoundary_of_head '[' _ (by decide) (by decide) (by decide))
      have hcur : current ⟨pre ++ (render (.list items) ind ++ rest),
          pre.length, l, c⟩ = some '[' := by
        rw [current_at]; rfl
      rw [parseValue]
      rw [hskip, hcur, if_neg (by decide)]
      split
      · rename_i heq
        obtain ⟨l1, c1, hadv⟩ := advance_at pre '['
          (('\n' :: (renderItems items ind ++ renderIndent ind ++ [']'])) ++ rest)
          l c
        rw [show pre ++ (render (.list items) ind ++ rest) =
          pre ++ ('[' :: (('\n' :: (renderItems items ind ++ renderIndent ind ++
            [']'])) ++ rest)) from rfl]
        rw [hadv]
        have hsh : (⟨pre ++ ('[' :: (('\n' :: (renderItems items ind ++
            renderIndent ind ++ [']'])) ++ rest)), pre.length + 1, l1, c1⟩ :
            NixParser) =
            ⟨(pre ++ ['[']) ++ (itemsWs items ind ++ itemsCore items ind rest),
              (pre ++ ['[']).length, l1, c1⟩ := by
          rw [← itemsDecomp]
          simp
        rw [hsh]
        obtain ⟨l2, c2, hloop⟩ := listLoop n ih ind rest items hszl hwfl
          (itemsWs items ind) [] (pre ++ ['[']) l1 c1 f (by omega)
          (itemsWs_ws items ind)
        rw [hloop]
        refine ⟨l2, c2, ?_⟩
        simp only [Except.ok.injEq, Prod.mk.injEq, NixParser.mk.injEq,
          List.nil_append, true_and, and_true]
        have hlen : 1 + (itemsWs items ind).length + itemsLen items ind =
            (render (.list items) ind).length := by
          have h1 := congrArg List.length (itemsDecomp items ind rest)
          simp only [List.length_cons, List.length_append, List.length_nil] at h1
          have h2 := itemsCore_length items ind rest
          show _ = ('[' :: ('\n' :: (renderItems items ind ++
            renderIndent ind ++ [']']))).length
          simp only [List.length_cons, List.length_append, List.length_nil]
          omega
        have hd : delta (.list items) rest = 0 := rfl
        rw [hd]
        constructor
        · rw [← itemsDecomp]
          show (pre ++ ['[']) ++ ('\n' :: (renderItems items ind ++
            (renderIndent ind ++ (']' :: rest)))) =
            pre ++ (('[' :: ('\n' :: (renderItems items ind ++
              renderIndent ind ++ [']']))) ++ rest)
          simp
        · simp only [List.length_append, List.length_cons, List.length_nil] at hlen ⊢
          omega
      · rename_i c2 hne heq
        injection heq with h
        exact absurd h.symm hne
      · rename_i heq
        cases heq
  | attrSet attrs =>
    have hwf2 : (nodupKeys attrs && wfA attrs) = true := hwf
    simp only [Bool.and_eq_true] at hwf2
    obtain ⟨hnd, hwa⟩ := hwf2
    have hf : 3 + fuelForA attrs ≤ fuel := hfuel
    have hsza : nsizeA attrs ≤ n := by
      have : nsize (.attrSet attrs) = 1 + nsizeA attrs := rfl
      omega
    have hrest2 : (wsStable rest && ((afterWs rest).head? != some ':')) = true := hrest
    simp only [Bool.and_eq_true] at hrest2
    obtain ⟨hws, hcolon⟩ := hrest2
    have hcol : ¬((afterWs rest).head? = some ':') := by
      simp only [bne_iff_ne, ne_eq] at hcolon
      exact hcolon
    cases attrs with
    | nil =>
      cases fuel with
      | zero => simp [fuelForA] at hf
      | succ f =>
        have hT : pre ++ (render (.attrSet []) ind ++ rest) =
            pre ++ (obr :: ('\n' :: (renderIndent ind ++ (cbr :: rest)))) := by
          show pre ++ (((obr :: '\n' :: ([] : List Char)) ++ renderIndent ind ++
            [cbr]) ++ rest) = _
          simp
        rw [hT]
        have hskip := skipWs_noop pre
          (obr :: ('\n' :: (renderIndent ind ++ (cbr :: rest)))) l c
          (wsBoundary_of_head obr _ (by decide) (by decide) (by decide))
        have hcur : current ⟨pre ++ (obr :: ('\n' :: (renderIndent ind ++
            (cbr :: rest)))), pre.length, l, c⟩ = some obr := by
          rw [current_at]; rfl
        rw [parseValue]
        rw [hskip, hcur, if_pos rfl]
        dsimp only
        obtain ⟨la, ca, hfp⟩ := fnParams_empty ind pre rest l c
        rw [hfp]
        dsimp only
        have hr : rest.takeWhile isWs ++ afterWs rest = rest :=
          takeWhile_append_dropWhile isWs rest
        have hsh : (⟨pre ++ (obr :: ('\n' :: (renderIndent ind ++ (cbr :: rest)))),
            pre.length + (2 + (renderIndent ind).length + 1), la, ca⟩ : NixParser) =
            ⟨(pre ++ (obr :: ('\n' :: (renderIndent ind ++ [cbr])))) ++
              rest.takeWhile isWs ++ afterWs rest,
              (pre ++ (obr :: ('\n' :: (renderIndent ind ++ [cbr])))).length,
              la, ca⟩ := by
          have h1 : (pre ++ (obr :: ('\n' :: (renderIndent ind ++ [cbr])))) ++
              rest.takeWhile isWs ++ afterWs rest =
              pre ++ (obr :: ('\n' :: (renderIndent ind ++ (cbr :: rest)))) := by
            simp only [List.append_assoc, hr]
            simp
          have h2 : (pre ++ (obr :: ('\n' :: (renderIndent ind ++ [cbr])))).length =
              pre.length + (2 + (renderIndent ind).length + 1) := by
            simp only [List.length_append, List.length_cons, List.length_nil]
            omega
          rw [h1, h2]
        rw [hsh]
        obtain ⟨lb, cb, hsk⟩ := skipWs_run (rest.takeWhile isWs)
          (pre ++ (obr :: ('\n' :: (renderIndent ind ++ [cbr])))) (afterWs rest)
          la ca (all_takeWhile_self isWs rest) hws
        rw [hsk]
        have hsh2 : (⟨(pre ++ (obr :: ('\n' :: (renderIndent ind ++ [cbr])))) ++
            rest.takeWhile isWs ++ afterWs rest,
            (pre ++ (obr :: ('\n' :: (renderIndent ind ++ [cbr])))).length +
              (rest.takeWhile isWs).length, lb, cb⟩ : NixParser) =
            ⟨((pre ++ (obr :: ('\n' :: (renderIndent ind ++ [cbr])))) ++
              rest.takeWhile isWs) ++ afterWs rest,
              ((pre ++ (obr :: ('\n' :: (renderIndent ind ++ [cbr])))) ++
                rest.takeWhile isWs).length, lb, cb⟩ := by
          simp only [NixParser.mk.injEq, List.append_assoc, List.length_append]
          repeat' apply And.intro
          all_goals first | rfl | trivial | omega | simp
        rw [hsh2]
        dsimp only
        rw [current_at]
        rw [if_neg hcol]
        have heq : ((pre ++ (obr :: ('\n' :: (renderIndent ind ++ [cbr])))) ++
            rest.takeWhile isWs) ++ afterWs rest =
            pre ++ obr :: (('\n' :: renderIndent ind) ++ (cbr :: rest)) := by
          simp only [List.append_assoc, hr]
          simp
        rw [heq]
        cases f with
        | zero => omega
        | succ f2 =>
          rw [parseAttrset]
          obtain ⟨l1, c1, hadv⟩ := advance_at pre obr
            (('\n' :: renderIndent ind) ++ (cbr :: rest)) l c
          rw [hadv]
          have hsh3 : (⟨pre ++ obr :: (('\n' :: renderIndent ind) ++ (cbr :: rest)),
              pre.length + 1, l1, c1⟩ : NixParser) =
              ⟨(pre ++ [obr]) ++ (('\n' :: renderIndent ind) ++ (cbr :: rest)),
                (pre ++ [obr]).length, l1, c1⟩ := by
            simp
          rw [hsh3]
          obtain ⟨l2, c2, hloop⟩ := attrLoop n ih ind rest [] (by simp [nsizeA])
            rfl (entriesWs [] ind) [] (pre ++ [obr]) l1 c1 f2 (by
              show fuelForA [] ≤ f2
              simp only [fuelForA]
              omega) (entriesWs_ws [] ind) rfl
          have hloop2 : parseAttrsetLoop f2 []
              (skip_whitespace ⟨(pre ++ [obr]) ++
                (('\n' :: renderIndent ind) ++ (cbr :: rest)),
                (pre ++ [obr]).length, l1, c1⟩) =
              .ok (.attrSet [], ⟨(pre ++ [obr]) ++
                (('\n' :: renderIndent ind) ++ (cbr :: rest)),
                (pre ++ [obr]).length + (('\n' :: renderIndent ind).length +
                  (0 + 1)), l2, c2⟩) := hloop
          rw [hloop2]
          refine ⟨l2, c2, ?_⟩
          simp only [Except.ok.injEq, Prod.mk.injEq, NixParser.mk.injEq,
            true_and, and_true]
          have hrl : (render (.attrSet ([] : List (List Char × NixValue))) ind).length =
              3 + (renderIndent ind).length := by
            show (obr :: '\n' :: (renderIndent ind ++ [cbr])).length = _
            simp only [List.length_cons, List.length_append, List.length_nil]
            omega
          have hd : delta (.attrSet ([] : List (List Char × NixValue))) rest = 0 := rfl
          rw [hd, hrl]
          refine ⟨by simp, ?_⟩
          simp only [List.length_append, List.length_cons, List.length_nil]
          omega
    | cons kv es2 =>
      obtain ⟨k, v⟩ := kv
      have hwa2 : ((keyOk k && wfV v) && wfA es2) = true := hwa
      simp only [Bool.and_eq_true] at hwa2
      obtain ⟨⟨hk, hv⟩, hwes2⟩ := hwa2
      cases fuel with
      | zero => omega
      | succ f =>
        have hT : pre ++ (render (.attrSet ((k, v) :: es2)) ind ++ rest) =
            pre ++ (obr :: (entriesWs ((k, v) :: es2) ind ++
              entriesCore ((k, v) :: es2) ind (cbr :: rest))) := by
          rw [← entriesDecomp]
          show pre ++ ((obr :: '\n' :: renderEntries ((k, v) :: es2) ind ++
            renderIndent ind ++ [cbr]) ++ rest) = _
          simp
        rw [hT]
        have hwsb : wsBoundary (obr :: (entriesWs ((k, v) :: es2) ind ++
            entriesCore ((k, v) :: es2) ind (cbr :: rest))) = true :=
          wsBoundary_of_head obr _ (by decide) (by decide) (by decide)
        have hskip := skipWs_noop pre
          (obr :: (entriesWs ((k, v) :: es2) ind ++
            entriesCore ((k, v) :: es2) ind (cbr :: rest))) l c hwsb
        have hcur : current ⟨pre ++ (obr :: (entriesWs ((k, v) :: es2) ind ++
            entriesCore ((k, v) :: es2) ind (cbr :: rest))),
            pre.length, l, c⟩ = some obr := by
          rw [current_at]; rfl
        rw [parseValue]
        rw [hskip, hcur, if_pos rfl]
        dsimp only
        obtain ⟨e, hfp⟩ := fnParams_err k
          (' ' :: (render v (ind + 1) ++ (';' :: (entriesWs es2 ind ++
            entriesCore es2 ind (cbr :: rest)))))
          (entriesWs ((k, v) :: es2) ind) pre l c hk
          (entriesWs_ws ((k, v) :: es2) ind)
        have hfp2 : parse_function_params
            ⟨pre ++ (obr :: (entriesWs ((k, v) :: es2) ind ++
              entriesCore ((k, v) :: es2) ind (cbr :: rest))),
              pre.length, l, c⟩ = .error e := hfp
        rw [hfp2]
        dsimp only
        cases f with
        | zero => omega
        | succ f2 =>
          rw [parseAttrset]
          obtain ⟨l1, c1, hadv⟩ := advance_at pre obr
            (entriesWs ((k, v) :: es2) ind ++
              entriesCore ((k, v) :: es2) ind (cbr :: rest)) l c
          rw [hadv]
          have hsh3 : (⟨pre ++ obr :: (entriesWs ((k, v) :: es2) ind ++
              entriesCore ((k, v) :: es2) ind (cbr :: rest)),
              pre.length + 1, l1, c1⟩ : NixParser) =
              ⟨(pre ++ [obr]) ++ (entriesWs ((k, v) :: es2) ind ++
                entriesCore ((k, v) :: es2) ind (cbr :: rest)),
                (pre ++ [obr]).length, l1, c1⟩ := by
            simp
          rw [hsh3]
          obtain ⟨l2, c2, hloop⟩ := attrLoop n ih ind rest ((k, v) :: es2) hsza hwa
            (entriesWs ((k, v) :: es2) ind) [] (pre ++ [obr]) l1 c1 f2
            (by omega) (entriesWs_ws ((k, v) :: es2) ind) (by simpa using hnd)
          rw [hloop]
          refine ⟨l2, c2, ?_⟩
          simp only [Except.ok.injEq, Prod.mk.injEq, NixParser.mk.injEq,
            List.nil_append, true_and, and_true]
          have hd : delta (.attrSet ((k, v) :: es2)) rest = 0 := rfl
          have hrl : (render (.attrSet ((k, v) :: es2)) ind).length =
              2 + (renderEntries ((k, v) :: es2) ind).length +
                (renderIndent ind).length + 1 := by
            show (obr :: '\n' :: renderEntries ((k, v) :: es2) ind ++
              renderIndent ind ++ [cbr]).length = _
            simp only [List.length_cons, List.length_append, List.length_nil]
            omega
          rw [hd, hrl]
          have hlen2 := congrArg List.length
            (entriesDecomp ((k, v) :: es2) ind (cbr :: rest))
          simp only [List.length_cons, List.length_append] at hlen2
          have hlen3 := entriesCore_length ((k, v) :: es2) ind (cbr :: rest)
          simp only [List.length_cons] at hlen3
          constructor
          · simp
          · simp only [List.length_append, List.length_cons, List.length_nil] at hlen2 ⊢
            omega
  | letE binds body =>
    have hwf2 : (nodupKeys binds && wfBinds binds && wfV body) = true := hwf
    simp only [Bool.and_eq_true] at hwf2
    obtain ⟨⟨hnd, hwbinds⟩, hwbody⟩ := hwf2
    have hf : 3 + fuelForA binds + fuelFor body ≤ fuel := hfuel
    have hszb : nsize body ≤ n := by
      have : nsize (.letE binds body) = 1 + nsizeA binds + nsize body := rfl
      omega
    have hsza : nsizeA binds ≤ n := by
      have : nsize (.letE binds body) = 1 + nsizeA binds + nsize body := rfl
      omega
    have hrb : restStop body rest = true := hrest
    cases fuel with
    | zero => omega
    | succ f =>
      have hskip := skipWs_noop pre (render (.letE binds body) ind ++ rest) l c
        (by show wsBoundary ('l' :: ("et\n".toList ++ (renderEntries binds ind ++
              renderIndent ind ++ "in ".toList ++ render body ind) ++ rest)) = true
            exact wsBoundary_of_head 'l' _ (by decide) (by decide) (by decide))
      have hcur : current ⟨pre ++ (render (.letE binds body) ind ++ rest),
          pre.length, l, c⟩ = some 'l' := by
        rw [current_at]; rfl
      rw [parseValue_kw f _ 'l' hskip hcur (by decide) (by decide) (by decide)
        (by decide) (by rintro (h | ⟨h, -⟩) <;> exact absurd h (by decide))
        (by decide) (by decide)]
      have hp1 : peekS ⟨pre ++ (render (.letE binds body) ind ++ rest),
          pre.length, l, c⟩ "null" = false := by
        rw [peekS_at]; rfl
      have hp2 : peekS ⟨pre ++ (render (.letE binds body) ind ++ rest),
          pre.length, l, c⟩ "true" = false := by
        rw [peekS_at]; rfl
      have hp3 : peekS ⟨pre ++ (render (.letE binds body) ind ++ rest),
          pre.length, l, c⟩ "false" = false := by
        rw [peekS_at]; rfl
      have hp4 : peekS ⟨pre ++ (render (.letE binds body) ind ++ rest),
          pre.length, l, c⟩ "let" = true := by
        rw [peekS_at]
        show litPre "let".toList (("let\n".toList ++ (renderEntries binds ind ++
          renderIndent ind ++ "in ".toList ++ render body ind)) ++ rest) = true
        rw [show ("let\n".toList ++ (renderEntries binds ind ++
          renderIndent ind ++ "in ".toList ++ render body ind)) ++ rest =
          "let".toList ++ ('\n' :: ((renderEntries binds ind ++
            renderIndent ind ++ "in ".toList ++ render body ind) ++ rest))
          from by simp]
        exact litPre_append _ _
      rw [if_neg (by rw [hp1]; decide), if_neg (by rw [hp2]; decide),
        if_neg (by rw [hp3]; decide), if_pos hp4]
      cases f with
      | zero => omega
      | succ f2 =>
        rw [parseLet]
        obtain ⟨l1, c1, hadv⟩ := advanceN_at 3 pre
          (render (.letE binds body) ind ++ rest) l c
        rw [hadv]
        have hsh : (⟨pre ++ (render (.letE binds body) ind ++ rest),
            pre.length + 3, l1, c1⟩ : NixParser) =
            ⟨(pre ++ "let".toList) ++ (entriesWs binds ind ++
              entriesCore binds ind ("in ".toList ++ (render body ind ++ rest))),
              (pre ++ "let".toList).length, l1, c1⟩ := by
          rw [← entriesDecomp]
          show (⟨pre ++ (("let\n".toList ++ (renderEntries binds ind ++
            renderIndent ind ++ "in ".toList ++ render body ind)) ++ rest),
            pre.length + 3, l1, c1⟩ : NixParser) = _
          have h3 : ("let".toList).length = 3 := rfl
          simp only [NixParser.mk.injEq, List.length_append, h3]
          repeat' apply And.intro
          all_goals first | rfl | omega | simp
        rw [hsh]
        obtain ⟨l2, c2, hloop⟩ := letLoop n ih ind rest body hwbody hszb hrb
          binds hsza hwbinds (entriesWs binds ind) [] (pre ++ "let".toList)
          l1 c1 f2 (by omega) (entriesWs_ws binds ind) (by simpa using hnd)
        rw [hloop]
        refine ⟨l2, c2, ?_⟩
        simp only [Except.ok.injEq, Prod.mk.injEq, NixParser.mk.injEq,
          List.nil_append, true_and, and_true]
        have hdel : delta (.letE binds body) rest = delta body rest := rfl
        have hlen : (render (.letE binds body) ind).length =
            4 + (renderEntries binds ind).length + (renderIndent ind).length +
              3 + (render body ind).length := by
          show ("let\n".toList ++ (renderEntries binds ind ++
            renderIndent ind ++ "in ".toList ++ render body ind)).length = _
          simp only [List.length_append]
          have h4 : ("let\n".toList).length = 4 := rfl
          have h3 : ("in ".toList).length = 3 := rfl
          omega
        have hlen2 := congrArg List.length
          (entriesDecomp binds ind ("in ".toList ++ (render body ind ++ rest)))
        simp only [List.length_cons, List.length_append] at hlen2
        have hlen3 := entriesCore_length binds ind
          ("in ".toList ++ (render body ind ++ rest))
        simp only [List.length_append] at hlen3
        constructor
        · rw [← entriesDecomp]
          show (pre ++ "let".toList) ++ ('\n' :: (renderEntries binds ind ++
            (renderIndent ind ++ ("in ".toList ++ (render body ind ++ rest))))) =
            pre ++ (("let\n".toList ++ (renderEntries binds ind ++
              renderIndent ind ++ "in ".toList ++ render body ind)) ++ rest)
          simp
        · rw [hdel, hlen]
          have h3 : ("in ".toList).length = 3 := rfl
          have h3b : ("let".toList).length = 3 := rfl
          simp only [List.length_append] at hlen2 ⊢
          omega
  | fn params body =>
    have hf : 2 + fuelFor body ≤ fuel := hfuel
    have hszb : nsize body ≤ n := by
      have : nsize (.fn params body) = 1 + nsize body := rfl
      omega
    have hrb : restStop body rest = true := hrest
    cases params with
    | nil => exact Bool.noConfusion (show false = true from hwf)
    | cons p0 ptl =>
      cases ptl with
      | nil =>
        have h2 : (varOk p0 && wfV body) = true := hwf
        simp only [Bool.and_eq_true] at h2
        obtain ⟨hp0, hwb⟩ := h2
        cases p0 with
        | nil => simp [varOk] at hp0
        | cons c0 s1 =>
          have hv2 := hp0
          simp only [varOk, identText, Bool.and_eq_true, Bool.not_eq_true'] at hv2
          obtain ⟨⟨⟨⟨⟨-, hall⟩, -⟩, -⟩, -⟩, -⟩ := hv2
          cases fuel with
          | zero => omega
          | succ f =>
            have hT : pre ++ (render (.fn [c0 :: s1] body) ind ++ rest) =
                pre ++ ((c0 :: s1) ++ (':' :: (' ' :: (render body ind ++
                  rest)))) := by
              show pre ++ (((c0 :: s1) ++ (':' :: (' ' :: render body ind))) ++
                rest) = _
              simp
            rw [hT]
            rw [pv_attr c0 s1 (':' :: (' ' :: (render body ind ++ rest))) pre l c f
              hp0 (by
                intro d hd
                simp only [List.head?_cons, Option.some.injEq] at hd
                subst hd
                decide)]
            have hsh : (⟨pre ++ ((c0 :: s1) ++ (':' :: (' ' ::
                (render body ind ++ rest)))), pre.length, l, c⟩ : NixParser) =
                ⟨pre ++ (c0 :: s1) ++ (':' :: (' ' :: (render body ind ++ rest))),
                  pre.length, l, c⟩ := by
              simp
            rw [hsh]
            have hr1 : headStop identChar (':' :: (' ' ::
                (render body ind ++ rest))) := by
              show identChar ':' = false
              decide
            have hws2 : wsStable (':' :: (' ' :: (render body ind ++ rest))) =
                true := rfl
            have hr4 : (afterWs (':' :: (' ' :: (render body ind ++
                rest)))).head? = some '.' →
                (afterWs (':' :: (' ' :: (render body ind ++ rest))))[1]? =
                  some '/' := by
              intro h
              have h2 : (some ':' : Option Char) = some '.' := h
              exact absurd (Option.some.inj h2) (by decide)
            obtain ⟨l1, c1, hattr⟩ := attrPath_var (c0 :: s1) pre
              (':' :: (' ' :: (render body ind ++ rest))) l c
              (by simp) hall hr1 hws2 hr4
            rw [hattr, exc_bind_ok]
            dsimp only
            have htw : ((':' :: (' ' :: (render body ind ++
              rest))).takeWhile isWs) = [] := rfl
            have hsh2 : (⟨pre ++ (c0 :: s1) ++ (':' :: (' ' ::
                (render body ind ++ rest))),
                pre.length + (c0 :: s1).length +
                  ((':' :: (' ' :: (render body ind ++
                    rest))).takeWhile isWs).length, l1, c1⟩ : NixParser) =
                ⟨(pre ++ (c0 :: s1)) ++ (':' :: (' ' :: (render body ind ++ rest))),
                  (pre ++ (c0 :: s1)).length, l1, c1⟩ := by
              rw [htw]
              simp
            rw [hsh2]
            have hskip2 := skipWs_noop (pre ++ (c0 :: s1))
              (':' :: (' ' :: (render body ind ++ rest))) l1 c1
              (wsBoundary_of_head ':' _ (by decide) (by decide) (by decide))
            rw [hskip2]
            have hcur2 : current ⟨(pre ++ (c0 :: s1)) ++
                (':' :: (' ' :: (render body ind ++ rest))),
                (pre ++ (c0 :: s1)).length, l1, c1⟩ = some ':' := by
              rw [current_at]; rfl
            rw [hcur2, if_pos rfl]
            obtain ⟨la, ca, hadv⟩ := advance_at (pre ++ (c0 :: s1)) ':'
              (' ' :: (render body ind ++ rest)) l1 c1
            rw [hadv]
            have hsh3 : (⟨(pre ++ (c0 :: s1)) ++ (':' :: (' ' ::
                (render body ind ++ rest))),
                (pre ++ (c0 :: s1)).length + 1, la, ca⟩ : NixParser) =
                ⟨((pre ++ (c0 :: s1)) ++ [':']) ++ [' '] ++
                  (render body ind ++ rest),
                  ((pre ++ (c0 :: s1)) ++ [':']).length, la, ca⟩ := by
              simp
              omega
            rw [hsh3]
            obtain ⟨lb, cb, hskr⟩ := skipWs_run [' ']
              ((pre ++ (c0 :: s1)) ++ [':']) (render body ind ++ rest) la ca rfl
              (render_wsBoundary body ind rest hwb hrb)
            rw [hskr]
            have hsh4 : (⟨((pre ++ (c0 :: s1)) ++ [':']) ++ [' '] ++
                (render body ind ++ rest),
                ((pre ++ (c0 :: s1)) ++ [':']).length + [' '].length,
                lb, cb⟩ : NixParser) =
                ⟨(((pre ++ (c0 :: s1)) ++ [':']) ++ [' ']) ++
                  (render body ind ++ rest),
                  (((pre ++ (c0 :: s1)) ++ [':']) ++ [' ']).length, lb, cb⟩ := by
              simp
              omega
            rw [hsh4]
            obtain ⟨l3, c3, hbody⟩ := ih body hszb hwb ind
              (((pre ++ (c0 :: s1)) ++ [':']) ++ [' ']) rest lb cb f
              (by omega) hrb
            rw [hbody, exc_bind_ok]
            dsimp only
            refine ⟨l3, c3, ?_⟩
            simp only [Except.ok.injEq, Prod.mk.injEq, NixParser.mk.injEq,
              true_and, and_true]
            have hd : delta (.fn [c0 :: s1] body) rest = delta body rest := rfl
            have hrl : (render (.fn [c0 :: s1] body) ind).length =
                (c0 :: s1).length + 2 + (render body ind).length := by
              show ((c0 :: s1) ++ (':' :: (' ' :: render body ind))).length = _
              simp only [List.length_append, List.length_cons]
              omega
            rw [hd, hrl]
            constructor
            · simp
            · simp only [List.length_append, List.length_cons, List.length_nil]
              omega
      | cons p1 ps =>
        have h2 : ((!(p0 :: p1 :: ps).isEmpty &&
            (p0 :: p1 :: ps).all identText) && wfV body) = true := hwf
        simp only [Bool.and_eq_true] at h2
        obtain ⟨⟨-, hall⟩, hwb⟩ := h2
        cases fuel with
        | zero => omega
        | succ f =>
          have hT : pre ++ (render (.fn (p0 :: p1 :: ps) body) ind ++ rest) =
              pre ++ (obr :: (' ' :: ((joinParams (p0 :: p1 :: ps) ++
                ", ... ".toList) ++ (cbr :: (':' :: (' ' ::
                  (render body ind ++ rest))))))) := by
            show pre ++ ((obr :: ' ' :: joinParams (p0 :: p1 :: ps) ++
              ", ... ".toList ++ cbr :: ':' :: ' ' :: render body ind) ++
              rest) = _
            simp
          rw [hT]
          have hskip := skipWs_noop pre
            (obr :: (' ' :: ((joinParams (p0 :: p1 :: ps) ++ ", ... ".toList) ++
              (cbr :: (':' :: (' ' :: (render body ind ++ rest))))))) l c
            (wsBoundary_of_head obr _ (by decide) (by decide) (by decide))
          have hcur : current ⟨pre ++ (obr :: (' ' ::
              ((joinParams (p0 :: p1 :: ps) ++ ", ... ".toList) ++
                (cbr :: (':' :: (' ' :: (render body ind ++ rest))))))),
              pre.length, l, c⟩ = some obr := by
            rw [current_at]; rfl
          rw [parseValue]
          rw [hskip, hcur, if_pos rfl]
          dsimp only
          obtain ⟨la, ca, hfp⟩ := fnParams_run (p0 :: p1 :: ps) (by simp) hall pre
            (':' :: (' ' :: (render body ind ++ rest))) l c
          rw [hfp]
          dsimp only
          have e1 : (pre ++ (obr :: (' ' :: ((joinParams (p0 :: p1 :: ps) ++
              ", ... ".toList) ++ [cbr])))) ++
              (':' :: (' ' :: (render body ind ++ rest))) =
              pre ++ (obr :: (' ' :: ((joinParams (p0 :: p1 :: ps) ++
                ", ... ".toList) ++ (cbr :: (':' :: (' ' ::
                  (render body ind ++ rest))))))) := by
            simp
          have e2 : (pre ++ (obr :: (' ' :: ((joinParams (p0 :: p1 :: ps) ++
              ", ... ".toList) ++ [cbr])))).length =
              pre.length + (2 + ((joinParams (p0 :: p1 :: ps) ++
                ", ... ".toList).length + 1)) := by
            simp only [List.length_append, List.length_cons, List.length_nil]
            omega
          have hshp : (⟨pre ++ (obr :: (' ' :: ((joinParams (p0 :: p1 :: ps) ++
              ", ... ".toList) ++ (cbr :: (':' :: (' ' ::
                (render body ind ++ rest))))))),
              pre.length + (2 + ((joinParams (p0 :: p1 :: ps) ++
                ", ... ".toList).length + 1)), la, ca⟩ : NixParser) =
              ⟨(pre ++ (obr :: (' ' :: ((joinParams (p0 :: p1 :: ps) ++
                ", ... ".toList) ++ [cbr])))) ++
                (':' :: (' ' :: (render body ind ++ rest))),
                (pre ++ (obr :: (' ' :: ((joinParams (p0 :: p1 :: ps) ++
                  ", ... ".toList) ++ [cbr])))).length, la, ca⟩ := by
            rw [← e1, e2]
          rw [hshp]
          have hskip2 := skipWs_noop (pre ++ (obr :: (' ' ::
              ((joinParams (p0 :: p1 :: ps) ++ ", ... ".toList) ++ [cbr]))))
            (':' :: (' ' :: (render body ind ++ rest))) la ca
            (wsBoundary_of_head ':' _ (by decide) (by decide) (by decide))
          rw [hskip2]
          have hcur2 : current ⟨(pre ++ (obr :: (' ' ::
              ((joinParams (p0 :: p1 :: ps) ++ ", ... ".toList) ++ [cbr])))) ++
              (':' :: (' ' :: (render body ind ++ rest))),
              (pre ++ (obr :: (' ' :: ((joinParams (p0 :: p1 :: ps) ++
                ", ... ".toList) ++ [cbr])))).length, la, ca⟩ = some ':' := by
            rw [current_at]; rfl
          rw [hcur2, if_pos rfl]
          obtain ⟨lb, cb, hadv⟩ := advance_at (pre ++ (obr :: (' ' ::
            ((joinParams (p0 :: p1 :: ps) ++ ", ... ".toList) ++ [cbr])))) ':'
            (' ' :: (render body ind ++ rest)) la ca
          rw [hadv]
          have hsh3 : (⟨(pre ++ (obr :: (' ' :: ((joinParams (p0 :: p1 :: ps) ++
              ", ... ".toList) ++ [cbr])))) ++
              (':' :: (' ' :: (render body ind ++ rest))),
              (pre ++ (obr :: (' ' :: ((joinParams (p0 :: p1 :: ps) ++
                ", ... ".toList) ++ [cbr])))).length + 1, lb, cb⟩ : NixParser) =
              ⟨((pre ++ (obr :: (' ' :: ((joinParams (p0 :: p1 :: ps) ++
                ", ... ".toList) ++ [cbr])))) ++ [':']) ++ [' '] ++
                (render body ind ++ rest),
                ((pre ++ (obr :: (' ' :: ((joinParams (p0 :: p1 :: ps) ++
                  ", ... ".toList) ++ [cbr])))) ++ [':']).length, lb, cb⟩ := by
            simp
            omega
          rw [hsh3]
          obtain ⟨lc, cc, hskr⟩ := skipWs_run [' ']
            ((pre ++ (obr :: (' ' :: ((joinParams (p0 :: p1 :: ps) ++
              ", ... ".toList) ++ [cbr])))) ++ [':'])
            (render body ind ++ rest) lb cb rfl
            (render_wsBoundary body ind rest hwb hrb)
          rw [hskr]
          have hsh4 : (⟨((pre ++ (obr :: (' ' :: ((joinParams (p0 :: p1 :: ps) ++
              ", ... ".toList) ++ [cbr])))) ++ [':']) ++ [' '] ++
              (render body ind ++ rest),
              ((pre ++ (obr :: (' ' :: ((joinParams (p0 :: p1 :: ps) ++
                ", ... ".toList) ++ [cbr])))) ++ [':']).length + [' '].length,
              lc, cc⟩ : NixParser) =
              ⟨(((pre ++ (obr :: (' ' :: ((joinParams (p0 :: p1 :: ps) ++
                ", ... ".toList) ++ [cbr])))) ++ [':']) ++ [' ']) ++
                (render body ind ++ rest),
                (((pre ++ (obr :: (' ' :: ((joinParams (p0 :: p1 :: ps) ++
                  ", ... ".toList) ++ [cbr])))) ++ [':']) ++ [' ']).length,
                lc, cc⟩ := by
            simp
            omega
          rw [hsh4]
          obtain ⟨l3, c3, hbody⟩ := ih body hszb hwb ind
            (((pre ++ (obr :: (' ' :: ((joinParams (p0 :: p1 :: ps) ++
              ", ... ".toList) ++ [cbr])))) ++ [':']) ++ [' ']) rest lc cc f
            (by omega) hrb
          rw [hbody, exc_bind_ok]
          dsimp only
          refine ⟨l3, c3, ?_⟩
          simp only [Except.ok.injEq, Prod.mk.injEq, NixParser.mk.injEq,
            true_and, and_true]
          have hd : delta (.fn (p0 :: p1 :: ps) body) rest =
              delta body rest := rfl
          have hrl : (render (.fn (p0 :: p1 :: ps) body) ind).length =
              (joinParams (p0 :: p1 :: ps)).length +
                (", ... ".toList).length + (render body ind).length + 5 := by
            show ((obr :: ' ' :: joinParams (p0 :: p1 :: ps) ++
              ", ... ".toList ++ cbr :: ':' :: ' ' ::
                render body ind)).length = _
            simp only [List.length_append, List.length_cons]
            omega
          rw [hd, hrl]
          constructor
          · simp
          · simp only [List.length_append, List.length_cons, List.length_nil]
            omega

/-- Every value tree has at least one node. -/
theorem nsize_pos (v : NixValue) : 1 ≤ nsize v := by
  cases v <;> simp [nsize] <;> omega

/-- The round-trip property at every size bound, by induction on the bound. -/
theorem roundTrip (n : Nat) : RT n := by
  induction n with
  | zero =>
    intro v hsz _ _ _ _ _ _ _ _ _
    have := nsize_pos v
    omega
  | succ n ih => exact RT_step n ih

/-- Printing a well-formed value and reparsing the text returns the same
value: the restricted round trip at the whole-program entry point. -/
theorem parse_render (v : NixValue) (hwf : wfV v = true) (ind fuel : Nat)
    (hfuel : fuelFor v ≤ fuel) :
    parse_nix_string fuel (render v ind) = .ok v := by
  obtain ⟨l2, c2, h⟩ := roundTrip (nsize v) v le_rfl hwf ind [] [] 1 1 fuel hfuel
    (restStop_nil v)
  simp only [List.nil_append, List.append_nil, List.length_nil] at h
  unfold parse_nix_string parse NixParser.new
  rw [h]
  rfl



/-- C1: for every input whose next non-whitespace character is the opening
brace, `parse_value` first attempts `parse_function_params`; on success with
a following `:` it commits to a Function node, otherwise it re-parses the
same span as an attribute set from the exact saved position, line and
column.  Concretely, a parameter-list header yields a Function whose
parameters are the collected identifiers (the dots marker is dropped), and
a binding form yields an AttrSet. -/
theorem C1_brace_dispatch :
    (∀ (fuel : Nat) (p0 : NixParser),
      current (skip_whitespace p0) = some obr →
      parseValue (fuel + 1) p0 =
        (match parse_function_params (skip_whitespace p0) with
         | .ok (params, p1) =>
           if current (skip_whitespace p1) = some ':' then do
             let (body, p3) ←
               parseValue fuel (skip_whitespace (advance (skip_whitespace p1)))
             .ok (.fn params body, p3)
           else
             parseAttrset fuel ⟨(skip_whitespace p1).input,
               (skip_whitespace p0).pos, (skip_whitespace p0).line,
               (skip_whitespace p0).col⟩
         | .error _ =>
           parseAttrset fuel ⟨(skip_whitespace p0).input,
             (skip_whitespace p0).pos, (skip_whitespace p0).line,
             (skip_whitespace p0).col⟩)) ∧
    parse_nix_string 50 "\x7b a, b, ... \x7d: a".toList =
      .ok (.fn ["a".toList, "b".toList] (.var "a".toList)) ∧
    parse_nix_string 50 "\x7b a = 1; \x7d".toList =
      .ok (.attrSet [("a".toList, .int 1)]) := by
  refine ⟨?_, rfl, rfl⟩
  intro fuel p0 h
  rw [parseValue]
  dsimp only
  rw [if_pos h]

/-- C2 (amended): printing a well-formed value and reparsing the text
returns the same value.  The original claim over every printable variant
fails on floats (see the counterexample); it holds on the `wfV` class:
floats excluded, strings without a backslash, path/variable/key/parameter
texts the scanners read back, functions with at least one parameter. -/
theorem C2_print_parse_roundtrip (v : NixValue) (hwf : wfV v = true)
    (ind fuel : Nat) (hfuel : fuelFor v ≤ fuel) :
    parse_nix_string fuel (render v ind) = .ok v :=
  parse_render v hwf ind fuel hfuel

/-- Witness for C2: a concrete attrset round-trips at the entry point. -/
theorem C2_print_parse_roundtrip_witness :
    parse_nix_string 10 (render (.attrSet [("a".toList, .int 1)]) 0) =
      .ok (.attrSet [("a".toList, .int 1)]) :=
  C2_print_parse_roundtrip (.attrSet [("a".toList, .int 1)]) (by decide) 0 10
    (by decide)

/-- Counterexample for C2 as frozen: the float 1 prints as a bare digit
(`Display` for an integral `f64` emits no decimal point), which reparses as
an Int, not a Float. -/
theorem C2_float_counterexample :
    parse_nix_string 50 (render (.float 1) 0) = .ok (.int 1) ∧
      NixValue.int 1 ≠ NixValue.float 1 :=
  ⟨rfl, fun h => NixValue.noConfusion h⟩

/-- C3: inserting a key that is already bound overwrites that entry in
place (last write wins), and parsing two bindings of the same key yields an
AttrSet with exactly one entry, the later value. -/
theorem C3_last_write_wins :
    (∀ (k : List Char) (v0 v : NixValue)
      (attrs1 attrs2 : List (List Char × NixValue)),
      (attrs1.any fun e => e.1 == k) = false →
      insertAttr k v (attrs1 ++ (k, v0) :: attrs2) = attrs1 ++ (k, v) :: attrs2) ∧
    parse_nix_string 50 "\x7b a = 1; a = 2; \x7d".toList =
      .ok (.attrSet [("a".toList, .int 2)]) := by
  refine ⟨?_, rfl⟩
  intro k v0 v attrs1 attrs2 hnone
  induction attrs1 with
  | nil =>
    show insertAttr k v ((k, v0) :: attrs2) = (k, v) :: attrs2
    unfold insertAttr
    rw [if_pos rfl]
  | cons e rest ih =>
    obtain ⟨k0, w0⟩ := e
    simp only [List.any_cons, Bool.or_eq_false_iff] at hnone
    show insertAttr k v ((k0, w0) :: (rest ++ (k, v0) :: attrs2)) =
      (k0, w0) :: (rest ++ (k, v) :: attrs2)
    unfold insertAttr
    have hne : ¬(k0 = k) := by
      have h1 : (k0 == k) = false := hnone.1
      simpa using h1
    rw [if_neg hne]
    rw [ih hnone.2]

/-- C4: the let-binding loop stops on the literal two-character match `in`
with no word-boundary check, so a binding name beginning with those letters
is eaten as the keyword; the plain example parses to the expected Let
node, while a `index = 1` binding is consumed as `in` + body `dex`. -/
theorem C4_let_in_literal :
    (∀ (fuel : Nat) (binds : List (List Char × NixValue)) (p : NixParser),
      peekS p "in" = true →
      parseLetLoop (fuel + 1) binds p = (do
        let (body, p1) ← parseValue fuel (skip_whitespace (advanceN 2 p))
        .ok (.letE binds body, p1))) ∧
    parse_nix_string 50 "let x = 1; in x".toList =
      .ok (.letE [("x".toList, .int 1)] (.var "x".toList)) ∧
    parse_nix_string 50 "let index = 1; in x".toList =
      .ok (.letE [] (.var "dex".toList)) := by
  refine ⟨?_, rfl, rfl⟩
  intro fuel binds p h
  rw [parseLetLoop]
  rw [if_pos (Or.inl h)]

/-- C5: after the keyword `import` the parser parses exactly one value and
wraps a String or Path payload as an Import node; any other resulting
variant is a fatal SyntaxError, so no Import is ever produced from a
non-String, non-Path argument. -/
theorem C5_import_arg :
    (∀ (fuel : Nat) (p : NixParser) (v : NixValue) (p2 : NixParser),
      skip_whitespace p = p → current p = some 'i' →
      peekS p "null" = false → peekS p "true" = false →
      peekS p "false" = false → peekS p "let" = false →
      peekS p "import" = true →
      parseValue fuel (skip_whitespace (advanceN 6 p)) = .ok (v, p2) →
      parseValue (fuel + 1) p =
        (match v with
         | .str s => .ok (.imprt s, p2)
         | .path s => .ok (.imprt s, p2)
         | _ => .error (mkError p2 "Expected string or path after import"))) ∧
    parse_nix_string 50 "import ./foo.nix".toList =
      .ok (.imprt "./foo.nix".toList) ∧
    parse_nix_string 50 ("import ".toList ++ (dq :: ("/a".toList ++ [dq]))) =
      .ok (.imprt "/a".toList) ∧
    (∃ e, parse_nix_string 50 "import 1".toList = .error e ∧
      e.message = "Expected string or path after import") := by
  refine ⟨?_, rfl, rfl, ⟨_, rfl, rfl⟩⟩
  intro fuel p v p2 hskip hcur h1 h2 h3 h4 h5 hinner
  rw [parseValue_kw fuel p 'i' hskip hcur (by decide) (by decide) (by decide)
    (by decide) (by rintro (h | ⟨h, -⟩) <;> exact absurd h (by decide))
    (by decide) (by decide)]
  rw [if_neg (by rw [h1]; decide), if_neg (by rw [h2]; decide),
    if_neg (by rw [h3]; decide), if_neg (by rw [h4]; decide), if_pos h5]
  rw [hinner, exc_bind_ok]

/-- C6: the number scanner takes the maximal run of digits, dots and
minus signs with no positional checks, classifies the run as Float exactly
when it contains a dot and as Int otherwise, and a failing conversion of
the run is a fatal error. -/
theorem C6_number_scanner :
    (∀ p : NixParser,
      parse_number p =
        (let r := scanWhile numChar p
         if r.1.contains '.' then
           match rustParseF64 r.1 with
           | some q => .ok (.float q, r.2)
           | none => .error (mkError r.2 "Invalid float")
         else
           match rustParseI64 r.1 with
           | some n => .ok (.int n, r.2)
           | none => .error (mkError r.2 "Invalid integer"))) ∧
    (∀ c : Char, numChar c = (c.isDigit || c = '.' || c = '-')) ∧
    (∀ (run pre rest : List Char) (l c : Nat),
      run.all numChar = true → headStop numChar rest →
      ∃ l2 c2, scanWhile numChar ⟨pre ++ run ++ rest, pre.length, l, c⟩ =
        (run, ⟨pre ++ run ++ rest, pre.length + run.length, l2, c2⟩)) ∧
    parse_nix_string 50 "1".toList = .ok (.int 1) ∧
    (∃ q : ℚ, parse_nix_string 50 "1.0".toList = .ok (.float q) ∧ q = 1) ∧
    (∃ e, parse_nix_string 50 "1..2".toList = .error e ∧
      e.message = "Invalid float") := by
  refine ⟨fun p => rfl, fun c => rfl, ?_, rfl, ?_, ⟨_, rfl, rfl⟩⟩
  · intro run pre rest l c hall hstop
    exact scanWhile_run numChar run pre rest l c hall hstop
  · refine ⟨_, rfl, ?_⟩
    show ((foldDigits ['1'] : ℚ) + (foldDigits ['0'] : ℚ) /
      (10 ^ (['0'] : List Char).length : ℚ)) = 1
    rw [show foldDigits ['1'] = 1 from rfl, show foldDigits ['0'] = 0 from rfl]
    norm_num

/-- C7: an unterminated single- or double-quoted string is a fatal error;
for a double quote followed by three letters the error points at line 1,
column 5 (where scanning stopped), with a non-empty context snippet. -/
theorem C7_unterminated_string :
    (∃ e, parse_nix_string 20 (dq :: "abc".toList) = .error e ∧
      e.message = "Unterminated string" ∧ e.line = 1 ∧ e.col = 5 ∧
      e.context ≠ []) ∧
    (∃ e, parse_nix_string 20 (sq :: "abc".toList) = .error e ∧
      e.message = "Unterminated string") := by
  exact ⟨⟨_, rfl, rfl, rfl, rfl, by decide⟩, ⟨_, rfl, rfl⟩⟩

set_option maxHeartbeats 1000000 in
/-- C8: line and block comments are skipped as whitespace and do not
affect the parsed value, and an unterminated block comment is not an
error: the skipper silently stops at end of input. -/
theorem C8_comments_whitespace :
    parse_nix_string 50 "\x7b # c\n a = 1; \x7d".toList =
      parse_nix_string 50 "\x7b a = 1; \x7d".toList ∧
    parse_nix_string 50 "\x7b # c\n a = 1; \x7d".toList =
      .ok (.attrSet [("a".toList, .int 1)]) ∧
    skip_whitespace (NixParser.new "/* abc".toList) =
      ⟨"/* abc".toList, 6, 1, 7⟩ := by
  have h1 : parse_nix_string 50 "\x7b # c\n a = 1; \x7d".toList =
      .ok (.attrSet [("a".toList, .int 1)]) := rfl
  have h2 : parse_nix_string 50 "\x7b a = 1; \x7d".toList =
      .ok (.attrSet [("a".toList, .int 1)]) := rfl
  exact ⟨h1.trans h2.symm, h1, rfl⟩

/-- C9: `parse` is exactly one `parse_value` call and `parse_nix_string`
drops the final cursor, so parsing succeeds on the first complete value and
ignores everything after it: any rendered well-formed value followed by
stop-compatible trailing text parses to that value, and nothing checks that
the remaining input is empty. -/
theorem C9_prefix_only :
    (∀ (fuel : Nat) (p : NixParser), parse fuel p = parseValue fuel p) ∧
    (∀ v : NixValue, wfV v = true → ∀ (ind fuel : Nat), fuelFor v ≤ fuel →
      ∀ rest : List Char, restStop v rest = true →
      parse_nix_string fuel (render v ind ++ rest) = .ok v) ∧
    parse_nix_string 50 "1 2".toList = .ok (.int 1) ∧
    parse_nix_string 50 "1 ???".toList = .ok (.int 1) := by
  refine ⟨fun fuel p => rfl, ?_, rfl, rfl⟩
  intro v hwf ind fuel hfuel rest hrest
  obtain ⟨l2, c2, h⟩ := roundTrip (nsize v) v le_rfl hwf ind [] rest 1 1 fuel
    hfuel hrest
  simp only [List.nil_append, List.length_nil] at h
  unfold parse_nix_string parse NixParser.new
  rw [h]
  rfl

/-- C10: a plain quoted attrset key is stored with its quotes stripped, a
quoted segment inside a dotted attribute path keeps its quotes in the
stored key text, and the serializer prints stored keys verbatim. -/
theorem C10_quoted_keys :
    parse_nix_string 50 ("\x7b ".toList ++ (dq :: ("a b".toList ++
        (dq :: " = 1; \x7d".toList)))) =
      .ok (.attrSet [("a b".toList, .int 1)]) ∧
    parse_nix_string 50 ("\x7b x.".toList ++ (dq :: ('/' ::
        (dq :: " = 1; \x7d".toList)))) =
      .ok (.attrSet [("x.".toList ++ (dq :: ('/' :: [dq])), .int 1)]) ∧
    (∀ (k : List Char) (v : NixValue) (es : List (List Char × NixValue))
      (ind : Nat),
      renderEntries ((k, v) :: es) ind =
        renderIndent ind ++ ' ' :: ' ' :: k ++ ' ' :: '=' :: ' ' ::
          render v (ind + 1) ++ ';' :: '\n' :: renderEntries es ind) := by
  exact ⟨rfl, rfl, fun k v es ind => rfl⟩
